import Mathlib

/-!
Device reductions of `AMReX_GpuReduce.H`.

A shallow embedding of `Src/Base/AMReX_GpuReduce.H`: the shuffle-based reductions of the
CUDA/HIP path (`warpReduce`, `blockReduce`, `blockReduce_partial`, the `deviceReduce*_full`
functions and the `deviceReduce*` entry points), the manual tree reduction
(`amdWarpReduce*`, `cudaWarpReduce*`, `blockReduce*`), the CPU fallback, and the SYCL path of
`warpReduce`, `blockReduce` and `blockReduce_partial` (namespace `Sycl`).

The code is SIMT: every thread of a block runs the same function on its own
value.  A block is modelled by the map `threadIdx.x ↦ value` (a function
`Nat → T`), a lane-group by the map `lane ↦ value`, and a function of the
source is modelled by the map it induces on these, evaluated at one thread.
An entry point returns, for a thread, the argument of the atomic update that
the thread issues on `dest`, if it issues one.
-/

namespace amrex

/-! ## Functors of `AMReX_Functional.H` and atomics of `AMReX_GpuAtomic.H` -/

/-- Modelled from the spec: `amrex::Plus<T>` of `AMReX_Functional.H` (not among
the sources), the sum of its two arguments, here over exact integers. -/
def Plus (lhs rhs : Int) : Int := lhs + rhs

/-- Modelled from the spec: `amrex::Less<T>` of `AMReX_Functional.H` (not among
the sources), which returns the smaller of its two arguments. -/
def Less {T : Type} [LinearOrder T] (lhs rhs : T) : T := if lhs < rhs then lhs else rhs

/-- Modelled from the spec: `amrex::Greater<T>` of `AMReX_Functional.H` (not
among the sources), which returns the larger of its two arguments. -/
def Greater {T : Type} [LinearOrder T] (lhs rhs : T) : T := if lhs > rhs then lhs else rhs

/-- Modelled from the spec: `amrex::LogicalAnd<int>` of `AMReX_Functional.H`
(not among the sources), `lhs && rhs` converted to `int`. -/
def LogicalAnd (lhs rhs : Int) : Int := if lhs ≠ 0 ∧ rhs ≠ 0 then 1 else 0

/-- Modelled from the spec: `amrex::LogicalOr<int>` of `AMReX_Functional.H`
(not among the sources), `lhs || rhs` converted to `int`. -/
def LogicalOr (lhs rhs : Int) : Int := if lhs ≠ 0 ∨ rhs ≠ 0 then 1 else 0

namespace Gpu

/-- Modelled from the spec: `Gpu::Atomic::AddNoRet` / `Gpu::AtomicAdd` of
`AMReX_GpuAtomic.H` (not among the sources): `dest := dest + x`. -/
def AtomicAdd (dest x : Int) : Int := dest + x

/-- Modelled from the spec: `Gpu::Atomic::Min` / `Gpu::AtomicMin` of
`AMReX_GpuAtomic.H` (not among the sources): `dest := min(dest, x)`. -/
def AtomicMin {T : Type} [LinearOrder T] (dest x : T) : T := min dest x

/-- Modelled from the spec: `Gpu::Atomic::Max` / `Gpu::AtomicMax` of
`AMReX_GpuAtomic.H` (not among the sources): `dest := max(dest, x)`. -/
def AtomicMax {T : Type} [LinearOrder T] (dest x : T) : T := max dest x

/-- Modelled from the spec: `Gpu::Atomic::LogicalAnd` / `Gpu::AtomicLogicalAnd`
of `AMReX_GpuAtomic.H` (not among the sources): `dest := dest && x`. -/
def AtomicLogicalAnd (dest x : Int) : Int := if dest ≠ 0 ∧ x ≠ 0 then 1 else 0

/-- Modelled from the spec: `Gpu::Atomic::LogicalOr` / `Gpu::AtomicLogicalOr`
of `AMReX_GpuAtomic.H` (not among the sources): `dest := dest || x`. -/
def AtomicLogicalOr (dest x : Int) : Int := if dest ≠ 0 ∨ x ≠ 0 then 1 else 0

/-- Modelled from the spec: `Gpu::Handler` of `AMReX_GpuTypes.H` (not among the
sources); the reductions read only `numActiveThreads`. -/
structure Handler where
  numActiveThreads : Nat

/-- Modelled from the spec: `Handler::isFullBlock` of `AMReX_GpuTypes.H` (not
among the sources): the number of active threads equals the block capacity
`blockDim.x`. -/
def Handler.isFullBlock (h : Handler) (blockDim : Nat) : Bool :=
  h.numActiveThreads == blockDim

/-! ## Warp level -/

/-- Shuffle-down in a lane-group of `warpSize` lanes (`__shfl_down`,
`__shfl_down_sync(0xffffffff, ..)`): lane `lane` receives the value held by
lane `lane + offset` when that lane exists, and its own value otherwise. -/
def shfl_down {T : Type} (warpSize : Nat) (x : Nat → T) (offset lane : Nat) : T :=
  if lane + offset < warpSize then x (lane + offset) else x lane

/-- The loop `for (offset = ..; offset > 0; offset /= 2)` of `warpReduce::operator()`,
with body `y = shfl_down(x, offset); x = F()(x,y);`, run in lockstep by the lanes of a
lane-group; `fuel` bounds the number of iterations. -/
def warpReduceLoop {T : Type} (warpSize : Nat) (F : T → T → T) :
    Nat → Nat → (Nat → T) → (Nat → T)
  | 0, _, x => x
  | fuel + 1, offset, x =>
    if 0 < offset then
      warpReduceLoop warpSize F fuel (offset / 2)
        (fun lane => F (x lane) (shfl_down warpSize x offset lane))
    else x

/-- The function `warpReduce<warpSize,T,F>::operator()`: the loop started at
`offset = warpSize/2`.  The halving loop runs at most `warpSize` times. -/
def warpReduce {T : Type} (warpSize : Nat) (F : T → T → T) (x : Nat → T) : Nat → T :=
  warpReduceLoop warpSize F warpSize (warpSize / 2) x

/-! ## Block level -/

/-- The lane values of the lane-group that thread `tid` belongs to. -/
def warpLanes {T : Type} (warpSize : Nat) (x : Nat → T) (tid : Nat) : Nat → T :=
  fun lane => x ((tid / warpSize) * warpSize + lane)

/-- The line `if (lane == 0) shared[wid] = x;` of `blockReduce`, executed by the
threads `0 .. blockDim-1` between the two barriers, on the staging array
`shared`. -/
def writeShared {T : Type} (warpSize blockDim : Nat) (x : Nat → T) (shared : Nat → T) :
    Nat → T :=
  (List.range blockDim).foldl
    (fun sh tid => if tid % warpSize = 0 then Function.update sh (tid / warpSize) (x tid) else sh)
    shared

/-- The value of `x` after `x = b ? shared[lane] : x0;` in `blockReduce`, on
thread `tid`: `x` holds the thread values on entry, `x0` the pad passed by each
thread, `shared0` the contents of the staging array on entry. -/
def blockReduceReread {T : Type} (warpSize blockDim : Nat)
    (warp_reduce : (Nat → T) → Nat → T) (x x0 shared0 : Nat → T) (tid : Nat) : T :=
  let lane := tid % warpSize
  let x1 : Nat → T := fun t => warp_reduce (warpLanes warpSize x t) (t % warpSize)
  let shared := writeShared warpSize blockDim x1 shared0
  let b : Bool := decide (tid = 0) || decide (tid < blockDim / warpSize)
  if b then shared lane else x0 tid

/-- The function `blockReduce<warpSize>(x, warp_reduce, x0)`: the value returned on thread
`tid` of a block of `blockDim` threads. -/
def blockReduce {T : Type} (warpSize blockDim : Nat)
    (warp_reduce : (Nat → T) → Nat → T) (x x0 shared0 : Nat → T) (tid : Nat) : T :=
  let lane := tid % warpSize
  let wid := tid / warpSize
  let x2 : Nat → T := blockReduceReread warpSize blockDim warp_reduce x x0 shared0
  if wid = 0 then warp_reduce (warpLanes warpSize x2 tid) lane else x2 tid

/-- The function `blockReduce_partial<warpSize>(dest, x, warp_reduce, atomic_op, handler)`:
the argument of the `atomic_op(dest, x)` issued by thread `tid`, if any. -/
def blockReduce_partial {T : Type} (warpSize : Nat)
    (warp_reduce : (Nat → T) → Nat → T) (x : Nat → T) (handler : Handler) (tid : Nat) :
    Option T :=
  let warp := tid / warpSize
  if (warp + 1) * warpSize ≤ handler.numActiveThreads then
    let x1 := warp_reduce (warpLanes warpSize x tid) (tid % warpSize)
    if tid % warpSize = 0 then some x1 else none
  else
    some (x tid)

/-! ## Full-block functions -/

/-- The function `deviceReduceSum_full`: the argument of thread `tid`'s `AddNoRet`, if any. -/
def deviceReduceSum_full (warpSize blockDim : Nat) (source shared0 : Nat → Int)
    (tid : Nat) : Option Int :=
  let r := blockReduce warpSize blockDim (warpReduce warpSize Plus) source (fun _ => 0) shared0 tid
  if tid = 0 then some r else none

/-- The function `deviceReduceMin_full`: the argument of thread `tid`'s `Atomic::Min`, if any.
The pad passed to `blockReduce` is the thread's own `source`. -/
def deviceReduceMin_full {T : Type} [LinearOrder T] (warpSize blockDim : Nat)
    (source shared0 : Nat → T) (tid : Nat) : Option T :=
  let r := blockReduce warpSize blockDim (warpReduce warpSize Less) source source shared0 tid
  if tid = 0 then some r else none

/-- The function `deviceReduceMax_full`: the argument of thread `tid`'s `Atomic::Max`, if any.
The pad passed to `blockReduce` is the thread's own `source`. -/
def deviceReduceMax_full {T : Type} [LinearOrder T] (warpSize blockDim : Nat)
    (source shared0 : Nat → T) (tid : Nat) : Option T :=
  let r := blockReduce warpSize blockDim (warpReduce warpSize Greater) source source shared0 tid
  if tid = 0 then some r else none

/-- The function `deviceReduceLogicalAnd_full`: the argument of thread `tid`'s
`Atomic::LogicalAnd`, if any. -/
def deviceReduceLogicalAnd_full (warpSize blockDim : Nat) (source shared0 : Nat → Int)
    (tid : Nat) : Option Int :=
  let r := blockReduce warpSize blockDim (warpReduce warpSize LogicalAnd) source (fun _ => 1)
    shared0 tid
  if tid = 0 then some r else none

/-- The function `deviceReduceLogicalOr_full`: the argument of thread `tid`'s
`Atomic::LogicalOr`, if any. -/
def deviceReduceLogicalOr_full (warpSize blockDim : Nat) (source shared0 : Nat → Int)
    (tid : Nat) : Option Int :=
  let r := blockReduce warpSize blockDim (warpReduce warpSize LogicalOr) source (fun _ => 0)
    shared0 tid
  if tid = 0 then some r else none

/-! ## Entry points -/

/-- The function `deviceReduceSum (dest, source, handler)` on thread `tid`. -/
def deviceReduceSum (warpSize blockDim : Nat) (source shared0 : Nat → Int)
    (handler : Handler) (tid : Nat) : Option Int :=
  if handler.isFullBlock blockDim then deviceReduceSum_full warpSize blockDim source shared0 tid
  else blockReduce_partial warpSize (warpReduce warpSize Plus) source handler tid

/-- The function `deviceReduceMin (dest, source, handler)` on thread `tid`. -/
def deviceReduceMin {T : Type} [LinearOrder T] (warpSize blockDim : Nat)
    (source shared0 : Nat → T) (handler : Handler) (tid : Nat) : Option T :=
  if handler.isFullBlock blockDim then deviceReduceMin_full warpSize blockDim source shared0 tid
  else blockReduce_partial warpSize (warpReduce warpSize Less) source handler tid

/-- The function `deviceReduceMax (dest, source, handler)` on thread `tid`. -/
def deviceReduceMax {T : Type} [LinearOrder T] (warpSize blockDim : Nat)
    (source shared0 : Nat → T) (handler : Handler) (tid : Nat) : Option T :=
  if handler.isFullBlock blockDim then deviceReduceMax_full warpSize blockDim source shared0 tid
  else blockReduce_partial warpSize (warpReduce warpSize Greater) source handler tid

/-- The function `deviceReduceLogicalAnd (dest, source, handler)` on thread `tid`. -/
def deviceReduceLogicalAnd (warpSize blockDim : Nat) (source shared0 : Nat → Int)
    (handler : Handler) (tid : Nat) : Option Int :=
  if handler.isFullBlock blockDim then
    deviceReduceLogicalAnd_full warpSize blockDim source shared0 tid
  else blockReduce_partial warpSize (warpReduce warpSize LogicalAnd) source handler tid

/-- The function `deviceReduceLogicalOr (dest, source, handler)` on thread `tid`. -/
def deviceReduceLogicalOr (warpSize blockDim : Nat) (source shared0 : Nat → Int)
    (handler : Handler) (tid : Nat) : Option Int :=
  if handler.isFullBlock blockDim then
    deviceReduceLogicalOr_full warpSize blockDim source shared0 tid
  else blockReduce_partial warpSize (warpReduce warpSize LogicalOr) source handler tid

/-! ## Specification vocabulary -/

/-- The combination `v 0 F v 1 F .. F v n` of the `n + 1` values `v 0 .. v n` under
`F`, taken from left to right. -/
def comb {T : Type} (F : T → T → T) (v : Nat → T) : Nat → T
  | 0 => v 0
  | n + 1 => F (comb F v n) (v (n + 1))

/-- The arguments of the atomic updates issued by the threads `0 .. n-1` of a
block, in thread order, when thread `tid` issues `f tid`. -/
def issued {T : Type} (n : Nat) (f : Nat → Option T) : List T := (List.range n).filterMap f

/-- One thread block of a launch: the number of its active threads, the value
held by each thread, and the contents of its staging array before the call. -/
structure Block (T : Type) where
  numActive : Nat
  source : Nat → T
  shared0 : Nat → T

/-- The values contributed by the active threads of a block, in thread order. -/
def Block.values {T : Type} (b : Block T) : List T := (List.range b.numActive).map b.source

/-- The values contributed by all active threads of a launch. -/
def launchValues {T : Type} (blocks : List (Block T)) : List T :=
  blocks.flatMap Block.values

/-- The arguments of all atomic updates issued on `dest` during a launch in which
every active thread calls the entry point `entry` once, with the handler of its
block. -/
def launchAtomics {T : Type} (entry : (Nat → T) → (Nat → T) → Handler → Nat → Option T)
    (blocks : List (Block T)) : List T :=
  blocks.flatMap (fun b => issued b.numActive (entry b.source b.shared0 ⟨b.numActive⟩))

/-! ## Sample launches -/

/-- A launch of two blocks of capacity 4: a boundary block with 3 active threads holding
1, 2, 3 and a full block holding 0, 10, 20, 30. -/
def sampleLaunch : List (Block Int) :=
  [⟨3, fun i => (i : Int) + 1, fun _ => 0⟩, ⟨4, fun i => 10 * (i : Int), fun _ => 0⟩]

/-- A launch of two blocks of capacity 4 over the bounded type `Fin 8`: a boundary block
with 3 active threads holding 5, 2, 5 and a full block holding 6, 6, 6, 6. -/
def sampleLaunchFin : List (Block (Fin 8)) :=
  [⟨3, fun i => if i = 1 then 2 else 5, fun _ => 0⟩, ⟨4, fun _ => 6, fun _ => 0⟩]

/-- A launch of two blocks of capacity 4 with boolean values: a boundary block with 3
active threads holding 1, 0, 1 and a full block holding 1, 1, 1, 1. -/
def sampleLaunchBool : List (Block Int) :=
  [⟨3, fun i => if i = 1 then 0 else 1, fun _ => 0⟩, ⟨4, fun _ => 1, fun _ => 0⟩]

/-! ## Rounds of the lane-group reduction and order of combination -/

/-- The shuffle offsets used by the rounds of the loop of `warpReduce::operator()`, in the
order of the rounds: the control `for (offset = ..; offset > 0; offset /= 2)` of
`warpReduceLoop`, with the same fuel. -/
def warpReduceOffsets : Nat → Nat → List Nat
  | 0, _ => []
  | fuel + 1, offset =>
    if 0 < offset then offset :: warpReduceOffsets fuel (offset / 2) else []

/-- One round of the loop of `warpReduce::operator()` at shuffle offset `offset`:
`y = shfl_down(x, offset); x = F()(x,y);` on every lane. -/
def warpReduceRound {T : Type} (warpSize : Nat) (F : T → T → T) (x : Nat → T) (offset : Nat) :
    Nat → T :=
  fun lane => F (x lane) (shfl_down warpSize x offset lane)

/-- The lane index obtained by reversing the `k` low bits of `i`. -/
def bitReverse : Nat → Nat → Nat
  | 0, _ => 0
  | k + 1, i => 2 ^ k * (i % 2) + bitReverse k (i / 2)

/-! ## Barriers and accesses of the staging array -/

/-- The events of a thread that matter for the staging array `shared` of `blockReduce`. -/
inductive Event where
  /-- A call of `warp_reduce`: lane exchanges only, no access of `shared`. -/
  | shuffles : Event
  /-- A block-wide barrier `__syncthreads()`. -/
  | barrier : Event
  /-- The write `shared[slot] = x`. -/
  | write (slot : Nat) : Event
  /-- The read `shared[slot]`. -/
  | read (slot : Nat) : Event
deriving DecidableEq

/-- Whether an event is a block-wide barrier. -/
def Event.isBarrier : Event → Bool
  | Event.barrier => true
  | _ => false

/-- The events of thread `tid` in one call of `blockReduce<warpSize>` in a block of
`blockDim` threads, in program order: `warp_reduce`, barrier, the write of `shared[wid]` if
`lane == 0`, barrier, the read of `shared[lane]` if `b`, `warp_reduce` if `wid == 0`. -/
def blockReduceEvents (warpSize blockDim tid : Nat) : List Event :=
  let lane := tid % warpSize
  let wid := tid / warpSize
  [Event.shuffles, Event.barrier]
    ++ (if lane = 0 then [Event.write wid] else [])
    ++ [Event.barrier]
    ++ (if tid = 0 ∨ tid < blockDim / warpSize then [Event.read lane] else [])
    ++ (if wid = 0 then [Event.shuffles] else [])

/-- The events of thread `tid` in a kernel that calls `blockReduce` `calls` times in a row. -/
def kernelEvents (warpSize blockDim tid : Nat) : Nat → List Event
  | 0 => []
  | calls + 1 => blockReduceEvents warpSize blockDim tid ++ kernelEvents warpSize blockDim tid calls

/-- Every event of a thread tagged with its barrier phase: the number of block-wide
barriers the thread has passed before it, counted from `p`.  All threads of a block pass
each barrier together, so an event of phase `p` of one thread precedes every event of a
phase `q > p` of every thread of the block. -/
def tagPhases : Nat → List Event → List (Nat × Event)
  | _, [] => []
  | p, e :: es => (p, e) :: tagPhases (if e.isBarrier then p + 1 else p) es

/-- The number of block-wide barriers in a list of events. -/
def countBarriers (es : List Event) : Nat := (es.filter Event.isBarrier).length

/-! ## Manual tree reduction

The source has one copy of each function below per operator (`amdWarpReduceSum`,
`amdWarpReduceMin`, .., `blockReduceOr`); the copies differ only in the operation `op`
applied to `data[tid]` and the other cell, which is a parameter here.  `data` is the shared
array seen as memory: a map from indices to values, whose cells from `blockSize` on are
whatever lies behind the array. -/

/-- The compile-time target of the tree reduction: the value of `__CUDA_ARCH__` (0 when it
is not defined) and whether `__HIP_DEVICE_COMPILE__` is defined. -/
structure Target where
  cudaArch : Nat
  hipDeviceCompile : Bool

/-- The C++ expression `a && b` on `int`, converted to `int`. -/
def andInt (a b : Int) : Int := if a ≠ 0 ∧ b ≠ 0 then 1 else 0

/-- The C++ expression `a || b` on `int`, converted to `int`. -/
def orInt (a b : Int) : Int := if a ≠ 0 ∨ b ≠ 0 then 1 else 0

/-- The statement `data[tid] = op(data[tid], data[tid + off])` executed by the threads
`tid < callers`.  Every thread reads its two cells before any thread writes: the threads
of a lane-group run the statement in lockstep, and where the statement is guarded by
`tid < off` the cells that are written are not read by another thread. -/
def treeStep {T : Type} (op : T → T → T) (callers off : Nat) (data : Nat → T) : Nat → T :=
  fun i => if i < callers then op (data i) (data (i + off)) else data i

/-- The unguarded line `if (blockSize >= threshold) data[tid] = op(data[tid], data[tid + off]);`
of `amdWarpReduce*` and `cudaWarpReduce*_lt7`, run by the threads `tid < callers`. -/
def lockstepLine {T : Type} (op : T → T → T) (blockSize callers threshold off : Nat)
    (data : Nat → T) : Nat → T :=
  if threshold ≤ blockSize then treeStep op callers off data else data

/-- The guarded line `if (blockSize >= threshold) { if (tid < guard) { data[tid] =
op(data[tid], data[tid + off]); } sync; }` of `cudaWarpReduce*_ge7` (with `__syncwarp()`) and
of `blockReduce*` (with `__syncthreads()`), run by the threads `tid < callers`. -/
def guardedLine {T : Type} (op : T → T → T) (blockSize callers threshold guard off : Nat)
    (data : Nat → T) : Nat → T :=
  if threshold ≤ blockSize then treeStep op (min callers guard) off data else data

/-- The function `amdWarpReduce*<blockSize>(data, tid)`, called by the threads
`tid < callers`. -/
def amdWarpReduce {T : Type} (op : T → T → T) (tg : Target) (blockSize callers : Nat)
    (data : Nat → T) : Nat → T :=
  if tg.hipDeviceCompile then
    let d := lockstepLine op blockSize callers 128 64 data
    let d := lockstepLine op blockSize callers 64 32 d
    let d := lockstepLine op blockSize callers 32 16 d
    let d := lockstepLine op blockSize callers 16 8 d
    let d := lockstepLine op blockSize callers 8 4 d
    let d := lockstepLine op blockSize callers 4 2 d
    lockstepLine op blockSize callers 2 1 d
  else data

/-- The function `cudaWarpReduce*_lt7<blockSize>(data, tid)`, called by the threads
`tid < callers`. -/
def cudaWarpReduce_lt7 {T : Type} (op : T → T → T) (tg : Target) (blockSize callers : Nat)
    (data : Nat → T) : Nat → T :=
  if tg.cudaArch < 700 then
    let d := lockstepLine op blockSize callers 64 32 data
    let d := lockstepLine op blockSize callers 32 16 d
    let d := lockstepLine op blockSize callers 16 8 d
    let d := lockstepLine op blockSize callers 8 4 d
    let d := lockstepLine op blockSize callers 4 2 d
    lockstepLine op blockSize callers 2 1 d
  else data

/-- The function `cudaWarpReduce*_ge7<blockSize>(data, tid)`, called by the threads
`tid < callers`. -/
def cudaWarpReduce_ge7 {T : Type} (op : T → T → T) (tg : Target) (blockSize callers : Nat)
    (data : Nat → T) : Nat → T :=
  if 700 ≤ tg.cudaArch then
    let d := guardedLine op blockSize callers 64 32 32 data
    let d := guardedLine op blockSize callers 32 16 16 d
    let d := guardedLine op blockSize callers 16 8 8 d
    let d := guardedLine op blockSize callers 8 4 4 d
    let d := guardedLine op blockSize callers 4 2 2 d
    guardedLine op blockSize callers 2 1 1 d
  else data

/-- The function `cudaWarpReduce*<blockSize>(data, tid)`, called by the threads
`tid < callers`. -/
def cudaWarpReduce {T : Type} (op : T → T → T) (tg : Target) (blockSize callers : Nat)
    (data : Nat → T) : Nat → T :=
  if 700 ≤ tg.cudaArch then cudaWarpReduce_ge7 op tg blockSize callers data
  else cudaWarpReduce_lt7 op tg blockSize callers data

/-- The loop `for (int n = ..; n < blockSize; n += 512) { data[tid] = op(data[tid], data[n]); }`
of `blockReduce*` on one thread: `acc` is the value of `data[tid]`, `fuel` bounds the number
of iterations. -/
def stridedLoop {T : Type} (op : T → T → T) (blockSize : Nat) (data : Nat → T) :
    Nat → Nat → T → T
  | 0, _, acc => acc
  | fuel + 1, n, acc =>
    if n < blockSize then stridedLoop op blockSize data fuel (n + 512) (op acc (data n))
    else acc

/-- The first stage of `blockReduce*`, `if (tid < 512) { for (n = tid+512; ..) .. }`, run by
the threads `tid < blockSize`; the loop runs at most `blockSize` times. -/
def stridedStage {T : Type} (op : T → T → T) (blockSize : Nat) (data : Nat → T) : Nat → T :=
  fun i => if i < min blockSize 512 then stridedLoop op blockSize data blockSize (i + 512) (data i)
    else data i

/-- The contents of `data` after `blockReduce*<blockSize,warpSize>(data, out)` has been run
by the threads `tid < blockSize`. -/
def blockReduceTree {T : Type} (op : T → T → T) (tg : Target) (blockSize warpSize : Nat)
    (data : Nat → T) : Nat → T :=
  let d := if 1024 ≤ blockSize then stridedStage op blockSize data else data
  let d := guardedLine op blockSize blockSize 512 256 256 d
  let d := guardedLine op blockSize blockSize 256 128 128 d
  if 64 ≤ warpSize then
    amdWarpReduce op tg blockSize (min blockSize 64) d
  else
    let d := guardedLine op blockSize blockSize 128 64 64 d
    cudaWarpReduce op tg blockSize (min blockSize 32) d

/-- The function `blockReduceSum<blockSize,warpSize>(data, sum)` over exact integers: the
value of the out-parameter `sum` of thread `tid` after the call. -/
def blockReduceSum (tg : Target) (blockSize warpSize : Nat) (data : Nat → Int) (sum : Int)
    (tid : Nat) : Int :=
  if tid = 0 then blockReduceTree (fun a b => a + b) tg blockSize warpSize data 0 else sum

/-- The function `blockReduceMin<blockSize,warpSize>(data, dmin)`: the value of the
out-parameter `dmin` of thread `tid` after the call; `amrex::min` is the minimum. -/
def blockReduceMin {T : Type} [LinearOrder T] (tg : Target) (blockSize warpSize : Nat)
    (data : Nat → T) (dmin : T) (tid : Nat) : T :=
  if tid = 0 then blockReduceTree min tg blockSize warpSize data 0 else dmin

/-- The function `blockReduceMax<blockSize,warpSize>(data, dmax)`: the value of the
out-parameter `dmax` of thread `tid` after the call; `amrex::max` is the maximum. -/
def blockReduceMax {T : Type} [LinearOrder T] (tg : Target) (blockSize warpSize : Nat)
    (data : Nat → T) (dmax : T) (tid : Nat) : T :=
  if tid = 0 then blockReduceTree max tg blockSize warpSize data 0 else dmax

/-- The function `blockReduceAnd<blockSize,warpSize>(data, r)` over `int`: the value of the
out-parameter `r` of thread `tid` after the call. -/
def blockReduceAnd (tg : Target) (blockSize warpSize : Nat) (data : Nat → Int) (r : Int)
    (tid : Nat) : Int :=
  if tid = 0 then blockReduceTree andInt tg blockSize warpSize data 0 else r

/-- The function `blockReduceOr<blockSize,warpSize>(data, r)` over `int`: the value of the
out-parameter `r` of thread `tid` after the call. -/
def blockReduceOr (tg : Target) (blockSize warpSize : Nat) (data : Nat → Int) (r : Int)
    (tid : Nat) : Int :=
  if tid = 0 then blockReduceTree orInt tg blockSize warpSize data 0 else r

/-! ### Cells of `data` accessed by a thread -/

/-- The cells of `data` that thread `tid` reads or writes in an unguarded line
`if (blockSize >= threshold) data[tid] = op(data[tid], data[tid + off]);`. -/
def lockstepLineIdx (blockSize threshold off tid : Nat) : List Nat :=
  if threshold ≤ blockSize then [tid, tid + off] else []

/-- The cells of `data` that thread `tid` reads or writes in a guarded line
`if (blockSize >= threshold) { if (tid < guard) { data[tid] = op(data[tid], data[tid + off]); } }`. -/
def guardedLineIdx (blockSize threshold guard off tid : Nat) : List Nat :=
  if threshold ≤ blockSize then (if tid < guard then [tid, tid + off] else []) else []

/-- The cells of `data` that thread `tid` reads or writes in `amdWarpReduce*<blockSize>`. -/
def amdWarpReduceIdx (tg : Target) (blockSize tid : Nat) : List Nat :=
  if tg.hipDeviceCompile then
    lockstepLineIdx blockSize 128 64 tid ++ lockstepLineIdx blockSize 64 32 tid
      ++ lockstepLineIdx blockSize 32 16 tid ++ lockstepLineIdx blockSize 16 8 tid
      ++ lockstepLineIdx blockSize 8 4 tid ++ lockstepLineIdx blockSize 4 2 tid
      ++ lockstepLineIdx blockSize 2 1 tid
  else []

/-- The cells of `data` that thread `tid` reads or writes in `cudaWarpReduce*_lt7<blockSize>`. -/
def cudaWarpReduce_lt7Idx (tg : Target) (blockSize tid : Nat) : List Nat :=
  if tg.cudaArch < 700 then
    lockstepLineIdx blockSize 64 32 tid
      ++ lockstepLineIdx blockSize 32 16 tid ++ lockstepLineIdx blockSize 16 8 tid
      ++ lockstepLineIdx blockSize 8 4 tid ++ lockstepLineIdx blockSize 4 2 tid
      ++ lockstepLineIdx blockSize 2 1 tid
  else []

/-- The cells of `data` that thread `tid` reads or writes in `cudaWarpReduce*_ge7<blockSize>`. -/
def cudaWarpReduce_ge7Idx (tg : Target) (blockSize tid : Nat) : List Nat :=
  if 700 ≤ tg.cudaArch then
    guardedLineIdx blockSize 64 32 32 tid
      ++ guardedLineIdx blockSize 32 16 16 tid ++ guardedLineIdx blockSize 16 8 8 tid
      ++ guardedLineIdx blockSize 8 4 4 tid ++ guardedLineIdx blockSize 4 2 2 tid
      ++ guardedLineIdx blockSize 2 1 1 tid
  else []

/-- The cells of `data` that thread `tid` reads or writes in `cudaWarpReduce*<blockSize>`. -/
def cudaWarpReduceIdx (tg : Target) (blockSize tid : Nat) : List Nat :=
  if 700 ≤ tg.cudaArch then cudaWarpReduce_ge7Idx tg blockSize tid
  else cudaWarpReduce_lt7Idx tg blockSize tid

/-- The cells of `data` that thread `tid` reads or writes in the loop
`for (int n = ..; n < blockSize; n += 512) { data[tid] = op(data[tid], data[n]); }`. -/
def stridedLoopIdx (blockSize tid : Nat) : Nat → Nat → List Nat
  | 0, _ => []
  | fuel + 1, n =>
    if n < blockSize then tid :: n :: stridedLoopIdx blockSize tid fuel (n + 512) else []

/-- The cells of `data` that thread `tid` reads or writes in
`blockReduce*<blockSize,warpSize>(data, out)`, the final read `out = data[0]` of thread 0
included. -/
def blockReduceTreeIdx (tg : Target) (blockSize warpSize tid : Nat) : List Nat :=
  (if 1024 ≤ blockSize then
      (if tid < 512 then stridedLoopIdx blockSize tid blockSize (tid + 512) else [])
    else [])
    ++ guardedLineIdx blockSize 512 256 256 tid
    ++ guardedLineIdx blockSize 256 128 128 tid
    ++ (if 64 ≤ warpSize then (if tid < 64 then amdWarpReduceIdx tg blockSize tid else [])
        else guardedLineIdx blockSize 128 64 64 tid
          ++ (if tid < 32 then cudaWarpReduceIdx tg blockSize tid else []))
    ++ (if tid = 0 then [0] else [])

/-! ## CPU fallback (no accelerator) -/

namespace Host

/-- The CPU function `deviceReduceSum_full`: the value of `*dest` after `*dest += source`. -/
def deviceReduceSum_full (dest source : Int) : Int := dest + source

/-- The CPU entry point `deviceReduceSum (dest, source, handler)`: the value of `*dest` after
the call. -/
def deviceReduceSum (dest source : Int) (_h : Handler) : Int := deviceReduceSum_full dest source

/-- The CPU function `deviceReduceMin_full`: the value of `*dest` after
`*dest = std::min(*dest, source)`; `std::min(a, b)` is `b` when `b < a` and `a` otherwise. -/
def deviceReduceMin_full {T : Type} [LinearOrder T] (dest source : T) : T :=
  if source < dest then source else dest

/-- The CPU entry point `deviceReduceMin (dest, source, handler)`. -/
def deviceReduceMin {T : Type} [LinearOrder T] (dest source : T) (_h : Handler) : T :=
  deviceReduceMin_full dest source

/-- The CPU function `deviceReduceMax_full`: the value of `*dest` after
`*dest = std::max(*dest, source)`; `std::max(a, b)` is `b` when `a < b` and `a` otherwise. -/
def deviceReduceMax_full {T : Type} [LinearOrder T] (dest source : T) : T :=
  if dest < source then source else dest

/-- The CPU entry point `deviceReduceMax (dest, source, handler)`. -/
def deviceReduceMax {T : Type} [LinearOrder T] (dest source : T) (_h : Handler) : T :=
  deviceReduceMax_full dest source

/-- The CPU function `deviceReduceLogicalAnd_full`: the value of `*dest` after
`*dest = (*dest) && source`. -/
def deviceReduceLogicalAnd_full (dest source : Int) : Int :=
  if dest ≠ 0 ∧ source ≠ 0 then 1 else 0

/-- The CPU entry point `deviceReduceLogicalAnd (dest, source, handler)`. -/
def deviceReduceLogicalAnd (dest source : Int) (_h : Handler) : Int :=
  deviceReduceLogicalAnd_full dest source

/-- The CPU function `deviceReduceLogicalOr_full`: the value of `*dest` after
`*dest = (*dest) || source`. -/
def deviceReduceLogicalOr_full (dest source : Int) : Int :=
  if dest ≠ 0 ∨ source ≠ 0 then 1 else 0

/-- The CPU entry point `deviceReduceLogicalOr (dest, source, handler)`. -/
def deviceReduceLogicalOr (dest source : Int) (_h : Handler) : Int :=
  deviceReduceLogicalOr_full dest source

end Host

/-! ## SYCL path of the shuffle-based reductions -/

namespace Sycl

/-- The sub-groups of a work-group as `sycl::ONEAPI::sub_group` reports them to the work-item
with local id `tid`: `sg.get_group_id()[0]`, `sg.get_local_id()[0]` and
`sg.get_group_range()[0]`. -/
structure SubGroups where
  groupId : Nat → Nat
  localId : Nat → Nat
  groupRange : Nat

/-- The value that the work-item at lane `lane` of the sub-group of work-item `tid` holds, in
a work-group of `blockDim` work-items holding `x`; the value of `tid` itself when its
sub-group has no work-item at that lane. -/
def laneValue {T : Type} (sg : SubGroups) (blockDim : Nat) (x : Nat → T) (tid lane : Nat) : T :=
  (List.range blockDim).foldl
    (fun v t => if sg.groupId t = sg.groupId tid ∧ sg.localId t = lane then x t else v)
    (x tid)

/-- The call `sg.shuffle_down(x, offset)` on work-item `tid`: the value held by the work-item
of the same sub-group whose lane id is larger by `offset`, and the own value when there is
no such work-item (as for `shfl_down`). -/
def shuffle_down {T : Type} (sg : SubGroups) (blockDim : Nat) (x : Nat → T)
    (offset tid : Nat) : T :=
  laneValue sg blockDim x tid (sg.localId tid + offset)

/-- The loop `for (offset = ..; offset > 0; offset /= 2)` of the SYCL `warpReduce::operator()`,
with body `y = sg.shuffle_down(x, offset); x = F()(x,y);`, run by the work-items of a
work-group; `fuel` bounds the number of iterations. -/
def warpReduceLoop {T : Type} (sg : SubGroups) (blockDim : Nat) (F : T → T → T) :
    Nat → Nat → (Nat → T) → (Nat → T)
  | 0, _, x => x
  | fuel + 1, offset, x =>
    if 0 < offset then
      warpReduceLoop sg blockDim F fuel (offset / 2)
        (fun tid => F (x tid) (shuffle_down sg blockDim x offset tid))
    else x

/-- The SYCL function `warpReduce<warpSize,T,F>::operator() (x, sg)`: the map from the values
held by the work-items to the values returned to them. -/
def warpReduce {T : Type} (warpSize : Nat) (F : T → T → T) (sg : SubGroups) (blockDim : Nat)
    (x : Nat → T) : Nat → T :=
  warpReduceLoop sg blockDim F warpSize (warpSize / 2) x

/-- The line `if (lane == 0) shared[wid] = x;` of the SYCL `blockReduce`, executed by the
work-items `0 .. blockDim-1` between the two barriers, on the staging array `shared`. -/
def writeShared {T : Type} (sg : SubGroups) (blockDim : Nat) (x : Nat → T) (shared : Nat → T) :
    Nat → T :=
  (List.range blockDim).foldl
    (fun sh tid => if sg.localId tid = 0 then Function.update sh (sg.groupId tid) (x tid) else sh)
    shared

/-- The value of `x` after `x = b ? shared[lane] : x0;` in the SYCL `blockReduce`, on
work-item `tid`; `warp_reduce` maps the values held by the work-items to the values
returned to them. -/
def blockReduceReread {T : Type} (sg : SubGroups) (blockDim : Nat)
    (warp_reduce : (Nat → T) → Nat → T) (x x0 shared0 : Nat → T) (tid : Nat) : T :=
  let lane := sg.localId tid
  let numwarps := sg.groupRange
  let x1 : Nat → T := warp_reduce x
  let shared := writeShared sg blockDim x1 shared0
  let b : Bool := decide (tid = 0) || decide (tid < numwarps)
  if b then shared lane else x0 tid

/-- The SYCL function `blockReduce<warpSize>(x, warp_reduce, x0, h)`: the value returned on
work-item `tid` of a work-group of `blockDim` work-items. -/
def blockReduce {T : Type} (sg : SubGroups) (blockDim : Nat)
    (warp_reduce : (Nat → T) → Nat → T) (x x0 shared0 : Nat → T) (tid : Nat) : T :=
  let wid := sg.groupId tid
  let x2 : Nat → T := blockReduceReread sg blockDim warp_reduce x x0 shared0
  if wid = 0 then warp_reduce x2 tid else x2 tid

/-- The SYCL function `blockReduce_partial<warpSize>(dest, x, warp_reduce, atomic_op, handler)`:
the argument of the `atomic_op(dest, x)` issued by work-item `tid`, if any. -/
def blockReduce_partial {T : Type} (warpSize : Nat) (sg : SubGroups)
    (warp_reduce : (Nat → T) → Nat → T) (x : Nat → T) (handler : Handler) (tid : Nat) :
    Option T :=
  let wid := sg.groupId tid
  if (wid + 1) * warpSize ≤ handler.numActiveThreads then
    let x1 := warp_reduce x tid
    if sg.localId tid = 0 then some x1 else none
  else
    some (x tid)

end Sycl

/-! ## The combination `comb` and the lane-group reduction -/

theorem comb_congr {T : Type} (F : T → T → T) (u v : Nat → T) (n : Nat)
    (h : ∀ i, i ≤ n → u i = v i) : comb F u n = comb F v n := by
  induction n with
  | zero => simpa [comb] using h 0 (le_refl 0)
  | succ n ih =>
    simp only [comb]
    rw [ih (fun i hi => h i (Nat.le_succ_of_le hi)), h (n + 1) (le_refl _)]

theorem comb_zip {T : Type} (F : T → T → T) (hassoc : ∀ a b c, F (F a b) c = F a (F b c))
    (hcomm : ∀ a b, F a b = F b a) (u w : Nat → T) (n : Nat) :
    comb F (fun i => F (u i) (w i)) n = F (comb F u n) (comb F w n) := by
  induction n with
  | zero => rfl
  | succ n ih =>
    simp only [comb]
    rw [ih, hassoc, hassoc]
    congr 1
    rw [← hassoc, ← hassoc, hcomm (comb F w n) (u (n + 1))]

theorem comb_append {T : Type} (F : T → T → T) (hassoc : ∀ a b c, F (F a b) c = F a (F b c))
    (v : Nat → T) (a b : Nat) :
    comb F v (a + b + 1) = F (comb F v a) (comb F (fun i => v (a + 1 + i)) b) := by
  induction b with
  | zero => rfl
  | succ b ih =>
    have e : a + (b + 1) + 1 = (a + b + 1) + 1 := by omega
    rw [e]
    show F (comb F v (a + b + 1)) (v (a + b + 1 + 1))
      = F (comb F v a) (F (comb F (fun i => v (a + 1 + i)) b) (v (a + 1 + (b + 1))))
    rw [ih, hassoc]
    have e2 : a + b + 1 + 1 = a + 1 + (b + 1) := by omega
    rw [e2]

/-- Lane `lane` of the loop started at offset `2^j / 2`: the combination of the
`2^j` values held by the lanes `lane .. lane + 2^j - 1`, when these exist. -/
theorem warpReduceLoop_comb {T : Type} (W : Nat) (F : T → T → T)
    (hassoc : ∀ a b c, F (F a b) c = F a (F b c)) (hcomm : ∀ a b, F a b = F b a)
    (j : Nat) : ∀ (fuel : Nat) (x : Nat → T) (lane : Nat), j ≤ fuel → lane + 2 ^ j ≤ W →
      warpReduceLoop W F fuel (2 ^ j / 2) x lane = comb F (fun i => x (lane + i)) (2 ^ j - 1) := by
  induction j with
  | zero =>
    intro fuel x lane _ _
    cases fuel <;> simp [warpReduceLoop, comb]
  | succ j ih =>
    intro fuel x lane hf hl
    obtain ⟨f, rfl⟩ : ∃ f, fuel = f + 1 := ⟨fuel - 1, by omega⟩
    have hpos : 0 < 2 ^ j := Nat.pos_pow_of_pos j (by decide)
    have h2 : 2 ^ (j + 1) = 2 ^ j + 2 ^ j := by rw [pow_succ]; omega
    have e1 : 2 ^ (j + 1) / 2 = 2 ^ j := by rw [h2]; omega
    rw [e1]
    simp only [warpReduceLoop, hpos, if_true]
    rw [ih f _ lane (by omega) (by omega)]
    have e2 : 2 ^ (j + 1) - 1 = (2 ^ j - 1) + (2 ^ j - 1) + 1 := by omega
    rw [e2, comb_append F hassoc, ← comb_zip F hassoc hcomm]
    apply comb_congr
    intro i hi
    have : lane + i + 2 ^ j < W := by omega
    simp only [shfl_down, this, if_true]
    congr 2
    omega

theorem warpReduce_lane0 {T : Type} (k : Nat) (F : T → T → T)
    (hassoc : ∀ a b c, F (F a b) c = F a (F b c)) (hcomm : ∀ a b, F a b = F b a)
    (x : Nat → T) : warpReduce (2 ^ k) F x 0 = comb F x (2 ^ k - 1) := by
  unfold warpReduce
  rw [warpReduceLoop_comb (2 ^ k) F hassoc hcomm k (2 ^ k) x 0 (Nat.lt_two_pow k).le (by omega)]
  apply comb_congr
  intro i _
  simp

/-- The loop does not depend on the fuel once the fuel exceeds the number of
halvings of the offset. -/
theorem warpReduceLoop_fuel {T : Type} (W : Nat) (F : T → T → T) :
    ∀ (fuel fuel2 offset : Nat) (x : Nat → T), offset < 2 ^ fuel → offset < 2 ^ fuel2 →
      warpReduceLoop W F fuel offset x = warpReduceLoop W F fuel2 offset x := by
  intro fuel
  induction fuel with
  | zero =>
    intro fuel2 offset x h1 _
    have h0 : offset = 0 := by simpa using h1
    subst h0
    cases fuel2 <;> simp [warpReduceLoop]
  | succ f ih =>
    intro fuel2 offset x h1 h2
    cases fuel2 with
    | zero =>
      have h0 : offset = 0 := by simpa using h2
      subst h0
      simp [warpReduceLoop]
    | succ g =>
      simp only [warpReduceLoop]
      split
      · apply ih
        · rw [pow_succ] at h1; omega
        · rw [pow_succ] at h2; omega
      · rfl

/-! ## The staging array and thread 0 of a full block -/

theorem writeShared_apply {T : Type} (W D : Nat) (hW : 0 < W) (x sh : Nat → T) (s : Nat) :
    writeShared W D x sh s = if s * W < D then x (s * W) else sh s := by
  unfold writeShared
  induction D with
  | zero => simp
  | succ D ih =>
    rw [List.range_succ, List.foldl_append]
    simp only [List.foldl_cons, List.foldl_nil]
    by_cases hm : D % W = 0
    · rw [if_pos hm]
      have hD : D / W * W = D := Nat.div_mul_cancel (Nat.dvd_of_mod_eq_zero hm)
      by_cases hs : s = D / W
      · subst hs
        rw [Function.update_same, hD, if_pos (Nat.lt_succ_self D)]
      · rw [Function.update_noteq hs, ih]
        have hne : s * W ≠ D := by
          intro h
          apply hs
          rw [← h, Nat.mul_div_cancel _ hW]
        by_cases hlt : s * W < D
        · rw [if_pos hlt, if_pos (by omega)]
        · rw [if_neg hlt, if_neg (by omega)]
    · rw [if_neg hm, ih]
      have hne : s * W ≠ D := by
        intro h
        apply hm
        rw [← h, Nat.mul_mod_left]
      by_cases hlt : s * W < D
      · rw [if_pos hlt, if_pos (by omega)]
      · rw [if_neg hlt, if_neg (by omega)]

theorem warpLanes_mul {T : Type} (W : Nat) (hW : 0 < W) (x : Nat → T) (w : Nat) :
    warpLanes W x (w * W) = fun lane => x (w * W + lane) := by
  unfold warpLanes
  rw [Nat.mul_div_cancel _ hW]

/-- The re-read value on a lane of the first lane-group, for a full block of `m`
lane-groups. -/
theorem blockReduceReread_lane {T : Type} (W m : Nat) (hW : 0 < W) (hm : 0 < m)
    (wr : (Nat → T) → Nat → T) (x x0 shared0 : Nat → T) (lane : Nat) (hl : lane < W) :
    blockReduceReread W (m * W) wr x x0 shared0 lane
      = if lane < m then wr (fun j => x (lane * W + j)) 0 else x0 lane := by
  unfold blockReduceReread
  simp only [Nat.mul_div_cancel _ hW, Nat.mod_eq_of_lt hl]
  have hb : (decide (lane = 0) || decide (lane < m)) = decide (lane < m) := by
    by_cases h0 : lane = 0
    · subst h0; simp [hm]
    · simp [h0]
  rw [hb]
  by_cases hlt : lane < m
  · have h1 : lane * W < m * W := Nat.mul_lt_mul_of_pos_right hlt hW
    simp only [hlt, decide_True, if_true]
    rw [writeShared_apply W (m * W) hW, if_pos h1, warpLanes_mul W hW, Nat.mul_mod_left]
  · simp [hlt]

/-- Thread 0 of a full block of `m` lane-groups of `2^k` lanes, `1 ≤ m ≤ 2^k`. -/
theorem blockReduce_thread0 {T : Type} (k m : Nat) (hm : 0 < m) (F : T → T → T)
    (hassoc : ∀ a b c, F (F a b) c = F a (F b c)) (hcomm : ∀ a b, F a b = F b a)
    (x x0 shared0 : Nat → T) :
    blockReduce (2 ^ k) (m * 2 ^ k) (warpReduce (2 ^ k) F) x x0 shared0 0
      = comb F (fun i => if i < m then comb F (fun j => x (i * 2 ^ k + j)) (2 ^ k - 1) else x0 i)
          (2 ^ k - 1) := by
  have hW : 0 < 2 ^ k := Nat.pos_pow_of_pos k (by decide)
  unfold blockReduce
  simp only [Nat.zero_div, if_true, Nat.zero_mod]
  rw [warpReduce_lane0 k F hassoc hcomm]
  apply comb_congr
  intro i hi
  have e : warpLanes (2 ^ k) (blockReduceReread (2 ^ k) (m * 2 ^ k) (warpReduce (2 ^ k) F) x x0
      shared0) 0 i = blockReduceReread (2 ^ k) (m * 2 ^ k) (warpReduce (2 ^ k) F) x x0 shared0 i := by
    simp [warpLanes]
  rw [e, blockReduceReread_lane (2 ^ k) m hW hm _ x x0 shared0 i (by omega)]
  by_cases hlt : i < m
  · rw [if_pos hlt, if_pos hlt, warpReduce_lane0 k F hassoc hcomm]
  · rw [if_neg hlt, if_neg hlt]

/-- Concatenating the combinations of `m + 1` consecutive groups of `W` values. -/
theorem comb_groups {T : Type} (F : T → T → T) (hassoc : ∀ a b c, F (F a b) c = F a (F b c))
    (W : Nat) (hW : 0 < W) (x : Nat → T) (m : Nat) :
    comb F (fun i => comb F (fun j => x (i * W + j)) (W - 1)) m = comb F x ((m + 1) * W - 1) := by
  induction m with
  | zero =>
    simp only [comb, Nat.zero_mul, Nat.zero_add, Nat.one_mul]
  | succ m ih =>
    have e : (m + 1 + 1) * W - 1 = ((m + 1) * W - 1) + (W - 1) + 1 := by
      have : (m + 1 + 1) * W = (m + 1) * W + W := by ring
      have : 0 < (m + 1) * W := Nat.mul_pos (Nat.succ_pos m) hW
      omega
    rw [e, comb_append F hassoc]
    show F (comb F (fun i => comb F (fun j => x (i * W + j)) (W - 1)) m)
      (comb F (fun j => x ((m + 1) * W + j)) (W - 1)) = _
    rw [ih]
    congr 1
    apply comb_congr
    intro i _
    have : 0 < (m + 1) * W := Nat.mul_pos (Nat.succ_pos m) hW
    congr 1
    omega

/-! ## The five operators -/

theorem comb_ite_left {T : Type} (F : T → T → T) (P q : Nat → T) (p : Nat) :
    comb F (fun i => if i < p + 1 then P i else q i) p = comb F P p := by
  apply comb_congr
  intro i hi
  rw [if_pos (by omega)]

theorem comb_ite_split {T : Type} (F : T → T → T) (hassoc : ∀ a b c, F (F a b) c = F a (F b c))
    (P q : Nat → T) (p r : Nat) :
    comb F (fun i => if i < p + 1 then P i else q i) (p + r + 1)
      = F (comb F P p) (comb F (fun i => q (p + 1 + i)) r) := by
  rw [comb_append F hassoc, comb_ite_left]
  congr 1
  apply comb_congr
  intro i _
  rw [if_neg (by omega)]

/-- Thread 0 of a full block: the combination of all the block's values, then of
the pads of the lanes `m .. 2^k - 1` when there are such lanes. -/
theorem blockReduce_thread0_split {T : Type} (k m : Nat) (hm : 0 < m) (hmW : m ≤ 2 ^ k)
    (F : T → T → T) (hassoc : ∀ a b c, F (F a b) c = F a (F b c))
    (hcomm : ∀ a b, F a b = F b a) (x x0 shared0 : Nat → T) :
    blockReduce (2 ^ k) (m * 2 ^ k) (warpReduce (2 ^ k) F) x x0 shared0 0
      = if m = 2 ^ k then comb F x (m * 2 ^ k - 1)
        else F (comb F x (m * 2 ^ k - 1)) (comb F (fun i => x0 (m + i)) (2 ^ k - m - 1)) := by
  have hW : 0 < 2 ^ k := Nat.pos_pow_of_pos k (by decide)
  obtain ⟨p, rfl⟩ : ∃ p, m = p + 1 := ⟨m - 1, by omega⟩
  rw [blockReduce_thread0 k (p + 1) hm F hassoc hcomm]
  have key : ∀ (P : Nat → T) (N : Nat), N = 2 ^ k - 1 →
      comb F P p = comb F x ((p + 1) * 2 ^ k - 1) →
      comb F (fun i => if i < p + 1 then P i else x0 i) N
        = if p + 1 = 2 ^ k then comb F x ((p + 1) * 2 ^ k - 1)
          else F (comb F x ((p + 1) * 2 ^ k - 1))
            (comb F (fun i => x0 (p + 1 + i)) (2 ^ k - (p + 1) - 1)) := by
    intro P N hN hP
    by_cases hfull : p + 1 = 2 ^ k
    · rw [if_pos hfull]
      have e : N = p := by omega
      rw [e, comb_ite_left, hP]
    · rw [if_neg hfull]
      have e : N = p + (2 ^ k - (p + 1) - 1) + 1 := by omega
      rw [e, comb_ite_split F hassoc, hP]
  exact key _ _ rfl (comb_groups F hassoc (2 ^ k) hW x p)

theorem Plus_assoc (a b c : Int) : Plus (Plus a b) c = Plus a (Plus b c) := by
  unfold Plus; ring

theorem Plus_comm (a b : Int) : Plus a b = Plus b a := by
  unfold Plus; ring

theorem Less_eq_min {T : Type} [LinearOrder T] (a b : T) : Less a b = min a b := by
  unfold Less
  by_cases h : a < b
  · rw [if_pos h, min_eq_left h.le]
  · rw [if_neg h, min_eq_right (not_lt.mp h)]

theorem Greater_eq_max {T : Type} [LinearOrder T] (a b : T) : Greater a b = max a b := by
  unfold Greater
  by_cases h : a > b
  · rw [if_pos h, max_eq_left h.le]
  · rw [if_neg h, max_eq_right (not_lt.mp h)]

theorem Less_assoc {T : Type} [LinearOrder T] (a b c : T) :
    Less (Less a b) c = Less a (Less b c) := by
  simp only [Less_eq_min, min_assoc]

theorem Less_comm {T : Type} [LinearOrder T] (a b : T) : Less a b = Less b a := by
  simp only [Less_eq_min, min_comm]

theorem Greater_assoc {T : Type} [LinearOrder T] (a b c : T) :
    Greater (Greater a b) c = Greater a (Greater b c) := by
  simp only [Greater_eq_max, max_assoc]

theorem Greater_comm {T : Type} [LinearOrder T] (a b : T) : Greater a b = Greater b a := by
  simp only [Greater_eq_max, max_comm]

theorem LogicalAnd_assoc (a b c : Int) :
    LogicalAnd (LogicalAnd a b) c = LogicalAnd a (LogicalAnd b c) := by
  unfold LogicalAnd
  by_cases ha : a = 0 <;> by_cases hb : b = 0 <;> by_cases hc : c = 0 <;> simp [ha, hb, hc]

theorem LogicalAnd_comm (a b : Int) : LogicalAnd a b = LogicalAnd b a := by
  unfold LogicalAnd
  by_cases ha : a = 0 <;> by_cases hb : b = 0 <;> simp [ha, hb]

theorem LogicalOr_assoc (a b c : Int) :
    LogicalOr (LogicalOr a b) c = LogicalOr a (LogicalOr b c) := by
  unfold LogicalOr
  by_cases ha : a = 0 <;> by_cases hb : b = 0 <;> by_cases hc : c = 0 <;> simp [ha, hb, hc]

theorem LogicalOr_comm (a b : Int) : LogicalOr a b = LogicalOr b a := by
  unfold LogicalOr
  by_cases ha : a = 0 <;> by_cases hb : b = 0 <;> simp [ha, hb]

theorem comb_Plus_zero (n : Nat) : comb Plus (fun _ => (0 : Int)) n = 0 := by
  induction n with
  | zero => rfl
  | succ n ih => simp [comb, ih, Plus]

theorem comb_LogicalAnd_one (n : Nat) : comb LogicalAnd (fun _ => (1 : Int)) n = 1 := by
  induction n with
  | zero => rfl
  | succ n ih => simp [comb, ih, LogicalAnd]

theorem comb_LogicalOr_zero (n : Nat) : comb LogicalOr (fun _ => (0 : Int)) n = 0 := by
  induction n with
  | zero => rfl
  | succ n ih => simp [comb, ih, LogicalOr]

theorem comb_Less_le {T : Type} [LinearOrder T] (v : Nat → T) (n i : Nat) (hi : i ≤ n) :
    comb Less v n ≤ v i := by
  induction n with
  | zero =>
    have : i = 0 := by omega
    subst this
    exact le_refl _
  | succ n ih =>
    show Less (comb Less v n) (v (n + 1)) ≤ v i
    rw [Less_eq_min]
    by_cases h : i = n + 1
    · subst h; exact min_le_right _ _
    · exact le_trans (min_le_left _ _) (ih (by omega))

theorem comb_Less_mem {T : Type} [LinearOrder T] (v : Nat → T) (n : Nat) :
    ∃ i, i ≤ n ∧ comb Less v n = v i := by
  induction n with
  | zero => exact ⟨0, le_refl 0, rfl⟩
  | succ n ih =>
    obtain ⟨i, hi, he⟩ := ih
    show ∃ i, i ≤ n + 1 ∧ Less (comb Less v n) (v (n + 1)) = v i
    rw [Less_eq_min]
    rcases min_choice (comb Less v n) (v (n + 1)) with h | h
    · exact ⟨i, by omega, by rw [h, he]⟩
    · exact ⟨n + 1, le_refl _, h⟩

theorem comb_Greater_ge {T : Type} [LinearOrder T] (v : Nat → T) (n i : Nat) (hi : i ≤ n) :
    v i ≤ comb Greater v n := by
  induction n with
  | zero =>
    have : i = 0 := by omega
    subst this
    exact le_refl _
  | succ n ih =>
    show v i ≤ Greater (comb Greater v n) (v (n + 1))
    rw [Greater_eq_max]
    by_cases h : i = n + 1
    · subst h; exact le_max_right _ _
    · exact le_trans (ih (by omega)) (le_max_left _ _)

theorem comb_Greater_mem {T : Type} [LinearOrder T] (v : Nat → T) (n : Nat) :
    ∃ i, i ≤ n ∧ comb Greater v n = v i := by
  induction n with
  | zero => exact ⟨0, le_refl 0, rfl⟩
  | succ n ih =>
    obtain ⟨i, hi, he⟩ := ih
    show ∃ i, i ≤ n + 1 ∧ Greater (comb Greater v n) (v (n + 1)) = v i
    rw [Greater_eq_max]
    rcases max_choice (comb Greater v n) (v (n + 1)) with h | h
    · exact ⟨i, by omega, by rw [h, he]⟩
    · exact ⟨n + 1, le_refl _, h⟩

theorem LogicalAnd_ne_zero (a b : Int) : LogicalAnd a b ≠ 0 ↔ a ≠ 0 ∧ b ≠ 0 := by
  unfold LogicalAnd
  by_cases h : a ≠ 0 ∧ b ≠ 0
  · simp [h]
  · rw [if_neg h]; simp [h]

theorem LogicalOr_ne_zero (a b : Int) : LogicalOr a b ≠ 0 ↔ a ≠ 0 ∨ b ≠ 0 := by
  unfold LogicalOr
  by_cases h : a ≠ 0 ∨ b ≠ 0
  · simp [h]
  · rw [if_neg h]; simp [h]

/-- A combination with `LogicalAnd` is non-zero exactly when all its values are. -/
theorem comb_LogicalAnd_ne_zero (v : Nat → Int) (n : Nat) :
    comb LogicalAnd v n ≠ 0 ↔ ∀ i, i ≤ n → v i ≠ 0 := by
  induction n with
  | zero =>
    constructor
    · intro h i hi
      have : i = 0 := by omega
      subst this
      exact h
    · intro h
      exact h 0 (le_refl 0)
  | succ n ih =>
    show LogicalAnd (comb LogicalAnd v n) (v (n + 1)) ≠ 0 ↔ _
    rw [LogicalAnd_ne_zero, ih]
    constructor
    · rintro ⟨h1, h2⟩ i hi
      by_cases hin : i = n + 1
      · subst hin; exact h2
      · exact h1 i (by omega)
    · intro h
      exact ⟨fun i hi => h i (by omega), h (n + 1) (le_refl _)⟩

/-- A combination with `LogicalOr` is non-zero exactly when one of its values is. -/
theorem comb_LogicalOr_ne_zero (v : Nat → Int) (n : Nat) :
    comb LogicalOr v n ≠ 0 ↔ ∃ i, i ≤ n ∧ v i ≠ 0 := by
  induction n with
  | zero =>
    constructor
    · intro h
      exact ⟨0, le_refl 0, h⟩
    · rintro ⟨i, hi, h⟩
      have : i = 0 := by omega
      subst this
      exact h
  | succ n ih =>
    show LogicalOr (comb LogicalOr v n) (v (n + 1)) ≠ 0 ↔ _
    rw [LogicalOr_ne_zero, ih]
    constructor
    · rintro (⟨i, hi, hv⟩ | h)
      · exact ⟨i, by omega, hv⟩
      · exact ⟨n + 1, le_refl _, h⟩
    · rintro ⟨i, hi, hv⟩
      by_cases hin : i = n + 1
      · subst hin; exact Or.inr hv
      · exact Or.inl ⟨i, by omega, hv⟩

/-! ## Full-block and partial-block strategies -/

theorem blockReduce_Plus_thread0 (k m : Nat) (hm : 0 < m) (hmW : m ≤ 2 ^ k)
    (x shared0 : Nat → Int) :
    blockReduce (2 ^ k) (m * 2 ^ k) (warpReduce (2 ^ k) Plus) x (fun _ => 0) shared0 0
      = comb Plus x (m * 2 ^ k - 1) := by
  rw [blockReduce_thread0_split k m hm hmW Plus Plus_assoc Plus_comm]
  split
  · rfl
  · rw [comb_Plus_zero]
    simp [Plus]

theorem blockReduce_Less_thread0 {T : Type} [LinearOrder T] (k m : Nat) (hm : 0 < m)
    (hmW : m ≤ 2 ^ k) (x shared0 : Nat → T) :
    blockReduce (2 ^ k) (m * 2 ^ k) (warpReduce (2 ^ k) Less) x x shared0 0
      = comb Less x (m * 2 ^ k - 1) := by
  rw [blockReduce_thread0_split k m hm hmW Less Less_assoc Less_comm]
  split
  · rfl
  · obtain ⟨i, hi, he⟩ := comb_Less_mem (fun i => x (m + i)) (2 ^ k - m - 1)
    rw [he, Less_eq_min]
    apply min_eq_left
    apply comb_Less_le
    have : 2 ^ k ≤ m * 2 ^ k := Nat.le_mul_of_pos_left _ hm
    omega

theorem blockReduce_Greater_thread0 {T : Type} [LinearOrder T] (k m : Nat) (hm : 0 < m)
    (hmW : m ≤ 2 ^ k) (x shared0 : Nat → T) :
    blockReduce (2 ^ k) (m * 2 ^ k) (warpReduce (2 ^ k) Greater) x x shared0 0
      = comb Greater x (m * 2 ^ k - 1) := by
  rw [blockReduce_thread0_split k m hm hmW Greater Greater_assoc Greater_comm]
  split
  · rfl
  · obtain ⟨i, hi, he⟩ := comb_Greater_mem (fun i => x (m + i)) (2 ^ k - m - 1)
    rw [he, Greater_eq_max]
    apply max_eq_left
    apply comb_Greater_ge
    have : 2 ^ k ≤ m * 2 ^ k := Nat.le_mul_of_pos_left _ hm
    omega

theorem LogicalAnd_one_right (a b : Int) : LogicalAnd (LogicalAnd a b) 1 = LogicalAnd a b := by
  unfold LogicalAnd
  by_cases h : a ≠ 0 ∧ b ≠ 0 <;> simp [h]

theorem LogicalOr_zero_right (a b : Int) : LogicalOr (LogicalOr a b) 0 = LogicalOr a b := by
  unfold LogicalOr
  by_cases h : a ≠ 0 ∨ b ≠ 0 <;> simp [h]

theorem blockReduce_LogicalAnd_thread0 (k m : Nat) (hm : 0 < m) (hmW : m ≤ 2 ^ k)
    (x shared0 : Nat → Int) :
    blockReduce (2 ^ k) (m * 2 ^ k) (warpReduce (2 ^ k) LogicalAnd) x (fun _ => 1) shared0 0
      = comb LogicalAnd x (m * 2 ^ k - 1) := by
  rw [blockReduce_thread0_split k m hm hmW LogicalAnd LogicalAnd_assoc LogicalAnd_comm]
  split
  · rfl
  · rename_i hne
    rw [comb_LogicalAnd_one]
    have : 2 ^ k ≤ m * 2 ^ k := Nat.le_mul_of_pos_left _ hm
    obtain ⟨n, hn⟩ : ∃ n, m * 2 ^ k - 1 = n + 1 := ⟨m * 2 ^ k - 2, by omega⟩
    rw [hn]
    exact LogicalAnd_one_right _ _

theorem blockReduce_LogicalOr_thread0 (k m : Nat) (hm : 0 < m) (hmW : m ≤ 2 ^ k)
    (x shared0 : Nat → Int) :
    blockReduce (2 ^ k) (m * 2 ^ k) (warpReduce (2 ^ k) LogicalOr) x (fun _ => 0) shared0 0
      = comb LogicalOr x (m * 2 ^ k - 1) := by
  rw [blockReduce_thread0_split k m hm hmW LogicalOr LogicalOr_assoc LogicalOr_comm]
  split
  · rfl
  · rename_i hne
    rw [comb_LogicalOr_zero]
    have : 2 ^ k ≤ m * 2 ^ k := Nat.le_mul_of_pos_left _ hm
    obtain ⟨n, hn⟩ : ∃ n, m * 2 ^ k - 1 = n + 1 := ⟨m * 2 ^ k - 2, by omega⟩
    rw [hn]
    exact LogicalOr_zero_right _ _

/-- The updates issued by one lane-group that lies inside the active range: one,
by lane 0. -/
theorem filterMap_partial_full_warp {T : Type} (W : Nat) (hW : 0 < W)
    (wr : (Nat → T) → Nat → T) (x : Nat → T) (n w : Nat) (hfull : (w + 1) * W ≤ n) :
    ((List.range W).map (fun i => w * W + i)).filterMap ( blockReduce_partial W wr x ⟨n⟩)
      = [wr (fun lane => x (w * W + lane)) 0] := by
  obtain ⟨V, rfl⟩ : ∃ V, W = V + 1 := ⟨W - 1, by omega⟩
  have hdiv : ∀ i, i < V + 1 → (w * (V + 1) + i) / (V + 1) = w := by
    intro i hi
    rw [Nat.add_comm, Nat.add_mul_div_right _ _ hW, Nat.div_eq_of_lt hi, Nat.zero_add]
  have hmod : ∀ i, i < V + 1 → (w * (V + 1) + i) % (V + 1) = i := by
    intro i hi
    rw [Nat.add_comm, Nat.add_mul_mod_self_right, Nat.mod_eq_of_lt hi]
  have h0 : blockReduce_partial (V + 1) wr x ⟨n⟩ (w * (V + 1) + 0)
      = some (wr (fun lane => x (w * (V + 1) + lane)) 0) := by
    show blockReduce_partial (V + 1) wr x ⟨n⟩ (w * (V + 1)) = _
    unfold blockReduce_partial
    simp only [Nat.mul_div_cancel _ hW, Nat.mul_mod_left, hfull, if_true]
    rw [warpLanes_mul (V + 1) hW]
  rw [List.range_succ_eq_map, List.map_cons, List.filterMap_cons_some h0]
  have hrest : (List.map (fun i => w * (V + 1) + i) (List.map Nat.succ (List.range V))).filterMap
      ( blockReduce_partial (V + 1) wr x ⟨n⟩) = [] := by
    rw [List.filterMap_eq_nil_iff]
    intro t ht
    simp only [List.mem_map, List.mem_range] at ht
    obtain ⟨i, ⟨j, hj, rfl⟩, rfl⟩ := ht
    unfold blockReduce_partial
    have hj1 : j + 1 < V + 1 := by omega
    simp only [Nat.succ_eq_add_one, hdiv (j + 1) hj1, hmod (j + 1) hj1, hfull, if_true]
    simp
  rw [hrest]

/-- The updates issued by the threads of the lane-groups that lie inside the
active range. -/
theorem filterMap_partial_full_warps {T : Type} (W : Nat) (hW : 0 < W)
    (wr : (Nat → T) → Nat → T) (x : Nat → T) (n q : Nat) (hq : q * W ≤ n) :
    (List.range (q * W)).filterMap ( blockReduce_partial W wr x ⟨n⟩)
      = (List.range q).map (fun w => wr (fun lane => x (w * W + lane)) 0) := by
  induction q with
  | zero => simp
  | succ q ih =>
    have e : (q + 1) * W = q * W + W := by ring
    rw [e, List.range_add, List.filterMap_append, ih (by omega),
      filterMap_partial_full_warp W hW wr x n q (by omega), List.range_succ, List.map_append]
    rfl

/-- The updates issued in the partial-block strategy, in thread order: one per
lane-group inside the active range, then one per remaining active thread. -/
theorem issued_partial_list {T : Type} (W : Nat) (hW : 0 < W) (wr : (Nat → T) → Nat → T)
    (x : Nat → T) (n : Nat) :
    issued n ( blockReduce_partial W wr x ⟨n⟩)
      = (List.range (n / W)).map (fun w => wr (fun lane => x (w * W + lane)) 0)
        ++ (List.range (n % W)).map (fun i => x (n / W * W + i)) := by
  unfold issued
  have hn : n = n / W * W + n % W := by
    rw [Nat.mul_comm]; exact (Nat.div_add_mod n W).symm
  have hle : n / W * W ≤ n := Nat.div_mul_le_self n W
  have hr : List.range n = List.range (n / W * W + n % W) := congrArg List.range hn
  rw [hr, List.range_add, List.filterMap_append, filterMap_partial_full_warps W hW wr x n (n / W) hle]
  congr 1
  rw [List.filterMap_map]
  have hlt : n % W < W := Nat.mod_lt n hW
  rw [← List.filterMap_eq_map]
  apply List.filterMap_congr
  intro i hi
  have hi2 : i < n % W := List.mem_range.mp hi
  unfold blockReduce_partial
  have hdiv : (n / W * W + i) / W = n / W := by
    rw [Nat.add_comm, Nat.add_mul_div_right _ _ hW, Nat.div_eq_of_lt (by omega), Nat.zero_add]
  have hnot : ¬ ((n / W + 1) * W ≤ n) := by
    have : (n / W + 1) * W = n / W * W + W := by ring
    omega
  simp only [Function.comp, hdiv, hnot, if_false]

/-- The fuel `warpSize` given to the loop by `warpReduce` is never exhausted: any larger
fuel gives the same result. -/
theorem warpReduce_fuel {T : Type} (W : Nat) (F : T → T → T) (x : Nat → T) (fuel : Nat)
    (h : W ≤ fuel) : warpReduceLoop W F fuel (W / 2) x = warpReduce W F x := by
  unfold warpReduce
  apply warpReduceLoop_fuel
  · exact Nat.lt_of_le_of_lt (Nat.le_trans (Nat.div_le_self W 2) h) (Nat.lt_two_pow fuel)
  · exact Nat.lt_of_le_of_lt (Nat.div_le_self W 2) (Nat.lt_two_pow W)

/-! ## Folding the atomic updates -/

theorem foldl_map_range_succ {T : Type} (F : T → T → T)
    (hassoc : ∀ a b c, F (F a b) c = F a (F b c)) (v : Nat → T) (n : Nat) (d : T) :
    ((List.range (n + 1)).map v).foldl F d = F d (comb F v n) := by
  induction n with
  | zero => rfl
  | succ n ih =>
    rw [List.range_succ, List.map_append, List.foldl_append, ih]
    show F (F d (comb F v n)) (v (n + 1)) = F d (F (comb F v n) (v (n + 1)))
    rw [hassoc]

theorem foldl_map_range_add {T : Type} (F : T → T → T) (x : Nat → T) (a b : Nat) (d : T) :
    ((List.range (a + b)).map x).foldl F d
      = ((List.range b).map (fun i => x (a + i))).foldl F (((List.range a).map x).foldl F d) := by
  rw [List.range_add, List.map_append, List.foldl_append, List.map_map]
  rfl

theorem foldl_full_warps {T : Type} (F : T → T → T)
    (hassoc : ∀ a b c, F (F a b) c = F a (F b c)) (W : Nat) (hW : 0 < W) (x : Nat → T)
    (q : Nat) (d : T) :
    ((List.range q).map (fun w => comb F (fun lane => x (w * W + lane)) (W - 1))).foldl F d
      = ((List.range (q * W)).map x).foldl F d := by
  induction q with
  | zero => simp
  | succ q ih =>
    have e : (q + 1) * W = q * W + W := by ring
    have hR : ((List.range ((q + 1) * W)).map x).foldl F d
        = ((List.range W).map (fun i => x (q * W + i))).foldl F
            (((List.range (q * W)).map x).foldl F d) := by
      rw [e]
      exact foldl_map_range_add F x (q * W) W d
    rw [hR, List.range_succ, List.map_append, List.foldl_append, ih]
    obtain ⟨V, rfl⟩ : ∃ V, W = V + 1 := ⟨W - 1, by omega⟩
    rw [foldl_map_range_succ F hassoc]
    rfl

/-- In the partial-block strategy the updates of a block carry each active value
exactly once. -/
theorem issued_partial_foldl {T : Type} (k : Nat) (F : T → T → T)
    (hassoc : ∀ a b c, F (F a b) c = F a (F b c)) (hcomm : ∀ a b, F a b = F b a)
    (x : Nat → T) (n : Nat) (d : T) :
    (issued n ( blockReduce_partial (2 ^ k) (warpReduce (2 ^ k) F) x ⟨n⟩)).foldl F d
      = ((List.range n).map x).foldl F d := by
  have hW : 0 < 2 ^ k := Nat.pos_pow_of_pos k (by decide)
  rw [issued_partial_list (2 ^ k) hW]
  have hwr : (fun w => warpReduce (2 ^ k) F (fun lane => x (w * 2 ^ k + lane)) 0)
      = fun w => comb F (fun lane => x (w * 2 ^ k + lane)) (2 ^ k - 1) := by
    funext w
    exact warpReduce_lane0 k F hassoc hcomm _
  rw [hwr, List.foldl_append, foldl_full_warps F hassoc (2 ^ k) hW]
  have hn : n = n / 2 ^ k * 2 ^ k + n % 2 ^ k := by
    rw [Nat.mul_comm]; exact (Nat.div_add_mod n (2 ^ k)).symm
  have hr : List.range n = List.range (n / 2 ^ k * 2 ^ k + n % 2 ^ k) := congrArg List.range hn
  rw [hr]
  exact (foldl_map_range_add F x (n / 2 ^ k * 2 ^ k) (n % 2 ^ k) d).symm

theorem issued_thread0 {T : Type} (D : Nat) (hD : 0 < D) (g : Nat → T) :
    issued D (fun tid => if tid = 0 then some (g tid) else none) = [g 0] := by
  obtain ⟨E, rfl⟩ : ∃ E, D = E + 1 := ⟨D - 1, by omega⟩
  unfold issued
  rw [List.range_succ_eq_map, List.filterMap_cons_some (b := g 0) (by simp)]
  have hrest : (List.map Nat.succ (List.range E)).filterMap
      (fun tid => if tid = 0 then some (g tid) else none) = [] := by
    rw [List.filterMap_eq_nil_iff]
    intro t ht
    simp only [List.mem_map, List.mem_range] at ht
    obtain ⟨j, _, rfl⟩ := ht
    simp
  rw [hrest]

theorem geometry {k W D : Nat} (hW : W = 2 ^ k) (hdvd : W ∣ D) (hD : 0 < D) (hDW : D / W ≤ W) :
    ∃ m, D = m * 2 ^ k ∧ 0 < m ∧ m ≤ 2 ^ k := by
  subst hW
  have hpos : 0 < 2 ^ k := Nat.pos_pow_of_pos k (by decide)
  obtain ⟨m, rfl⟩ := hdvd
  rw [Nat.mul_div_cancel_left _ hpos] at hDW
  refine ⟨m, Nat.mul_comm _ _, ?_, hDW⟩
  rcases Nat.eq_zero_or_pos m with h | h
  · subst h; simp at hD
  · exact h

/-- An entry point that takes the full-block function on a full block and
`blockReduce_partial` otherwise contributes each active value exactly once, as long
as thread 0 of a full block issues the combination of the block's values and no
other thread issues anything. -/
theorem entry_foldl {T : Type} (k D n : Nat) (F : T → T → T)
    (hassoc : ∀ a b c, F (F a b) c = F a (F b c)) (hcomm : ∀ a b, F a b = F b a)
    (x : Nat → T) (full : Nat → Option T) (entry : Handler → Nat → Option T)
    (hentry : ∀ h, entry h = if h.isFullBlock D then full
      else blockReduce_partial (2 ^ k) (warpReduce (2 ^ k) F) x h)
    (hfull : full = fun tid => if tid = 0 then some (comb F x (D - 1)) else none)
    (hn : 0 < n) (d : T) :
    (issued n (entry ⟨n⟩)).foldl F d = ((List.range n).map x).foldl F d := by
  rw [hentry]
  by_cases hnD : n = D
  · subst hnD
    have hb : Handler.isFullBlock ⟨n⟩ n = true := by simp [Handler.isFullBlock]
    rw [if_pos hb, hfull, issued_thread0 n hn (fun _ => comb F x (n - 1))]
    obtain ⟨E, rfl⟩ : ∃ E, n = E + 1 := ⟨n - 1, by omega⟩
    rw [foldl_map_range_succ F hassoc]
    rfl
  · have hb : ¬ (Handler.isFullBlock ⟨n⟩ D = true) := by simp [Handler.isFullBlock, hnD]
    rw [if_neg hb]
    exact issued_partial_foldl k F hassoc hcomm x n d

theorem right_comm_of_assoc_comm {T : Type} (F : T → T → T)
    (hassoc : ∀ a b c, F (F a b) c = F a (F b c)) (hcomm : ∀ a b, F a b = F b a)
    (d a b : T) : F (F d a) b = F (F d b) a := by
  rw [hassoc, hassoc, hcomm a b]

/-- Whatever the order in which the atomic updates of a launch are applied, the
destination ends as if every active value had been applied on its own. -/
theorem launch_foldl {T : Type} (F : T → T → T)
    (hassoc : ∀ a b c, F (F a b) c = F a (F b c)) (hcomm : ∀ a b, F a b = F b a)
    (entry : (Nat → T) → (Nat → T) → Handler → Nat → Option T) (blocks : List (Block T))
    (hblock : ∀ b ∈ blocks, ∀ d,
      (issued b.numActive (entry b.source b.shared0 ⟨b.numActive⟩)).foldl F d
        = b.values.foldl F d)
    (order : List T) (hperm : order.Perm (launchAtomics entry blocks)) (d : T) :
    order.foldl F d = (launchValues blocks).foldl F d := by
  rw [hperm.foldl_eq' (fun a _ b _ z => right_comm_of_assoc_comm F hassoc hcomm z a b) d]
  clear hperm
  unfold launchAtomics launchValues
  induction blocks generalizing d with
  | nil => rfl
  | cons b bs ih =>
    rw [List.flatMap_cons, List.flatMap_cons, List.foldl_append, List.foldl_append,
      hblock b (List.mem_cons_self b bs) d]
    exact ih (fun b' hb' => hblock b' (List.mem_cons_of_mem b hb')) _

/-! ## The full-block functions and the entry points -/

theorem deviceReduceSum_full_eq (k m : Nat) (hm : 0 < m) (hmW : m ≤ 2 ^ k)
    (x shared0 : Nat → Int) :
    deviceReduceSum_full (2 ^ k) (m * 2 ^ k) x shared0
      = fun tid => if tid = 0 then some (comb Plus x (m * 2 ^ k - 1)) else none := by
  funext tid
  unfold deviceReduceSum_full
  by_cases h : tid = 0
  · subst h
    simp only [if_true]
    rw [blockReduce_Plus_thread0 k m hm hmW]
  · simp [h]

theorem deviceReduceMin_full_eq {T : Type} [LinearOrder T] (k m : Nat) (hm : 0 < m)
    (hmW : m ≤ 2 ^ k) (x shared0 : Nat → T) :
    deviceReduceMin_full (2 ^ k) (m * 2 ^ k) x shared0
      = fun tid => if tid = 0 then some (comb Less x (m * 2 ^ k - 1)) else none := by
  funext tid
  unfold deviceReduceMin_full
  by_cases h : tid = 0
  · subst h
    simp only [if_true]
    rw [blockReduce_Less_thread0 k m hm hmW]
  · simp [h]

theorem deviceReduceMax_full_eq {T : Type} [LinearOrder T] (k m : Nat) (hm : 0 < m)
    (hmW : m ≤ 2 ^ k) (x shared0 : Nat → T) :
    deviceReduceMax_full (2 ^ k) (m * 2 ^ k) x shared0
      = fun tid => if tid = 0 then some (comb Greater x (m * 2 ^ k - 1)) else none := by
  funext tid
  unfold deviceReduceMax_full
  by_cases h : tid = 0
  · subst h
    simp only [if_true]
    rw [blockReduce_Greater_thread0 k m hm hmW]
  · simp [h]

theorem deviceReduceLogicalAnd_full_eq (k m : Nat) (hm : 0 < m) (hmW : m ≤ 2 ^ k)
    (x shared0 : Nat → Int) :
    deviceReduceLogicalAnd_full (2 ^ k) (m * 2 ^ k) x shared0
      = fun tid => if tid = 0 then some (comb LogicalAnd x (m * 2 ^ k - 1)) else none := by
  funext tid
  unfold deviceReduceLogicalAnd_full
  by_cases h : tid = 0
  · subst h
    simp only [if_true]
    rw [blockReduce_LogicalAnd_thread0 k m hm hmW]
  · simp [h]

theorem deviceReduceLogicalOr_full_eq (k m : Nat) (hm : 0 < m) (hmW : m ≤ 2 ^ k)
    (x shared0 : Nat → Int) :
    deviceReduceLogicalOr_full (2 ^ k) (m * 2 ^ k) x shared0
      = fun tid => if tid = 0 then some (comb LogicalOr x (m * 2 ^ k - 1)) else none := by
  funext tid
  unfold deviceReduceLogicalOr_full
  by_cases h : tid = 0
  · subst h
    simp only [if_true]
    rw [blockReduce_LogicalOr_thread0 k m hm hmW]
  · simp [h]

theorem deviceReduceSum_dispatch (W D : Nat) (x shared0 : Nat → Int) (h : Handler) :
    deviceReduceSum W D x shared0 h = if h.isFullBlock D then deviceReduceSum_full W D x shared0
      else blockReduce_partial W (warpReduce W Plus) x h := by
  funext tid
  unfold deviceReduceSum
  split <;> rfl

theorem deviceReduceMin_dispatch {T : Type} [LinearOrder T] (W D : Nat) (x shared0 : Nat → T)
    (h : Handler) :
    deviceReduceMin W D x shared0 h = if h.isFullBlock D then deviceReduceMin_full W D x shared0
      else blockReduce_partial W (warpReduce W Less) x h := by
  funext tid
  unfold deviceReduceMin
  split <;> rfl

theorem deviceReduceMax_dispatch {T : Type} [LinearOrder T] (W D : Nat) (x shared0 : Nat → T)
    (h : Handler) :
    deviceReduceMax W D x shared0 h = if h.isFullBlock D then deviceReduceMax_full W D x shared0
      else blockReduce_partial W (warpReduce W Greater) x h := by
  funext tid
  unfold deviceReduceMax
  split <;> rfl

theorem deviceReduceLogicalAnd_dispatch (W D : Nat) (x shared0 : Nat → Int) (h : Handler) :
    deviceReduceLogicalAnd W D x shared0 h
      = if h.isFullBlock D then deviceReduceLogicalAnd_full W D x shared0
        else blockReduce_partial W (warpReduce W LogicalAnd) x h := by
  funext tid
  unfold deviceReduceLogicalAnd
  split <;> rfl

theorem deviceReduceLogicalOr_dispatch (W D : Nat) (x shared0 : Nat → Int) (h : Handler) :
    deviceReduceLogicalOr W D x shared0 h
      = if h.isFullBlock D then deviceReduceLogicalOr_full W D x shared0
        else blockReduce_partial W (warpReduce W LogicalOr) x h := by
  funext tid
  unfold deviceReduceLogicalOr
  split <;> rfl

theorem AtomicAdd_eq : AtomicAdd = Plus := rfl

theorem AtomicMin_eq {T : Type} [LinearOrder T] : (AtomicMin : T → T → T) = Less := by
  funext a b
  rw [Less_eq_min]
  rfl

theorem AtomicMax_eq {T : Type} [LinearOrder T] : (AtomicMax : T → T → T) = Greater := by
  funext a b
  rw [Greater_eq_max]
  rfl

theorem AtomicLogicalAnd_eq : AtomicLogicalAnd = LogicalAnd := rfl

theorem AtomicLogicalOr_eq : AtomicLogicalOr = LogicalOr := rfl

/-! ## A whole launch -/

theorem foldl_Less_le {T : Type} [LinearOrder T] (l : List T) (d : T) :
    l.foldl Less d ≤ d ∧ ∀ v ∈ l, l.foldl Less d ≤ v := by
  induction l generalizing d with
  | nil => simp
  | cons a l ih =>
    rw [List.foldl_cons]
    obtain ⟨h1, h2⟩ := ih (Less d a)
    have hl : Less d a ≤ d := by rw [Less_eq_min]; exact min_le_left _ _
    have hr : Less d a ≤ a := by rw [Less_eq_min]; exact min_le_right _ _
    refine ⟨le_trans h1 hl, ?_⟩
    intro v hv
    rcases List.mem_cons.mp hv with h | h
    · subst h; exact le_trans h1 hr
    · exact h2 v h

theorem foldl_Less_mem {T : Type} [LinearOrder T] (l : List T) (d : T) :
    l.foldl Less d = d ∨ l.foldl Less d ∈ l := by
  induction l generalizing d with
  | nil => simp
  | cons a l ih =>
    rw [List.foldl_cons]
    rcases ih (Less d a) with h | h
    · rw [h, Less_eq_min]
      rcases min_choice d a with h' | h'
      · exact Or.inl h'
      · exact Or.inr (by rw [h']; exact List.mem_cons_self a l)
    · exact Or.inr (List.mem_cons_of_mem a h)

theorem foldl_Greater_ge {T : Type} [LinearOrder T] (l : List T) (d : T) :
    d ≤ l.foldl Greater d ∧ ∀ v ∈ l, v ≤ l.foldl Greater d := by
  induction l generalizing d with
  | nil => simp
  | cons a l ih =>
    rw [List.foldl_cons]
    obtain ⟨h1, h2⟩ := ih (Greater d a)
    have hl : d ≤ Greater d a := by rw [Greater_eq_max]; exact le_max_left _ _
    have hr : a ≤ Greater d a := by rw [Greater_eq_max]; exact le_max_right _ _
    refine ⟨le_trans hl h1, ?_⟩
    intro v hv
    rcases List.mem_cons.mp hv with h | h
    · subst h; exact le_trans hr h1
    · exact h2 v h

theorem foldl_Greater_mem {T : Type} [LinearOrder T] (l : List T) (d : T) :
    l.foldl Greater d = d ∨ l.foldl Greater d ∈ l := by
  induction l generalizing d with
  | nil => simp
  | cons a l ih =>
    rw [List.foldl_cons]
    rcases ih (Greater d a) with h | h
    · rw [h, Greater_eq_max]
      rcases max_choice d a with h' | h'
      · exact Or.inl h'
      · exact Or.inr (by rw [h']; exact List.mem_cons_self a l)
    · exact Or.inr (List.mem_cons_of_mem a h)

theorem foldl_LogicalAnd (l : List Int) (d : Int) (hd : d = 0 ∨ d = 1) :
    l.foldl LogicalAnd d = if d ≠ 0 ∧ ∀ v ∈ l, v ≠ 0 then 1 else 0 := by
  induction l generalizing d with
  | nil => rcases hd with h | h <;> subst h <;> simp
  | cons a l ih =>
    have hb : LogicalAnd d a = 0 ∨ LogicalAnd d a = 1 := by
      unfold LogicalAnd
      by_cases h : d ≠ 0 ∧ a ≠ 0 <;> simp [h]
    rw [List.foldl_cons, ih _ hb]
    have hiff : (LogicalAnd d a ≠ 0 ∧ ∀ v ∈ l, v ≠ 0) ↔ (d ≠ 0 ∧ ∀ v ∈ a :: l, v ≠ 0) := by
      rw [LogicalAnd_ne_zero, List.forall_mem_cons, and_assoc]
    by_cases h : d ≠ 0 ∧ ∀ v ∈ a :: l, v ≠ 0
    · rw [if_pos h, if_pos (hiff.mpr h)]
    · rw [if_neg h, if_neg (fun h' => h (hiff.mp h'))]

theorem foldl_LogicalOr (l : List Int) (d : Int) (hd : d = 0 ∨ d = 1) :
    l.foldl LogicalOr d = if d ≠ 0 ∨ ∃ v ∈ l, v ≠ 0 then 1 else 0 := by
  induction l generalizing d with
  | nil => rcases hd with h | h <;> subst h <;> simp
  | cons a l ih =>
    have hb : LogicalOr d a = 0 ∨ LogicalOr d a = 1 := by
      unfold LogicalOr
      by_cases h : d ≠ 0 ∨ a ≠ 0 <;> simp [h]
    rw [List.foldl_cons, ih _ hb]
    have hiff : (LogicalOr d a ≠ 0 ∨ ∃ v ∈ l, v ≠ 0) ↔ (d ≠ 0 ∨ ∃ v ∈ a :: l, v ≠ 0) := by
      rw [LogicalOr_ne_zero]
      simp only [List.mem_cons, exists_eq_or_imp, or_assoc]
    by_cases h : d ≠ 0 ∨ ∃ v ∈ a :: l, v ≠ 0
    · rw [if_pos h, if_pos (hiff.mpr h)]
    · rw [if_neg h, if_neg (fun h' => h (hiff.mp h'))]

theorem foldl_Plus_eq_sum (l : List Int) (d : Int) : l.foldl Plus d = d + l.sum := by
  induction l generalizing d with
  | nil => simp
  | cons a l ih =>
    rw [List.foldl_cons, ih, List.sum_cons]
    unfold Plus
    ring

/-- A block of a launch contributes each of its active values exactly once, on the
full-block and on the partial-block path. -/
theorem block_foldl {T : Type} (W k D : Nat) (hW : W = 2 ^ k) (hdvd : W ∣ D) (hDW : D / W ≤ W)
    (F : T → T → T) (hassoc : ∀ a b c, F (F a b) c = F a (F b c))
    (hcomm : ∀ a b, F a b = F b a)
    (entry : (Nat → T) → (Nat → T) → Handler → Nat → Option T)
    (full : (Nat → T) → (Nat → T) → Nat → Option T)
    (hentry : ∀ x s h, entry x s h = if h.isFullBlock D then full x s
      else blockReduce_partial W (warpReduce W F) x h)
    (hfull : ∀ m, 0 < m → m ≤ 2 ^ k → D = m * 2 ^ k → ∀ x s,
      full x s = fun tid => if tid = 0 then some (comb F x (D - 1)) else none)
    (b : Block T) (hb : 0 < b.numActive ∧ b.numActive ≤ D) (d : T) :
    (issued b.numActive (entry b.source b.shared0 ⟨b.numActive⟩)).foldl F d
      = b.values.foldl F d := by
  obtain ⟨m, hDm, hm, hmW⟩ := geometry hW hdvd (Nat.lt_of_lt_of_le hb.1 hb.2) hDW
  subst hW
  exact entry_foldl k D b.numActive F hassoc hcomm b.source (full b.source b.shared0)
    (entry b.source b.shared0) (hentry b.source b.shared0)
    (hfull m hm hmW hDm b.source b.shared0) hb.1 d

theorem launchValues_ne_nil {T : Type} (blocks : List (Block T)) (hne : blocks ≠ [])
    (hblocks : ∀ b ∈ blocks, 0 < b.numActive) : ∃ v, v ∈ launchValues blocks := by
  cases blocks with
  | nil => exact absurd rfl hne
  | cons b bs =>
    refine ⟨b.source 0, ?_⟩
    unfold launchValues
    rw [List.flatMap_cons]
    apply List.mem_append_left
    unfold Block.values
    exact List.mem_map.mpr ⟨0, List.mem_range.mpr (hblocks b (List.mem_cons_self b bs)), rfl⟩

/-! ## The claims -/

/-- C1: for `W` a power of two, a block size `D` that is a multiple of `W` with
`D / W ≤ W`, and any launch of blocks with `n` active threads each, `0 < n ≤ D`, holding
integer values: after every active thread has called `deviceReduceSum` on a destination
initialised to 0, the destination equals the sum of all the values, in whatever order the
atomic additions are applied. -/
theorem deviceReduceSum_launch_total (W k D : Nat) (hW : W = 2 ^ k) (hdvd : W ∣ D)
    (hDW : D / W ≤ W) (blocks : List (Block Int))
    (hblocks : ∀ b ∈ blocks, 0 < b.numActive ∧ b.numActive ≤ D) (order : List Int)
    (horder : order.Perm (launchAtomics (deviceReduceSum W D) blocks)) :
    order.foldl AtomicAdd 0 = (launchValues blocks).sum := by
  rw [AtomicAdd_eq, launch_foldl Plus Plus_assoc Plus_comm (deviceReduceSum W D) blocks
    (fun b hb d => block_foldl W k D hW hdvd hDW Plus Plus_assoc Plus_comm
      (deviceReduceSum W D) (deviceReduceSum_full W D)
      (fun x s h => deviceReduceSum_dispatch W D x s h)
      (fun m hm hmW hDm x s => by subst hW; subst hDm; exact deviceReduceSum_full_eq k m hm hmW x s)
      b (hblocks b hb) d)
    order horder 0, foldl_Plus_eq_sum]
  simp

/-- C1 on the sample launch, with the atomic additions applied in reverse thread order. -/
theorem deviceReduceSum_launch_total_witness :
    (2 = 2 ^ 1) ∧ (2 ∣ 4) ∧ (4 / 2 ≤ 2)
    ∧ (∀ b ∈ sampleLaunch, 0 < b.numActive ∧ b.numActive ≤ 4)
    ∧ List.Perm (launchAtomics (deviceReduceSum 2 4) sampleLaunch).reverse
        (launchAtomics (deviceReduceSum 2 4) sampleLaunch)
    ∧ (launchAtomics (deviceReduceSum 2 4) sampleLaunch).reverse.foldl AtomicAdd 0
        = (launchValues sampleLaunch).sum :=
  ⟨by decide, by decide, by decide, by decide, List.reverse_perm _,
    deviceReduceSum_launch_total 2 1 4 (by decide) (by decide) (by decide) sampleLaunch
      (by decide) _ (List.reverse_perm _)⟩

/-- C2: under the same geometry, for any non-empty launch over a bounded totally ordered
type: after every active thread has called `deviceReduceMin` on a destination initialised
to the maximum of the type, the destination is the minimum of all the values (it is one of
the values and is below every value), in whatever order the atomic updates are applied;
and likewise `deviceReduceMax` on a destination initialised to the minimum of the type
leaves the maximum of all the values. -/
theorem deviceReduceMinMax_launch_extremum {T : Type} [LinearOrder T] [BoundedOrder T]
    (W k D : Nat) (hW : W = 2 ^ k) (hdvd : W ∣ D) (hDW : D / W ≤ W) (blocks : List (Block T))
    (hne : blocks ≠ []) (hblocks : ∀ b ∈ blocks, 0 < b.numActive ∧ b.numActive ≤ D)
    (oMin oMax : List T)
    (hMin : oMin.Perm (launchAtomics (deviceReduceMin W D) blocks))
    (hMax : oMax.Perm (launchAtomics (deviceReduceMax W D) blocks)) :
    (oMin.foldl AtomicMin ⊤ ∈ launchValues blocks
      ∧ ∀ v ∈ launchValues blocks, oMin.foldl AtomicMin ⊤ ≤ v)
    ∧ (oMax.foldl AtomicMax ⊥ ∈ launchValues blocks
      ∧ ∀ v ∈ launchValues blocks, v ≤ oMax.foldl AtomicMax ⊥) := by
  obtain ⟨v0, hv0⟩ := launchValues_ne_nil blocks hne (fun b hb => (hblocks b hb).1)
  constructor
  · rw [AtomicMin_eq, launch_foldl Less Less_assoc Less_comm (deviceReduceMin W D) blocks
      (fun b hb d => block_foldl W k D hW hdvd hDW Less Less_assoc Less_comm
        (deviceReduceMin W D) (deviceReduceMin_full W D)
        (fun x s h => deviceReduceMin_dispatch W D x s h)
        (fun m hm hmW hDm x s => by
          subst hW; subst hDm; exact deviceReduceMin_full_eq k m hm hmW x s)
        b (hblocks b hb) d)
      oMin hMin ⊤]
    obtain ⟨_, hle⟩ := foldl_Less_le (launchValues blocks) ⊤
    refine ⟨?_, hle⟩
    rcases foldl_Less_mem (launchValues blocks) ⊤ with h | h
    · have h1 := hle v0 hv0
      rw [h] at h1
      rw [h, ← top_le_iff.mp h1]
      exact hv0
    · exact h
  · rw [AtomicMax_eq, launch_foldl Greater Greater_assoc Greater_comm (deviceReduceMax W D) blocks
      (fun b hb d => block_foldl W k D hW hdvd hDW Greater Greater_assoc Greater_comm
        (deviceReduceMax W D) (deviceReduceMax_full W D)
        (fun x s h => deviceReduceMax_dispatch W D x s h)
        (fun m hm hmW hDm x s => by
          subst hW; subst hDm; exact deviceReduceMax_full_eq k m hm hmW x s)
        b (hblocks b hb) d)
      oMax hMax ⊥]
    obtain ⟨_, hge⟩ := foldl_Greater_ge (launchValues blocks) ⊥
    refine ⟨?_, hge⟩
    rcases foldl_Greater_mem (launchValues blocks) ⊥ with h | h
    · have h1 := hge v0 hv0
      rw [h] at h1
      rw [h, ← le_bot_iff.mp h1]
      exact hv0
    · exact h

/-- C2 on the sample launch over `Fin 8`, with the atomic updates applied in reverse thread order. -/
theorem deviceReduceMinMax_launch_extremum_witness :
    (2 = 2 ^ 1) ∧ (2 ∣ 4) ∧ (4 / 2 ≤ 2) ∧ (sampleLaunchFin ≠ [])
    ∧ (∀ b ∈ sampleLaunchFin, 0 < b.numActive ∧ b.numActive ≤ 4)
    ∧ List.Perm (launchAtomics (deviceReduceMin 2 4) sampleLaunchFin).reverse
        (launchAtomics (deviceReduceMin 2 4) sampleLaunchFin)
    ∧ List.Perm (launchAtomics (deviceReduceMax 2 4) sampleLaunchFin).reverse
        (launchAtomics (deviceReduceMax 2 4) sampleLaunchFin)
    ∧ (((launchAtomics (deviceReduceMin 2 4) sampleLaunchFin).reverse.foldl AtomicMin ⊤
          ∈ launchValues sampleLaunchFin
        ∧ ∀ v ∈ launchValues sampleLaunchFin,
            (launchAtomics (deviceReduceMin 2 4) sampleLaunchFin).reverse.foldl AtomicMin ⊤ ≤ v)
      ∧ ((launchAtomics (deviceReduceMax 2 4) sampleLaunchFin).reverse.foldl AtomicMax ⊥
          ∈ launchValues sampleLaunchFin
        ∧ ∀ v ∈ launchValues sampleLaunchFin,
            v ≤ (launchAtomics (deviceReduceMax 2 4) sampleLaunchFin).reverse.foldl AtomicMax ⊥)) :=
  ⟨by decide, by decide, by decide, by simp [sampleLaunchFin], by decide, List.reverse_perm _,
    List.reverse_perm _,
    deviceReduceMinMax_launch_extremum 2 1 4 (by decide) (by decide) (by decide) sampleLaunchFin
      (by simp [sampleLaunchFin]) (by decide) _ _ (List.reverse_perm _) (List.reverse_perm _)⟩

/-- C3: under the same geometry, for any launch whose values are booleans (0 or 1):
`deviceReduceLogicalAnd` on a destination initialised to 1 leaves 1 if all the values are
non-zero and 0 otherwise, and `deviceReduceLogicalOr` on a destination initialised to 0
leaves 1 if some value is non-zero and 0 otherwise, in whatever order the atomic updates
are applied, on the full-block and on the partial-block path. -/
theorem deviceReduceLogical_launch_result (W k D : Nat) (hW : W = 2 ^ k) (hdvd : W ∣ D)
    (hDW : D / W ≤ W) (blocks : List (Block Int))
    (hblocks : ∀ b ∈ blocks, 0 < b.numActive ∧ b.numActive ≤ D)
    (_hbool : ∀ v ∈ launchValues blocks, v = 0 ∨ v = 1) (oAnd oOr : List Int)
    (hAnd : oAnd.Perm (launchAtomics (deviceReduceLogicalAnd W D) blocks))
    (hOr : oOr.Perm (launchAtomics (deviceReduceLogicalOr W D) blocks)) :
    oAnd.foldl AtomicLogicalAnd 1 = (if ∀ v ∈ launchValues blocks, v ≠ 0 then 1 else 0)
    ∧ oOr.foldl AtomicLogicalOr 0 = (if ∃ v ∈ launchValues blocks, v ≠ 0 then 1 else 0) := by
  constructor
  · rw [AtomicLogicalAnd_eq, launch_foldl LogicalAnd LogicalAnd_assoc LogicalAnd_comm
      (deviceReduceLogicalAnd W D) blocks
      (fun b hb d => block_foldl W k D hW hdvd hDW LogicalAnd LogicalAnd_assoc LogicalAnd_comm
        (deviceReduceLogicalAnd W D) (deviceReduceLogicalAnd_full W D)
        (fun x s h => deviceReduceLogicalAnd_dispatch W D x s h)
        (fun m hm hmW hDm x s => by
          subst hW; subst hDm; exact deviceReduceLogicalAnd_full_eq k m hm hmW x s)
        b (hblocks b hb) d)
      oAnd hAnd 1, foldl_LogicalAnd _ 1 (Or.inr rfl)]
    simp
  · rw [AtomicLogicalOr_eq, launch_foldl LogicalOr LogicalOr_assoc LogicalOr_comm
      (deviceReduceLogicalOr W D) blocks
      (fun b hb d => block_foldl W k D hW hdvd hDW LogicalOr LogicalOr_assoc LogicalOr_comm
        (deviceReduceLogicalOr W D) (deviceReduceLogicalOr_full W D)
        (fun x s h => deviceReduceLogicalOr_dispatch W D x s h)
        (fun m hm hmW hDm x s => by
          subst hW; subst hDm; exact deviceReduceLogicalOr_full_eq k m hm hmW x s)
        b (hblocks b hb) d)
      oOr hOr 0, foldl_LogicalOr _ 0 (Or.inl rfl)]
    simp

/-- C3 on the boolean sample launch, with the atomic updates applied in reverse thread order. -/
theorem deviceReduceLogical_launch_result_witness :
    (2 = 2 ^ 1) ∧ (2 ∣ 4) ∧ (4 / 2 ≤ 2)
    ∧ (∀ b ∈ sampleLaunchBool, 0 < b.numActive ∧ b.numActive ≤ 4)
    ∧ (∀ v ∈ launchValues sampleLaunchBool, v = 0 ∨ v = 1)
    ∧ List.Perm (launchAtomics (deviceReduceLogicalAnd 2 4) sampleLaunchBool).reverse
        (launchAtomics (deviceReduceLogicalAnd 2 4) sampleLaunchBool)
    ∧ List.Perm (launchAtomics (deviceReduceLogicalOr 2 4) sampleLaunchBool).reverse
        (launchAtomics (deviceReduceLogicalOr 2 4) sampleLaunchBool)
    ∧ ((launchAtomics (deviceReduceLogicalAnd 2 4) sampleLaunchBool).reverse.foldl
          AtomicLogicalAnd 1 = (if ∀ v ∈ launchValues sampleLaunchBool, v ≠ 0 then 1 else 0)
      ∧ (launchAtomics (deviceReduceLogicalOr 2 4) sampleLaunchBool).reverse.foldl
          AtomicLogicalOr 0 = (if ∃ v ∈ launchValues sampleLaunchBool, v ≠ 0 then 1 else 0)) :=
  ⟨by decide, by decide, by decide, by decide, by decide, List.reverse_perm _,
    List.reverse_perm _,
    deviceReduceLogical_launch_result 2 1 4 (by decide) (by decide) (by decide) sampleLaunchBool
      (by decide) (by decide) _ _ (List.reverse_perm _) (List.reverse_perm _)⟩

/-! ## Uniform lane values -/

theorem warpReduceLoop_uniform_idem {T : Type} (W : Nat) (F : T → T → T) (c : T)
    (hc : F c c = c) : ∀ (fuel offset : Nat),
      warpReduceLoop W F fuel offset (fun _ => c) = fun _ => c := by
  intro fuel
  induction fuel with
  | zero => intro offset; rfl
  | succ f ih =>
    intro offset
    simp only [warpReduceLoop]
    split
    · have e : (fun lane => F c (shfl_down W (fun _ => c) offset lane)) = fun _ => c := by
        funext lane
        simp [shfl_down, hc]
      rw [e]
      exact ih _
    · rfl

theorem warpReduceLoop_uniform_Plus (W : Nat) (j : Nat) : ∀ (fuel : Nat) (c : Int), j ≤ fuel →
    warpReduceLoop W Plus fuel (2 ^ j / 2) (fun _ => c) = fun _ => 2 ^ j * c := by
  induction j with
  | zero =>
    intro fuel c _
    cases fuel <;> simp [warpReduceLoop]
  | succ j ih =>
    intro fuel c hf
    obtain ⟨f, rfl⟩ : ∃ f, fuel = f + 1 := ⟨fuel - 1, by omega⟩
    have hpos : 0 < 2 ^ j := Nat.pos_pow_of_pos j (by decide)
    have e1 : 2 ^ (j + 1) / 2 = 2 ^ j := by rw [pow_succ]; omega
    rw [e1]
    simp only [warpReduceLoop, hpos, if_true]
    have e : (fun lane => Plus c (shfl_down W (fun _ => c) (2 ^ j) lane)) = fun _ => 2 * c := by
      funext lane
      simp [shfl_down, Plus]
      ring
    rw [e, ih f (2 * c) (by omega)]
    funext _
    rw [pow_succ]
    ring

/-- C4 (as stated, refuted): in a lane-group of two lanes holding 1 and 2, `warpReduce`
with `Plus` returns 3 on lane 0 and 4 on lane 1, so the lanes do not receive the same
value; and for the associative but non-commutative concatenation of lists, lane 0 of a
lane-group of four receives the values in the order 0, 2, 1, 3, not in lane order. -/
theorem warpReduce_lanes_differ :
    warpReduce 2 Plus (fun i => (i : Int) + 1) 1 ≠ warpReduce 2 Plus (fun i => (i : Int) + 1) 0
    ∧ warpReduce 4 (fun a b : List Nat => a ++ b) (fun i => [i]) 0
        ≠ comb (fun a b : List Nat => a ++ b) (fun i => [i]) 3 := by
  refine ⟨by decide, by decide⟩

/-- C4 (amended): for every power-of-two lane-group size `W`, every associative and
commutative operator `F` and every assignment of one value per lane, the value that
`warpReduce` returns on lane 0 is the `F`-combination of all `W` lane values. -/
theorem warpReduce_combination_on_lane0 {T : Type} (W k : Nat) (hW : W = 2 ^ k) (F : T → T → T)
    (hassoc : ∀ a b c, F (F a b) c = F a (F b c)) (hcomm : ∀ a b, F a b = F b a)
    (x : Nat → T) : warpReduce W F x 0 = comb F x (W - 1) := by
  subst hW
  exact warpReduce_lane0 k F hassoc hcomm x

/-- C4 (amended) for a lane-group of 32 lanes holding 1 .. 32 and `Plus`. -/
theorem warpReduce_combination_on_lane0_witness :
    (32 = 2 ^ 5)
    ∧ (∀ a b c, Plus (Plus a b) c = Plus a (Plus b c))
    ∧ (∀ a b, Plus a b = Plus b a)
    ∧ warpReduce 32 Plus (fun i => (i : Int) + 1) 0 = comb Plus (fun i => (i : Int) + 1) (32 - 1) :=
  ⟨by decide, Plus_assoc, Plus_comm,
    warpReduce_combination_on_lane0 32 5 (by decide) Plus Plus_assoc Plus_comm _⟩

/-- C5 (as stated, refuted): with both lanes of a lane-group of two holding 1,
`warpReduce` with `Plus` returns 2 on lane 0, not 1; and with both lanes holding 5,
`warpReduce` with `LogicalAnd` and with `LogicalOr` returns 1, not 5. -/
theorem warpReduce_Plus_not_idempotent :
    warpReduce 2 Plus (fun _ => 1) 0 ≠ 1
    ∧ warpReduce 2 LogicalAnd (fun _ => 5) 0 ≠ 5
    ∧ warpReduce 2 LogicalOr (fun _ => 5) 0 ≠ 5 := by
  refine ⟨by decide, by decide, by decide⟩

/-- C5 (amended): on a lane-group of power-of-two size `W` in which all lanes hold `v`,
`warpReduce` returns `v` on every lane for `Less` and `Greater`, and for `LogicalAnd` and
`LogicalOr` when `v` is a boolean value (0 or 1); for `Plus` it returns `W * v` on every
lane. -/
theorem warpReduce_uniform_input {T : Type} [LinearOrder T] (W k : Nat) (hW : W = 2 ^ k)
    (lane : Nat) (v : T) (s b : Int) (hb : b = 0 ∨ b = 1) :
    warpReduce W Less (fun _ => v) lane = v
    ∧ warpReduce W Greater (fun _ => v) lane = v
    ∧ warpReduce W LogicalAnd (fun _ => b) lane = b
    ∧ warpReduce W LogicalOr (fun _ => b) lane = b
    ∧ warpReduce W Plus (fun _ => s) lane = (W : Int) * s := by
  subst hW
  unfold warpReduce
  refine ⟨?_, ?_, ?_, ?_, ?_⟩
  · rw [warpReduceLoop_uniform_idem _ Less v (by simp [Less])]
  · rw [warpReduceLoop_uniform_idem _ Greater v (by simp [Greater])]
  · rw [warpReduceLoop_uniform_idem _ LogicalAnd b (by rcases hb with h | h <;> subst h <;> decide)]
  · rw [warpReduceLoop_uniform_idem _ LogicalOr b (by rcases hb with h | h <;> subst h <;> decide)]
  · rw [warpReduceLoop_uniform_Plus _ k _ s (Nat.lt_two_pow k).le]
    push_cast
    rfl

/-- C5 (amended) on lane 3 of a lane-group of 4 lanes. -/
theorem warpReduce_uniform_input_witness :
    (4 = 2 ^ 2) ∧ ((1 : Int) = 0 ∨ (1 : Int) = 1)
    ∧ warpReduce 4 Less (fun _ => (7 : Int)) 3 = 7
    ∧ warpReduce 4 Greater (fun _ => (7 : Int)) 3 = 7
    ∧ warpReduce 4 LogicalAnd (fun _ => 1) 3 = 1
    ∧ warpReduce 4 LogicalOr (fun _ => 1) 3 = 1
    ∧ warpReduce 4 Plus (fun _ => 5) 3 = ((4 : Nat) : Int) * 5 :=
  ⟨by decide, by decide, warpReduce_uniform_input 4 2 (by decide) 3 (7 : Int) 5 1 (by decide)⟩

theorem length_issued_dispatch {T : Type} (W D n : Nat) (hW : 0 < W) (hn : 0 < n)
    (wr : (Nat → T) → Nat → T) (x : Nat → T) (g : Nat → T) :
    (issued n (if Handler.isFullBlock ⟨n⟩ D then fun tid => if tid = 0 then some (g tid) else none
      else blockReduce_partial W wr x ⟨n⟩)).length = if n = D then 1 else n / W + n % W := by
  by_cases hnD : n = D
  · have hb : Handler.isFullBlock ⟨n⟩ D = true := by simp [Handler.isFullBlock, hnD]
    rw [if_pos hb, if_pos hnD, issued_thread0 n hn g]
    rfl
  · have hb : ¬ (Handler.isFullBlock ⟨n⟩ D = true) := by simp [Handler.isFullBlock, hnD]
    rw [if_neg hb, if_neg hnD, issued_partial_list W hW]
    simp

/-- C6 (as stated, refuted): in a block of 4 threads with lane-groups of 2 lanes and 3
active threads, `deviceReduceSum` takes the partial-block path and the block issues 2
atomic updates, not 1: one by lane 0 of the first lane-group, one by thread 2. -/
theorem partial_block_two_updates :
    (issued 3 (deviceReduceSum 2 4 (fun i => (i : Int)) (fun _ => 0) ⟨3⟩)).length ≠ 1 := by
  decide

/-- C6 (amended): for every entry point, every block of `D` threads with lane-groups of
`W > 0` lanes and every number `n` of active threads with `0 < n ≤ D`, the block issues
exactly one atomic update when the full-block path is taken (`n = D`) and exactly
`n / W + n % W` atomic updates when the partial-block path is taken. -/
theorem atomic_update_count {T : Type} [LinearOrder T] (W D n : Nat) (hW : 0 < W)
    (hn : 0 < n) (_hnD : n ≤ D) (xs ss : Nat → Int) (xm sm : Nat → T) :
    (issued n (deviceReduceSum W D xs ss ⟨n⟩)).length = (if n = D then 1 else n / W + n % W)
    ∧ (issued n (deviceReduceMin W D xm sm ⟨n⟩)).length = (if n = D then 1 else n / W + n % W)
    ∧ (issued n (deviceReduceMax W D xm sm ⟨n⟩)).length = (if n = D then 1 else n / W + n % W)
    ∧ (issued n (deviceReduceLogicalAnd W D xs ss ⟨n⟩)).length
        = (if n = D then 1 else n / W + n % W)
    ∧ (issued n (deviceReduceLogicalOr W D xs ss ⟨n⟩)).length
        = (if n = D then 1 else n / W + n % W) := by
  refine ⟨?_, ?_, ?_, ?_, ?_⟩
  · rw [deviceReduceSum_dispatch]
    exact length_issued_dispatch W D n hW hn _ xs _
  · rw [deviceReduceMin_dispatch]
    exact length_issued_dispatch W D n hW hn _ xm _
  · rw [deviceReduceMax_dispatch]
    exact length_issued_dispatch W D n hW hn _ xm _
  · rw [deviceReduceLogicalAnd_dispatch]
    exact length_issued_dispatch W D n hW hn _ xs _
  · rw [deviceReduceLogicalOr_dispatch]
    exact length_issued_dispatch W D n hW hn _ xs _

/-- C6 (amended) for a block of 4 threads, lane-groups of 2 lanes and 3 active threads. -/
theorem atomic_update_count_witness :
    (0 < 2) ∧ (0 < 3) ∧ (3 ≤ 4)
    ∧ (issued 3 (deviceReduceSum 2 4 (fun i => (i : Int)) (fun _ => 0) ⟨3⟩)).length
        = (if 3 = 4 then 1 else 3 / 2 + 3 % 2)
    ∧ (issued 3 (deviceReduceMin 2 4 (fun i => (i : Int)) (fun _ => 0) ⟨3⟩)).length
        = (if 3 = 4 then 1 else 3 / 2 + 3 % 2)
    ∧ (issued 3 (deviceReduceMax 2 4 (fun i => (i : Int)) (fun _ => 0) ⟨3⟩)).length
        = (if 3 = 4 then 1 else 3 / 2 + 3 % 2)
    ∧ (issued 3 (deviceReduceLogicalAnd 2 4 (fun i => (i : Int)) (fun _ => 0) ⟨3⟩)).length
        = (if 3 = 4 then 1 else 3 / 2 + 3 % 2)
    ∧ (issued 3 (deviceReduceLogicalOr 2 4 (fun i => (i : Int)) (fun _ => 0) ⟨3⟩)).length
        = (if 3 = 4 then 1 else 3 / 2 + 3 % 2) :=
  ⟨by decide, by decide, by decide,
    atomic_update_count 2 4 3 (by decide) (by decide) (by decide)
      (fun i => (i : Int)) (fun _ => 0) (fun i => (i : Int)) (fun _ => 0)⟩

/-- C7: in a full block of `D` threads (`W` a power of two, `D` a positive multiple of
`W` with `D / W ≤ W`), for each of Sum, Min, Max, And, Or: `blockReduce` returns on thread
0 the combination of all `D` thread values under the operator; thread 0 issues an atomic
update with that value and no other thread issues one; so the destination becomes the
atomic operation applied to its previous value and the combination of all `D` values. -/
theorem full_block_contract {T : Type} [LinearOrder T] (W k D : Nat) (hW : W = 2 ^ k)
    (hdvd : W ∣ D) (hD : 0 < D) (hDW : D / W ≤ W) (xs ss : Nat → Int) (xm sm : Nat → T)
    (tid : Nat) (ds : Int) (dm : T) :
    (blockReduce W D (warpReduce W Plus) xs (fun _ => 0) ss 0 = comb Plus xs (D - 1)
      ∧ deviceReduceSum_full W D xs ss tid
          = (if tid = 0 then some (comb Plus xs (D - 1)) else none)
      ∧ (issued D (deviceReduceSum_full W D xs ss)).foldl AtomicAdd ds
          = AtomicAdd ds (comb Plus xs (D - 1)))
    ∧ (blockReduce W D (warpReduce W Less) xm xm sm 0 = comb Less xm (D - 1)
      ∧ deviceReduceMin_full W D xm sm tid
          = (if tid = 0 then some (comb Less xm (D - 1)) else none)
      ∧ (issued D (deviceReduceMin_full W D xm sm)).foldl AtomicMin dm
          = AtomicMin dm (comb Less xm (D - 1)))
    ∧ (blockReduce W D (warpReduce W Greater) xm xm sm 0 = comb Greater xm (D - 1)
      ∧ deviceReduceMax_full W D xm sm tid
          = (if tid = 0 then some (comb Greater xm (D - 1)) else none)
      ∧ (issued D (deviceReduceMax_full W D xm sm)).foldl AtomicMax dm
          = AtomicMax dm (comb Greater xm (D - 1)))
    ∧ (blockReduce W D (warpReduce W LogicalAnd) xs (fun _ => 1) ss 0
          = comb LogicalAnd xs (D - 1)
      ∧ deviceReduceLogicalAnd_full W D xs ss tid
          = (if tid = 0 then some (comb LogicalAnd xs (D - 1)) else none)
      ∧ (issued D (deviceReduceLogicalAnd_full W D xs ss)).foldl AtomicLogicalAnd ds
          = AtomicLogicalAnd ds (comb LogicalAnd xs (D - 1)))
    ∧ (blockReduce W D (warpReduce W LogicalOr) xs (fun _ => 0) ss 0
          = comb LogicalOr xs (D - 1)
      ∧ deviceReduceLogicalOr_full W D xs ss tid
          = (if tid = 0 then some (comb LogicalOr xs (D - 1)) else none)
      ∧ (issued D (deviceReduceLogicalOr_full W D xs ss)).foldl AtomicLogicalOr ds
          = AtomicLogicalOr ds (comb LogicalOr xs (D - 1))) := by
  obtain ⟨m, hDm, hm, hmW⟩ := geometry hW hdvd hD hDW
  subst hW
  subst hDm
  have hpos : 0 < m * 2 ^ k := hD
  refine ⟨⟨?_, ?_, ?_⟩, ⟨?_, ?_, ?_⟩, ⟨?_, ?_, ?_⟩, ⟨?_, ?_, ?_⟩, ⟨?_, ?_, ?_⟩⟩
  · exact blockReduce_Plus_thread0 k m hm hmW xs ss
  · rw [deviceReduceSum_full_eq k m hm hmW]
  · rw [deviceReduceSum_full_eq k m hm hmW, issued_thread0 _ hpos (fun _ => comb Plus xs _)]
    rfl
  · exact blockReduce_Less_thread0 k m hm hmW xm sm
  · rw [deviceReduceMin_full_eq k m hm hmW]
  · rw [deviceReduceMin_full_eq k m hm hmW, issued_thread0 _ hpos (fun _ => comb Less xm _)]
    rfl
  · exact blockReduce_Greater_thread0 k m hm hmW xm sm
  · rw [deviceReduceMax_full_eq k m hm hmW]
  · rw [deviceReduceMax_full_eq k m hm hmW, issued_thread0 _ hpos (fun _ => comb Greater xm _)]
    rfl
  · exact blockReduce_LogicalAnd_thread0 k m hm hmW xs ss
  · rw [deviceReduceLogicalAnd_full_eq k m hm hmW]
  · rw [deviceReduceLogicalAnd_full_eq k m hm hmW,
      issued_thread0 _ hpos (fun _ => comb LogicalAnd xs _)]
    rfl
  · exact blockReduce_LogicalOr_thread0 k m hm hmW xs ss
  · rw [deviceReduceLogicalOr_full_eq k m hm hmW]
  · rw [deviceReduceLogicalOr_full_eq k m hm hmW,
      issued_thread0 _ hpos (fun _ => comb LogicalOr xs _)]
    rfl

/-- C7 for a full block of 4 threads with lane-groups of 2 lanes, on thread 0. -/
theorem full_block_contract_witness :
    (2 = 2 ^ 1) ∧ (2 ∣ 4) ∧ (0 < 4) ∧ (4 / 2 ≤ 2)
    ∧ ((blockReduce 2 4 (warpReduce 2 Plus) (fun i => (i : Int)) (fun _ => 0) (fun _ => 9) 0
          = comb Plus (fun i => (i : Int)) (4 - 1)
      ∧ deviceReduceSum_full 2 4 (fun i => (i : Int)) (fun _ => 9) 0
          = (if 0 = 0 then some (comb Plus (fun i => (i : Int)) (4 - 1)) else none)
      ∧ (issued 4 (deviceReduceSum_full 2 4 (fun i => (i : Int)) (fun _ => 9))).foldl AtomicAdd 5
          = AtomicAdd 5 (comb Plus (fun i => (i : Int)) (4 - 1)))
    ∧ (blockReduce 2 4 (warpReduce 2 Less) (fun i => (i : Int)) (fun i => (i : Int))
          (fun _ => 9) 0 = comb Less (fun i => (i : Int)) (4 - 1)
      ∧ deviceReduceMin_full 2 4 (fun i => (i : Int)) (fun _ => 9) 0
          = (if 0 = 0 then some (comb Less (fun i => (i : Int)) (4 - 1)) else none)
      ∧ (issued 4 (deviceReduceMin_full 2 4 (fun i => (i : Int)) (fun _ => 9))).foldl AtomicMin 5
          = AtomicMin 5 (comb Less (fun i => (i : Int)) (4 - 1)))
    ∧ (blockReduce 2 4 (warpReduce 2 Greater) (fun i => (i : Int)) (fun i => (i : Int))
          (fun _ => 9) 0 = comb Greater (fun i => (i : Int)) (4 - 1)
      ∧ deviceReduceMax_full 2 4 (fun i => (i : Int)) (fun _ => 9) 0
          = (if 0 = 0 then some (comb Greater (fun i => (i : Int)) (4 - 1)) else none)
      ∧ (issued 4 (deviceReduceMax_full 2 4 (fun i => (i : Int)) (fun _ => 9))).foldl AtomicMax 5
          = AtomicMax 5 (comb Greater (fun i => (i : Int)) (4 - 1)))
    ∧ (blockReduce 2 4 (warpReduce 2 LogicalAnd) (fun i => (i : Int)) (fun _ => 1)
          (fun _ => 9) 0 = comb LogicalAnd (fun i => (i : Int)) (4 - 1)
      ∧ deviceReduceLogicalAnd_full 2 4 (fun i => (i : Int)) (fun _ => 9) 0
          = (if 0 = 0 then some (comb LogicalAnd (fun i => (i : Int)) (4 - 1)) else none)
      ∧ (issued 4 (deviceReduceLogicalAnd_full 2 4 (fun i => (i : Int)) (fun _ => 9))).foldl
            AtomicLogicalAnd 5 = AtomicLogicalAnd 5 (comb LogicalAnd (fun i => (i : Int)) (4 - 1)))
    ∧ (blockReduce 2 4 (warpReduce 2 LogicalOr) (fun i => (i : Int)) (fun _ => 0)
          (fun _ => 9) 0 = comb LogicalOr (fun i => (i : Int)) (4 - 1)
      ∧ deviceReduceLogicalOr_full 2 4 (fun i => (i : Int)) (fun _ => 9) 0
          = (if 0 = 0 then some (comb LogicalOr (fun i => (i : Int)) (4 - 1)) else none)
      ∧ (issued 4 (deviceReduceLogicalOr_full 2 4 (fun i => (i : Int)) (fun _ => 9))).foldl
            AtomicLogicalOr 5 = AtomicLogicalOr 5 (comb LogicalOr (fun i => (i : Int)) (4 - 1)))) :=
  ⟨by decide, by decide, by decide, by decide,
    full_block_contract 2 1 4 (by decide) (by decide) (by decide) (by decide)
      (fun i => (i : Int)) (fun _ => 9) (fun i => (i : Int)) (fun _ => 9) 0 5 5⟩

/-- C8: in the partial-block path with `n ≥ 1` active threads and lane-groups of `W`
lanes, `W` a power of two, for an associative and commutative operator `F`: a thread takes
the warp-reduce branch exactly when its whole lane-group lies inside the active range; in
such a lane-group only lane 0 issues an atomic update, carrying the combination of the `W`
values of the lane-group; every other active thread issues an update with its own value.
The block issues `n / W + n % W` updates: one per lane-group inside the active range, then
one per remaining active thread; and for Sum, in whatever order the updates are applied,
the destination increases by the sum of the `n` values. -/
theorem partial_block_contract {T : Type} (W k n : Nat) (hW : W = 2 ^ k) (_hn : 1 ≤ n)
    (F : T → T → T) (hassoc : ∀ a b c, F (F a b) c = F a (F b c))
    (hcomm : ∀ a b, F a b = F b a) (x : Nat → T) (tid : Nat) (_htid : tid < n)
    (xs : Nat → Int) (dest : Int) (order : List Int)
    (horder : order.Perm (issued n ( blockReduce_partial W (warpReduce W Plus) xs ⟨n⟩))) :
    ((tid / W + 1) * W ≤ n ↔ ∀ lane, lane < W → tid / W * W + lane < n)
    ∧ blockReduce_partial W (warpReduce W F) x ⟨n⟩ tid
        = (if (tid / W + 1) * W ≤ n then
            (if tid % W = 0 then some (comb F (fun lane => x (tid / W * W + lane)) (W - 1))
             else none)
           else some (x tid))
    ∧ issued n ( blockReduce_partial W (warpReduce W F) x ⟨n⟩)
        = (List.range (n / W)).map (fun w => comb F (fun lane => x (w * W + lane)) (W - 1))
          ++ (List.range (n % W)).map (fun i => x (n / W * W + i))
    ∧ (issued n ( blockReduce_partial W (warpReduce W F) x ⟨n⟩)).length = n / W + n % W
    ∧ order.foldl AtomicAdd dest = dest + ((List.range n).map xs).sum := by
  subst hW
  have hpos : 0 < 2 ^ k := Nat.pos_pow_of_pos k (by decide)
  have hlist : issued n ( blockReduce_partial (2 ^ k) (warpReduce (2 ^ k) F) x ⟨n⟩)
      = (List.range (n / 2 ^ k)).map
          (fun w => comb F (fun lane => x (w * 2 ^ k + lane)) (2 ^ k - 1))
        ++ (List.range (n % 2 ^ k)).map (fun i => x (n / 2 ^ k * 2 ^ k + i)) := by
    rw [issued_partial_list (2 ^ k) hpos]
    congr 1
    apply List.map_congr_left
    intro w _
    exact warpReduce_lane0 k F hassoc hcomm _
  refine ⟨?_, ?_, hlist, ?_, ?_⟩
  · constructor
    · intro h lane hl
      have : (tid / 2 ^ k + 1) * 2 ^ k = tid / 2 ^ k * 2 ^ k + 2 ^ k := by ring
      omega
    · intro h
      have h1 := h (2 ^ k - 1) (by omega)
      have : (tid / 2 ^ k + 1) * 2 ^ k = tid / 2 ^ k * 2 ^ k + 2 ^ k := by ring
      omega
  · unfold blockReduce_partial
    by_cases hfull : (tid / 2 ^ k + 1) * 2 ^ k ≤ n
    · simp only [hfull, if_true]
      by_cases hl : tid % 2 ^ k = 0
      · simp only [hl, if_true]
        rw [warpReduce_lane0 k F hassoc hcomm]
        rfl
      · simp only [hl, if_false]
    · simp only [hfull, if_false]
  · rw [hlist]
    simp
  · rw [horder.foldl_eq' (fun a _ b _ z => right_comm_of_assoc_comm AtomicAdd Plus_assoc Plus_comm
      z a b) dest]
    rw [AtomicAdd_eq, issued_partial_foldl k Plus Plus_assoc Plus_comm, foldl_Plus_eq_sum]

/-- C8 for 3 active threads with lane-groups of 2 lanes, on thread 2, the two updates applied in reverse order. -/
theorem partial_block_contract_witness :
    (2 = 2 ^ 1) ∧ (1 ≤ 3)
    ∧ (∀ a b c, Plus (Plus a b) c = Plus a (Plus b c)) ∧ (∀ a b, Plus a b = Plus b a)
    ∧ (2 < 3)
    ∧ List.Perm [2, 1] (issued 3 ( blockReduce_partial 2 (warpReduce 2 Plus) (fun i => (i : Int)) ⟨3⟩))
    ∧ (((2 / 2 + 1) * 2 ≤ 3 ↔ ∀ lane, lane < 2 → 2 / 2 * 2 + lane < 3)
      ∧ blockReduce_partial 2 (warpReduce 2 Plus) (fun i => (i : Int)) ⟨3⟩ 2
          = (if (2 / 2 + 1) * 2 ≤ 3 then
              (if 2 % 2 = 0 then
                some (comb Plus (fun lane => ((2 / 2 * 2 + lane : Nat) : Int)) (2 - 1))
               else none)
             else some ((2 : Nat) : Int))
      ∧ issued 3 ( blockReduce_partial 2 (warpReduce 2 Plus) (fun i => (i : Int)) ⟨3⟩)
          = (List.range (3 / 2)).map
              (fun w => comb Plus (fun lane => ((w * 2 + lane : Nat) : Int)) (2 - 1))
            ++ (List.range (3 % 2)).map (fun i => ((3 / 2 * 2 + i : Nat) : Int))
      ∧ (issued 3 ( blockReduce_partial 2 (warpReduce 2 Plus) (fun i => (i : Int)) ⟨3⟩)).length
          = 3 / 2 + 3 % 2
      ∧ List.foldl AtomicAdd 10 [2, 1]
          = 10 + ((List.range 3).map (fun i => (i : Int))).sum) :=
  ⟨by decide, by decide, Plus_assoc, Plus_comm, by decide, by decide,
    partial_block_contract 2 1 3 (by decide) (by decide) Plus Plus_assoc Plus_comm
      (fun i => (i : Int)) 2 (by decide) (fun i => (i : Int)) 10 [2, 1] (by decide)⟩

/-- Boundary continuity for one operator: with all `D` threads active, the updates of the
partial-block strategy, applied in any order, and the single update of the full-block
strategy leave the same destination. -/
theorem boundary_eq {T : Type} (k m : Nat) (hm : 0 < m) (F : T → T → T)
    (hassoc : ∀ a b c, F (F a b) c = F a (F b c)) (hcomm : ∀ a b, F a b = F b a)
    (x : Nat → T) (full : Nat → Option T)
    (hfull : full = fun tid => if tid = 0 then some (comb F x (m * 2 ^ k - 1)) else none)
    (d : T) (order : List T)
    (horder : order.Perm
      (issued (m * 2 ^ k) ( blockReduce_partial (2 ^ k) (warpReduce (2 ^ k) F) x ⟨m * 2 ^ k⟩))) :
    order.foldl F d = (issued (m * 2 ^ k) full).foldl F d := by
  have hpos : 0 < m * 2 ^ k := Nat.mul_pos hm (Nat.pos_pow_of_pos k (by decide))
  rw [horder.foldl_eq' (fun a _ b _ z => right_comm_of_assoc_comm F hassoc hcomm z a b) d,
    issued_partial_foldl k F hassoc hcomm, hfull,
    issued_thread0 _ hpos (fun _ => comb F x (m * 2 ^ k - 1))]
  obtain ⟨E, hE⟩ : ∃ E, m * 2 ^ k = E + 1 := ⟨m * 2 ^ k - 1, by omega⟩
  rw [hE, foldl_map_range_succ F hassoc]
  rfl

/-- C9: for `W` a power of two and `D` a positive multiple of `W` with `D / W ≤ W`, for
each of Sum, Min, Max, And, Or, every initial destination and every assignment of `D`
values: the partial-block strategy run with `numActiveThreads = D`, its atomic updates
applied in any order, leaves the destination with the same value as the full-block
strategy. -/
theorem boundary_continuity {T : Type} [LinearOrder T] (W k D : Nat) (hW : W = 2 ^ k)
    (hdvd : W ∣ D) (hD : 0 < D) (hDW : D / W ≤ W) (xs ss : Nat → Int) (xm sm : Nat → T)
    (ds : Int) (dm : T) (oSum oAnd oOr : List Int) (oMin oMax : List T)
    (hSum : oSum.Perm (issued D ( blockReduce_partial W (warpReduce W Plus) xs ⟨D⟩)))
    (hMin : oMin.Perm (issued D ( blockReduce_partial W (warpReduce W Less) xm ⟨D⟩)))
    (hMax : oMax.Perm (issued D ( blockReduce_partial W (warpReduce W Greater) xm ⟨D⟩)))
    (hAnd : oAnd.Perm (issued D ( blockReduce_partial W (warpReduce W LogicalAnd) xs ⟨D⟩)))
    (hOr : oOr.Perm (issued D ( blockReduce_partial W (warpReduce W LogicalOr) xs ⟨D⟩))) :
    oSum.foldl AtomicAdd ds = (issued D (deviceReduceSum_full W D xs ss)).foldl AtomicAdd ds
    ∧ oMin.foldl AtomicMin dm = (issued D (deviceReduceMin_full W D xm sm)).foldl AtomicMin dm
    ∧ oMax.foldl AtomicMax dm = (issued D (deviceReduceMax_full W D xm sm)).foldl AtomicMax dm
    ∧ oAnd.foldl AtomicLogicalAnd ds
        = (issued D (deviceReduceLogicalAnd_full W D xs ss)).foldl AtomicLogicalAnd ds
    ∧ oOr.foldl AtomicLogicalOr ds
        = (issued D (deviceReduceLogicalOr_full W D xs ss)).foldl AtomicLogicalOr ds := by
  obtain ⟨m, hDm, hm, hmW⟩ := geometry hW hdvd hD hDW
  subst hW
  subst hDm
  refine ⟨?_, ?_, ?_, ?_, ?_⟩
  · rw [AtomicAdd_eq]
    exact boundary_eq k m hm Plus Plus_assoc Plus_comm xs _
      (deviceReduceSum_full_eq k m hm hmW xs ss) ds oSum hSum
  · rw [AtomicMin_eq]
    exact boundary_eq k m hm Less Less_assoc Less_comm xm _
      (deviceReduceMin_full_eq k m hm hmW xm sm) dm oMin hMin
  · rw [AtomicMax_eq]
    exact boundary_eq k m hm Greater Greater_assoc Greater_comm xm _
      (deviceReduceMax_full_eq k m hm hmW xm sm) dm oMax hMax
  · rw [AtomicLogicalAnd_eq]
    exact boundary_eq k m hm LogicalAnd LogicalAnd_assoc LogicalAnd_comm xs _
      (deviceReduceLogicalAnd_full_eq k m hm hmW xs ss) ds oAnd hAnd
  · rw [AtomicLogicalOr_eq]
    exact boundary_eq k m hm LogicalOr LogicalOr_assoc LogicalOr_comm xs _
      (deviceReduceLogicalOr_full_eq k m hm hmW xs ss) ds oOr hOr

/-- C9 for a block of 4 threads with lane-groups of 2 lanes, the partial-block updates applied in reverse order. -/
theorem boundary_continuity_witness :
    (2 = 2 ^ 1) ∧ (2 ∣ 4) ∧ (0 < 4) ∧ (4 / 2 ≤ 2)
    ∧ List.Perm [5, 1] (issued 4 ( blockReduce_partial 2 (warpReduce 2 Plus) (fun i => (i : Int)) ⟨4⟩))
    ∧ List.Perm [2, 0] (issued 4 ( blockReduce_partial 2 (warpReduce 2 Less) (fun i => (i : Int)) ⟨4⟩))
    ∧ List.Perm [3, 1]
        (issued 4 ( blockReduce_partial 2 (warpReduce 2 Greater) (fun i => (i : Int)) ⟨4⟩))
    ∧ List.Perm [1, 0]
        (issued 4 ( blockReduce_partial 2 (warpReduce 2 LogicalAnd) (fun i => (i : Int)) ⟨4⟩))
    ∧ List.Perm [1, 1]
        (issued 4 ( blockReduce_partial 2 (warpReduce 2 LogicalOr) (fun i => (i : Int)) ⟨4⟩))
    ∧ (List.foldl AtomicAdd 7 [5, 1]
          = (issued 4 (deviceReduceSum_full 2 4 (fun i => (i : Int)) (fun _ => 9))).foldl AtomicAdd 7
      ∧ List.foldl AtomicMin 7 [2, 0]
          = (issued 4 (deviceReduceMin_full 2 4 (fun i => (i : Int)) (fun _ => 9))).foldl AtomicMin 7
      ∧ List.foldl AtomicMax 7 [3, 1]
          = (issued 4 (deviceReduceMax_full 2 4 (fun i => (i : Int)) (fun _ => 9))).foldl AtomicMax 7
      ∧ List.foldl AtomicLogicalAnd 7 [1, 0]
          = (issued 4 (deviceReduceLogicalAnd_full 2 4 (fun i => (i : Int)) (fun _ => 9))).foldl
              AtomicLogicalAnd 7
      ∧ List.foldl AtomicLogicalOr 7 [1, 1]
          = (issued 4 (deviceReduceLogicalOr_full 2 4 (fun i => (i : Int)) (fun _ => 9))).foldl
              AtomicLogicalOr 7) :=
  ⟨by decide, by decide, by decide, by decide, by decide, by decide, by decide, by decide,
    by decide,
    boundary_continuity 2 1 4 (by decide) (by decide) (by decide) (by decide)
      (fun i => (i : Int)) (fun _ => 9) (fun i => (i : Int)) (fun _ => 9) 7 7
      [5, 1] [1, 0] [1, 1] [2, 0] [3, 1]
      (by decide) (by decide) (by decide) (by decide) (by decide)⟩

/-- C10 (as stated, refuted): in a full block of one lane-group of 4 lanes over the
bounded type `Fin 4`, thread 1 has no staging slot to read; the value that `blockReduce`
substitutes for it in `deviceReduceMin_full` is the thread's own value 1, not the maximum 3
of the type, and in `deviceReduceMax_full` it is the thread's own value 2, not the minimum
0 of the type. -/
theorem minmax_pad_not_identity :
    blockReduceReread 4 4 (warpReduce 4 Less) (fun _ => (1 : Fin 4)) (fun _ => (1 : Fin 4))
        (fun _ => 0) 1 ≠ (⊤ : Fin 4)
    ∧ blockReduceReread 4 4 (warpReduce 4 Greater) (fun _ => (2 : Fin 4)) (fun _ => (2 : Fin 4))
        (fun _ => 0) 1 ≠ (⊥ : Fin 4) := by
  refine ⟨by decide, by decide⟩

/-- C10 (amended): in the full-block path, the pad that `blockReduce` substitutes on a
thread that has no staging slot to read (`tid ≠ 0` and `tid ≥ blockDim / warpSize`) is 0
for Sum and LogicalOr, 1 for LogicalAnd, and for Min and Max the calling thread's own
contribution `source`; each full-block function is `blockReduce` called with that pad. -/
theorem full_block_pads {T : Type} [LinearOrder T] (W D tid : Nat) (htid : tid ≠ 0)
    (hpad : D / W ≤ tid) (xs ss : Nat → Int) (xm sm : Nat → T) :
    (deviceReduceSum_full W D xs ss tid
        = (if tid = 0 then some (blockReduce W D (warpReduce W Plus) xs (fun _ => 0) ss tid)
           else none)
      ∧ blockReduceReread W D (warpReduce W Plus) xs (fun _ => 0) ss tid = 0)
    ∧ (deviceReduceLogicalOr_full W D xs ss tid
        = (if tid = 0 then some (blockReduce W D (warpReduce W LogicalOr) xs (fun _ => 0) ss tid)
           else none)
      ∧ blockReduceReread W D (warpReduce W LogicalOr) xs (fun _ => 0) ss tid = 0)
    ∧ (deviceReduceLogicalAnd_full W D xs ss tid
        = (if tid = 0 then some (blockReduce W D (warpReduce W LogicalAnd) xs (fun _ => 1) ss tid)
           else none)
      ∧ blockReduceReread W D (warpReduce W LogicalAnd) xs (fun _ => 1) ss tid = 1)
    ∧ (deviceReduceMin_full W D xm sm tid
        = (if tid = 0 then some (blockReduce W D (warpReduce W Less) xm xm sm tid) else none)
      ∧ blockReduceReread W D (warpReduce W Less) xm xm sm tid = xm tid)
    ∧ (deviceReduceMax_full W D xm sm tid
        = (if tid = 0 then some (blockReduce W D (warpReduce W Greater) xm xm sm tid) else none)
      ∧ blockReduceReread W D (warpReduce W Greater) xm xm sm tid = xm tid) := by
  have hb : (decide (tid = 0) || decide (tid < D / W)) = false := by
    simp [htid, hpad]
  refine ⟨⟨rfl, ?_⟩, ⟨rfl, ?_⟩, ⟨rfl, ?_⟩, ⟨rfl, ?_⟩, ⟨rfl, ?_⟩⟩ <;>
    simp [blockReduceReread, hb]

/-- C10 (amended) on thread 1 of a full block of one lane-group of 4 lanes. -/
theorem full_block_pads_witness :
    (1 ≠ 0) ∧ (4 / 4 ≤ 1)
    ∧ ((deviceReduceSum_full 4 4 (fun i => (i : Int)) (fun _ => 9) 1
          = (if 1 = 0 then
              some (blockReduce 4 4 (warpReduce 4 Plus) (fun i => (i : Int)) (fun _ => 0)
                (fun _ => 9) 1)
             else none)
        ∧ blockReduceReread 4 4 (warpReduce 4 Plus) (fun i => (i : Int)) (fun _ => 0)
            (fun _ => 9) 1 = 0)
      ∧ (deviceReduceLogicalOr_full 4 4 (fun i => (i : Int)) (fun _ => 9) 1
          = (if 1 = 0 then
              some (blockReduce 4 4 (warpReduce 4 LogicalOr) (fun i => (i : Int)) (fun _ => 0)
                (fun _ => 9) 1)
             else none)
        ∧ blockReduceReread 4 4 (warpReduce 4 LogicalOr) (fun i => (i : Int)) (fun _ => 0)
            (fun _ => 9) 1 = 0)
      ∧ (deviceReduceLogicalAnd_full 4 4 (fun i => (i : Int)) (fun _ => 9) 1
          = (if 1 = 0 then
              some (blockReduce 4 4 (warpReduce 4 LogicalAnd) (fun i => (i : Int)) (fun _ => 1)
                (fun _ => 9) 1)
             else none)
        ∧ blockReduceReread 4 4 (warpReduce 4 LogicalAnd) (fun i => (i : Int)) (fun _ => 1)
            (fun _ => 9) 1 = 1)
      ∧ (deviceReduceMin_full 4 4 (fun _ => (1 : Fin 4)) (fun _ => 0) 1
          = (if 1 = 0 then
              some (blockReduce 4 4 (warpReduce 4 Less) (fun _ => (1 : Fin 4))
                (fun _ => (1 : Fin 4)) (fun _ => 0) 1)
             else none)
        ∧ blockReduceReread 4 4 (warpReduce 4 Less) (fun _ => (1 : Fin 4))
            (fun _ => (1 : Fin 4)) (fun _ => 0) 1 = (fun _ => (1 : Fin 4)) 1)
      ∧ (deviceReduceMax_full 4 4 (fun _ => (1 : Fin 4)) (fun _ => 0) 1
          = (if 1 = 0 then
              some (blockReduce 4 4 (warpReduce 4 Greater) (fun _ => (1 : Fin 4))
                (fun _ => (1 : Fin 4)) (fun _ => 0) 1)
             else none)
        ∧ blockReduceReread 4 4 (warpReduce 4 Greater) (fun _ => (1 : Fin 4))
            (fun _ => (1 : Fin 4)) (fun _ => 0) 1 = (fun _ => (1 : Fin 4)) 1)) :=
  ⟨by decide, by decide,
    full_block_pads 4 4 1 (by decide) (by decide) (fun i => (i : Int)) (fun _ => 9)
      (fun _ => (1 : Fin 4)) (fun _ => 0)⟩

/-! ## Manual tree reduction: the total is preserved -/

theorem treeStep_comb {T : Type} (F : T → T → T) (hassoc : ∀ a b c, F (F a b) c = F a (F b c))
    (hcomm : ∀ a b, F a b = F b a) (callers off : Nat) (hoff : 0 < off) (hc : off ≤ callers)
    (data : Nat → T) :
    comb F (treeStep F callers off data) (off - 1) = comb F data (off + off - 1) := by
  have e : off + off - 1 = (off - 1) + (off - 1) + 1 := by omega
  rw [e, comb_append F hassoc, ← comb_zip F hassoc hcomm]
  apply comb_congr
  intro i hi
  have hlt : i < callers := by omega
  simp only [treeStep, hlt, if_true]
  congr 2
  omega

theorem pow_two_le_of_lt (k j : Nat) (h : 2 ^ k < 2 ^ (j + 1)) : 2 ^ k ≤ 2 ^ j := by
  have hk : k < j + 1 := (Nat.pow_lt_pow_iff_right (by decide : 1 < 2)).mp h
  exact Nat.pow_le_pow_right (by decide) (by omega)

/-- A line of the tree, unguarded, keeps the combination of the live cells: the first
`min blockSize threshold` cells before the line, the first `min blockSize off` after it. -/
theorem lockstepLine_comb {T : Type} (F : T → T → T)
    (hassoc : ∀ a b c, F (F a b) c = F a (F b c)) (hcomm : ∀ a b, F a b = F b a)
    (k j callers threshold off : Nat) (hoff : off = 2 ^ j) (hth : threshold = 2 ^ (j + 1))
    (hc : threshold ≤ 2 ^ k → off ≤ callers) (data : Nat → T) :
    comb F (lockstepLine F (2 ^ k) callers threshold off data) (min (2 ^ k) off - 1)
      = comb F data (min (2 ^ k) threshold - 1) := by
  have hpos : 0 < 2 ^ j := Nat.pos_pow_of_pos j (by decide)
  have h2 : 2 ^ (j + 1) = 2 ^ j + 2 ^ j := by rw [pow_succ]; omega
  subst hoff
  subst hth
  unfold lockstepLine
  by_cases h : 2 ^ (j + 1) ≤ 2 ^ k
  · rw [if_pos h, Nat.min_eq_right (by omega), Nat.min_eq_right h, h2]
    exact treeStep_comb F hassoc hcomm callers (2 ^ j) hpos (hc h) data
  · rw [if_neg h]
    have hle := pow_two_le_of_lt k j (by omega)
    rw [Nat.min_eq_left hle, Nat.min_eq_left (by omega)]

/-- A guarded line of the tree keeps the combination of the live cells. -/
theorem guardedLine_comb {T : Type} (F : T → T → T)
    (hassoc : ∀ a b c, F (F a b) c = F a (F b c)) (hcomm : ∀ a b, F a b = F b a)
    (k j callers threshold guard off : Nat) (hoff : off = 2 ^ j) (hth : threshold = 2 ^ (j + 1))
    (hc : threshold ≤ 2 ^ k → off ≤ min callers guard) (data : Nat → T) :
    comb F (guardedLine F (2 ^ k) callers threshold guard off data) (min (2 ^ k) off - 1)
      = comb F data (min (2 ^ k) threshold - 1) :=
  lockstepLine_comb F hassoc hcomm k j (min callers guard) threshold off hoff hth hc data

theorem stridedLoop_comb {T : Type} (F : T → T → T) (q i : Nat) (hi : i < 512)
    (data : Nat → T) : ∀ (r c fuel : Nat), c + 1 + r = q → r ≤ fuel →
      stridedLoop F (512 * q) data fuel (i + 512 * (c + 1))
          (comb F (fun j => data (i + 512 * j)) c)
        = comb F (fun j => data (i + 512 * j)) (q - 1) := by
  intro r
  induction r with
  | zero =>
    intro c fuel hq _
    have e : q - 1 = c := by omega
    rw [e]
    cases fuel with
    | zero => rfl
    | succ f =>
      have hn : ¬ (i + 512 * (c + 1) < 512 * q) := by
        have : q = c + 1 := by omega
        subst this
        omega
      simp only [stridedLoop, hn, if_false]
  | succ r ih =>
    intro c fuel hq hf
    obtain ⟨f, rfl⟩ : ∃ f, fuel = f + 1 := ⟨fuel - 1, by omega⟩
    have hn : i + 512 * (c + 1) < 512 * q := by
      have : q = c + 1 + (r + 1) := by omega
      subst this
      omega
    simp only [stridedLoop, hn, if_true]
    have e : i + 512 * (c + 1) + 512 = i + 512 * (c + 1 + 1) := by ring
    rw [e]
    exact ih (c + 1) f (by omega) (by omega)

theorem comb_columns {T : Type} (F : T → T → T) (hassoc : ∀ a b c, F (F a b) c = F a (F b c))
    (hcomm : ∀ a b, F a b = F b a) (w : Nat) (hw : 0 < w) (data : Nat → T) (m : Nat) :
    comb F (fun i => comb F (fun j => data (i + w * j)) m) (w - 1)
      = comb F data (w * (m + 1) - 1) := by
  induction m with
  | zero =>
    rw [Nat.zero_add, Nat.mul_one]
    apply comb_congr
    intro i _
    simp [comb]
  | succ m ih =>
    have hpos : 0 < w * (m + 1) := Nat.mul_pos hw (Nat.succ_pos m)
    have e : w * (m + 1 + 1) - 1 = (w * (m + 1) - 1) + (w - 1) + 1 := by
      have : w * (m + 1 + 1) = w * (m + 1) + w := by ring
      omega
    rw [e, comb_append F hassoc, ← ih, ← comb_zip F hassoc hcomm]
    apply comb_congr
    intro i _
    show F (comb F (fun j => data (i + w * j)) m) (data (i + w * (m + 1))) = _
    congr 2
    omega

/-- The strided first stage folds a block of `512 * q` cells into its first 512 cells. -/
theorem stridedStage_comb {T : Type} (F : T → T → T)
    (hassoc : ∀ a b c, F (F a b) c = F a (F b c)) (hcomm : ∀ a b, F a b = F b a)
    (q : Nat) (hq : 0 < q) (data : Nat → T) :
    comb F (stridedStage F (512 * q) data) 511 = comb F data (512 * q - 1) := by
  obtain ⟨m, rfl⟩ : ∃ m, q = m + 1 := ⟨q - 1, by omega⟩
  rw [← comb_columns F hassoc hcomm 512 (by decide) data m]
  apply comb_congr
  intro i hi
  have hi2 : i < 512 := by omega
  have hmin : i < min (512 * (m + 1)) 512 := by
    rw [Nat.min_eq_right (by omega)]
    exact hi2
  simp only [stridedStage, hmin, if_true]
  have h := stridedLoop_comb F (m + 1) i hi2 data m 0 (512 * (m + 1)) (by omega) (by omega)
  simpa [comb] using h

theorem amdWarpReduce_total {T : Type} (F : T → T → T)
    (hassoc : ∀ a b c, F (F a b) c = F a (F b c)) (hcomm : ∀ a b, F a b = F b a)
    (tg : Target) (hhip : tg.hipDeviceCompile = true) (k : Nat) (d : Nat → T) :
    amdWarpReduce F tg (2 ^ k) (min (2 ^ k) 64) d 0 = comb F d (min (2 ^ k) 128 - 1) := by
  have hpos : 0 < 2 ^ k := Nat.pos_pow_of_pos k (by decide)
  have key0 : ∀ X : Nat → T, X 0 = comb F X (min (2 ^ k) 1 - 1) := by
    intro X
    rw [Nat.min_eq_right hpos]
    rfl
  unfold amdWarpReduce
  rw [if_pos hhip]
  refine (key0 _).trans ?_
  rw [lockstepLine_comb F hassoc hcomm k 0 _ 2 1 (by norm_num) (by norm_num) (by omega),
    lockstepLine_comb F hassoc hcomm k 1 _ 4 2 (by norm_num) (by norm_num) (by omega),
    lockstepLine_comb F hassoc hcomm k 2 _ 8 4 (by norm_num) (by norm_num) (by omega),
    lockstepLine_comb F hassoc hcomm k 3 _ 16 8 (by norm_num) (by norm_num) (by omega),
    lockstepLine_comb F hassoc hcomm k 4 _ 32 16 (by norm_num) (by norm_num) (by omega),
    lockstepLine_comb F hassoc hcomm k 5 _ 64 32 (by norm_num) (by norm_num) (by omega),
    lockstepLine_comb F hassoc hcomm k 6 _ 128 64 (by norm_num) (by norm_num) (by omega)]

theorem cudaWarpReduce_total {T : Type} (F : T → T → T)
    (hassoc : ∀ a b c, F (F a b) c = F a (F b c)) (hcomm : ∀ a b, F a b = F b a)
    (tg : Target) (k : Nat) (d : Nat → T) :
    cudaWarpReduce F tg (2 ^ k) (min (2 ^ k) 32) d 0 = comb F d (min (2 ^ k) 64 - 1) := by
  have hpos : 0 < 2 ^ k := Nat.pos_pow_of_pos k (by decide)
  have key0 : ∀ X : Nat → T, X 0 = comb F X (min (2 ^ k) 1 - 1) := by
    intro X
    rw [Nat.min_eq_right hpos]
    rfl
  unfold cudaWarpReduce
  by_cases harch : 700 ≤ tg.cudaArch
  · rw [if_pos harch]
    unfold cudaWarpReduce_ge7
    rw [if_pos harch]
    refine (key0 _).trans ?_
    rw [guardedLine_comb F hassoc hcomm k 0 _ 2 1 1 (by norm_num) (by norm_num) (by omega),
      guardedLine_comb F hassoc hcomm k 1 _ 4 2 2 (by norm_num) (by norm_num) (by omega),
      guardedLine_comb F hassoc hcomm k 2 _ 8 4 4 (by norm_num) (by norm_num) (by omega),
      guardedLine_comb F hassoc hcomm k 3 _ 16 8 8 (by norm_num) (by norm_num) (by omega),
      guardedLine_comb F hassoc hcomm k 4 _ 32 16 16 (by norm_num) (by norm_num) (by omega),
      guardedLine_comb F hassoc hcomm k 5 _ 64 32 32 (by norm_num) (by norm_num) (by omega)]
  · rw [if_neg harch]
    unfold cudaWarpReduce_lt7
    rw [if_pos (by omega)]
    refine (key0 _).trans ?_
    rw [lockstepLine_comb F hassoc hcomm k 0 _ 2 1 (by norm_num) (by norm_num) (by omega),
      lockstepLine_comb F hassoc hcomm k 1 _ 4 2 (by norm_num) (by norm_num) (by omega),
      lockstepLine_comb F hassoc hcomm k 2 _ 8 4 (by norm_num) (by norm_num) (by omega),
      lockstepLine_comb F hassoc hcomm k 3 _ 16 8 (by norm_num) (by norm_num) (by omega),
      lockstepLine_comb F hassoc hcomm k 4 _ 32 16 (by norm_num) (by norm_num) (by omega),
      lockstepLine_comb F hassoc hcomm k 5 _ 64 32 (by norm_num) (by norm_num) (by omega)]

/-- The tree reduction of a power-of-two block leaves in `data[0]` the combination of all
the cells of the block, for an associative and commutative operation. -/
theorem blockReduceTree_total {T : Type} (F : T → T → T)
    (hassoc : ∀ a b c, F (F a b) c = F a (F b c)) (hcomm : ∀ a b, F a b = F b a)
    (tg : Target) (k warpSize : Nat)
    (hcfg : warpSize < 64 ∨ tg.hipDeviceCompile = true) (data : Nat → T) :
    blockReduceTree F tg (2 ^ k) warpSize data 0 = comb F data (2 ^ k - 1) := by
  have hpos : 0 < 2 ^ k := Nat.pos_pow_of_pos k (by decide)
  have h0 : comb F (if 1024 ≤ 2 ^ k then stridedStage F (2 ^ k) data else data)
      (min (2 ^ k) 512 - 1) = comb F data (2 ^ k - 1) := by
    by_cases h : 1024 ≤ 2 ^ k
    · rw [if_pos h, Nat.min_eq_right (by omega)]
      have hk : 9 ≤ k := by
        by_contra hlt
        have : 2 ^ k ≤ 2 ^ 8 := Nat.pow_le_pow_right (by decide) (by omega)
        omega
      have e : 2 ^ k = 512 * 2 ^ (k - 9) := by
        have : k = 9 + (k - 9) := by omega
        conv_lhs => rw [this, pow_add]
        norm_num
      rw [e]
      exact stridedStage_comb F hassoc hcomm _ (Nat.pos_pow_of_pos _ (by decide)) data
    · rw [if_neg h]
      have hle : 2 ^ k ≤ 2 ^ 9 := pow_two_le_of_lt k 9 (by omega)
      rw [Nat.min_eq_left (by omega)]
  have h1 := guardedLine_comb F hassoc hcomm k 8 (2 ^ k) 512 256 256 (by norm_num)
    (by norm_num) (by omega) (if 1024 ≤ 2 ^ k then stridedStage F (2 ^ k) data else data)
  have h2 := guardedLine_comb F hassoc hcomm k 7 (2 ^ k) 256 128 128 (by norm_num)
    (by norm_num) (by omega) (guardedLine F (2 ^ k) (2 ^ k) 512 256 256
      (if 1024 ≤ 2 ^ k then stridedStage F (2 ^ k) data else data))
  unfold blockReduceTree
  simp only []
  by_cases hw : 64 ≤ warpSize
  · have hhip : tg.hipDeviceCompile = true := by
      rcases hcfg with h | h
      · omega
      · exact h
    rw [if_pos hw, amdWarpReduce_total F hassoc hcomm tg hhip k, h2, h1, h0]
  · rw [if_neg hw, cudaWarpReduce_total F hassoc hcomm tg k,
      guardedLine_comb F hassoc hcomm k 6 (2 ^ k) 128 64 64 (by norm_num) (by norm_num)
        (by omega), h2, h1, h0]

theorem comb_add_eq_sum (v : Nat → Int) (n : Nat) :
    comb (fun a b => a + b) v n = ((List.range (n + 1)).map v).sum := by
  have h := foldl_map_range_succ Plus Plus_assoc v n 0
  rw [foldl_Plus_eq_sum] at h
  have h2 : comb (fun a b => a + b) v n = Plus 0 (comb Plus v n) := by
    show comb Plus v n = 0 + comb Plus v n
    omega
  rw [h2, ← h]
  simp

theorem sum_first_naturals (n : Nat) :
    2 * ((List.range n).map (fun i : Nat => (i : Int) + 1)).sum = (n : Int) * (n + 1) := by
  induction n with
  | zero => simp
  | succ n ih =>
    rw [List.range_succ, List.map_append, List.sum_append, mul_add, ih]
    simp only [List.map_cons, List.map_nil, List.sum_cons, List.sum_nil]
    push_cast
    ring

theorem Less_fun_eq {T : Type} [LinearOrder T] : (Less : T → T → T) = min := by
  funext a b
  exact Less_eq_min a b

theorem Greater_fun_eq {T : Type} [LinearOrder T] : (Greater : T → T → T) = max := by
  funext a b
  exact Greater_eq_max a b

/-- C11: for `warpSize` 32 (with the lockstep and with the fenced warp step, whatever
`__CUDA_ARCH__`) and for `warpSize` 64 compiled for HIP, for every power-of-two `blockSize`
and every contents of `data`: after the threads `tid < blockSize` have run `blockReduceSum`,
`blockReduceMin`, `blockReduceMax`, the output of thread 0 is the sum of the `blockSize`
integer cells, the minimum of the cells (one of them, below all of them) and the maximum of
the cells.  For `blockSize` 256 and the cells 1 .. 256 the outputs are 32896, 1 and 256. -/
theorem tree_reduction_computes {T : Type} [LinearOrder T] (k : Nat) (tg : Target)
    (warpSize : Nat) (hcfg : warpSize = 32 ∨ (warpSize = 64 ∧ tg.hipDeviceCompile = true))
    (ds : Nat → Int) (dm : Nat → T) (s0 : Int) (m0 : T) :
    blockReduceSum tg (2 ^ k) warpSize ds s0 0 = ((List.range (2 ^ k)).map ds).sum
    ∧ ((∃ i, i < 2 ^ k ∧ blockReduceMin tg (2 ^ k) warpSize dm m0 0 = dm i)
      ∧ ∀ i, i < 2 ^ k → blockReduceMin tg (2 ^ k) warpSize dm m0 0 ≤ dm i)
    ∧ ((∃ i, i < 2 ^ k ∧ blockReduceMax tg (2 ^ k) warpSize dm m0 0 = dm i)
      ∧ ∀ i, i < 2 ^ k → dm i ≤ blockReduceMax tg (2 ^ k) warpSize dm m0 0)
    ∧ (blockReduceSum tg 256 warpSize (fun i => (i : Int) + 1) s0 0 = 32896
      ∧ blockReduceMin tg 256 warpSize (fun i => (i : Int) + 1) s0 0 = 1
      ∧ blockReduceMax tg 256 warpSize (fun i => (i : Int) + 1) s0 0 = 256) := by
  have hpos : 0 < 2 ^ k := Nat.pos_pow_of_pos k (by decide)
  have hc : warpSize < 64 ∨ tg.hipDeviceCompile = true := by
    rcases hcfg with h | ⟨_, h⟩
    · exact Or.inl (by omega)
    · exact Or.inr h
  have hsum : ∀ (j : Nat) (d : Nat → Int),
      blockReduceSum tg (2 ^ j) warpSize d s0 0 = ((List.range (2 ^ j)).map d).sum := by
    intro j d
    have hp : 0 < 2 ^ j := Nat.pos_pow_of_pos j (by decide)
    have h := blockReduceTree_total Plus Plus_assoc Plus_comm tg j warpSize hc d
    have h2 := comb_add_eq_sum d (2 ^ j - 1)
    rw [show 2 ^ j - 1 + 1 = 2 ^ j from by omega] at h2
    rw [← h2]
    exact h
  have hmin : ∀ (U : Type) [LinearOrder U] (j : Nat) (d : Nat → U) (u0 : U),
      blockReduceMin tg (2 ^ j) warpSize d u0 0 = comb Less d (2 ^ j - 1) := by
    intro U _ j d u0
    rw [Less_fun_eq]
    exact blockReduceTree_total min min_assoc min_comm tg j warpSize hc d
  have hmax : ∀ (U : Type) [LinearOrder U] (j : Nat) (d : Nat → U) (u0 : U),
      blockReduceMax tg (2 ^ j) warpSize d u0 0 = comb Greater d (2 ^ j - 1) := by
    intro U _ j d u0
    rw [Greater_fun_eq]
    exact blockReduceTree_total max max_assoc max_comm tg j warpSize hc d
  refine ⟨hsum k ds, ⟨?_, ?_⟩, ⟨?_, ?_⟩, ?_, ?_, ?_⟩
  · rw [hmin]
    obtain ⟨i, hi, he⟩ := comb_Less_mem dm (2 ^ k - 1)
    exact ⟨i, by omega, he⟩
  · intro i hi
    rw [hmin]
    exact comb_Less_le dm (2 ^ k - 1) i (by omega)
  · rw [hmax]
    obtain ⟨i, hi, he⟩ := comb_Greater_mem dm (2 ^ k - 1)
    exact ⟨i, by omega, he⟩
  · intro i hi
    rw [hmax]
    exact comb_Greater_ge dm (2 ^ k - 1) i (by omega)
  · have h := hsum 8 (fun i => (i : Int) + 1)
    rw [show (2 : Nat) ^ 8 = 256 from by norm_num] at h
    rw [h]
    have hg := sum_first_naturals 256
    omega
  · have h := hmin Int 8 (fun i => (i : Int) + 1) s0
    rw [show (2 : Nat) ^ 8 = 256 from by norm_num] at h
    rw [h]
    obtain ⟨i, hi, he⟩ := comb_Less_mem (fun i => (i : Int) + 1) (256 - 1)
    have hle := comb_Less_le (fun i => (i : Int) + 1) (256 - 1) 0 (by omega)
    rw [he] at hle ⊢
    simp only [] at hle ⊢
    omega
  · have h := hmax Int 8 (fun i => (i : Int) + 1) s0
    rw [show (2 : Nat) ^ 8 = 256 from by norm_num] at h
    rw [h]
    obtain ⟨i, hi, he⟩ := comb_Greater_mem (fun i => (i : Int) + 1) (256 - 1)
    have hge := comb_Greater_ge (fun i => (i : Int) + 1) (256 - 1) 255 (by omega)
    rw [he] at hge ⊢
    simp only [] at hge ⊢
    omega

/-- C11 for `blockSize` 256, `warpSize` 32 and the lockstep warp step. -/
theorem tree_reduction_computes_witness :
    ((32 : Nat) = 32 ∨ ((32 : Nat) = 64 ∧ (⟨600, false⟩ : Target).hipDeviceCompile = true))
    ∧ (blockReduceSum ⟨600, false⟩ (2 ^ 8) 32 (fun i => (i : Int) + 1) 0 0
          = ((List.range (2 ^ 8)).map (fun i : Nat => (i : Int) + 1)).sum
      ∧ ((∃ i, i < 2 ^ 8 ∧ blockReduceMin ⟨600, false⟩ (2 ^ 8) 32 (fun i => (i : Int) + 1) 0 0
              = (fun i : Nat => (i : Int) + 1) i)
        ∧ ∀ i, i < 2 ^ 8 → blockReduceMin ⟨600, false⟩ (2 ^ 8) 32 (fun i => (i : Int) + 1) 0 0
              ≤ (fun i : Nat => (i : Int) + 1) i)
      ∧ ((∃ i, i < 2 ^ 8 ∧ blockReduceMax ⟨600, false⟩ (2 ^ 8) 32 (fun i => (i : Int) + 1) 0 0
              = (fun i : Nat => (i : Int) + 1) i)
        ∧ ∀ i, i < 2 ^ 8 → (fun i : Nat => (i : Int) + 1) i
              ≤ blockReduceMax ⟨600, false⟩ (2 ^ 8) 32 (fun i => (i : Int) + 1) 0 0)
      ∧ (blockReduceSum ⟨600, false⟩ 256 32 (fun i => (i : Int) + 1) 0 0 = 32896
        ∧ blockReduceMin ⟨600, false⟩ 256 32 (fun i => (i : Int) + 1) 0 0 = 1
        ∧ blockReduceMax ⟨600, false⟩ 256 32 (fun i => (i : Int) + 1) 0 0 = 256)) :=
  ⟨Or.inl rfl,
    tree_reduction_computes 8 ⟨600, false⟩ 32 (Or.inl rfl) (fun i => (i : Int) + 1)
      (fun i => (i : Int) + 1) 0 0⟩

/-! ## Manual tree reduction: cells accessed -/

theorem mem_stridedLoopIdx (blockSize tid idx : Nat) : ∀ (fuel n : Nat),
    idx ∈ stridedLoopIdx blockSize tid fuel n → idx = tid ∨ idx < blockSize := by
  intro fuel
  induction fuel with
  | zero => intro n h; simp [stridedLoopIdx] at h
  | succ f ih =>
    intro n h
    simp only [stridedLoopIdx] at h
    split at h
    · rcases List.mem_cons.mp h with h1 | h1
      · exact Or.inl h1
      · rcases List.mem_cons.mp h1 with h2 | h2
        · exact Or.inr (by omega)
        · exact ih _ h2
    · simp at h

theorem mem_guardedLineIdx (blockSize threshold guard off tid idx : Nat)
    (h : idx ∈ guardedLineIdx blockSize threshold guard off tid) :
    threshold ≤ blockSize ∧ tid < guard ∧ (idx = tid ∨ idx = tid + off) := by
  unfold guardedLineIdx at h
  split at h
  · split at h
    · simp at h
      exact ⟨by assumption, by assumption, h⟩
    · simp at h
  · simp at h

theorem mem_lockstepLineIdx (blockSize threshold off tid idx : Nat)
    (h : idx ∈ lockstepLineIdx blockSize threshold off tid) :
    threshold ≤ blockSize ∧ (idx = tid ∨ idx = tid + off) := by
  unfold lockstepLineIdx at h
  split at h
  · simp at h
    exact ⟨by assumption, h⟩
  · simp at h

/-- C12 (as stated, refuted): with `warpSize` 32, the lockstep warp step and `blockSize` 32,
thread 31 runs `data[tid] += data[tid + 16]` and accesses the cell 47 of an array of 32
cells; with `warpSize` 64 compiled for HIP and `blockSize` 64, thread 32 runs
`data[tid] += data[tid + 32]` and accesses the cell 64 of an array of 64 cells. -/
theorem tree_lockstep_out_of_bounds :
    (47 ∈ blockReduceTreeIdx ⟨600, false⟩ 32 32 31 ∧ ¬ (47 < 32))
    ∧ (64 ∈ blockReduceTreeIdx ⟨0, true⟩ 64 64 32 ∧ ¬ (64 < 64)) := by
  decide

/-- C12 (amended): every cell of `data` that a thread `tid < blockSize` reads or writes
during `blockReduce*` has an index below `blockSize` when the warp step is the fenced one
(`warpSize` 32, `__CUDA_ARCH__ >= 700`), for every `blockSize`; when it is the lockstep one
(`warpSize` 32, `__CUDA_ARCH__ < 700`), for `blockSize = 1` and for `blockSize ≥ 64`; and
for `warpSize` 64, for `blockSize = 1` and for `blockSize ≥ 128`. -/
theorem tree_indices_in_bounds (tg : Target) (blockSize warpSize tid idx : Nat)
    (htid : tid < blockSize)
    (hsafe : (warpSize = 32 ∧ 700 ≤ tg.cudaArch)
      ∨ (warpSize = 32 ∧ tg.cudaArch < 700 ∧ (blockSize = 1 ∨ 64 ≤ blockSize))
      ∨ (warpSize = 64 ∧ (blockSize = 1 ∨ 128 ≤ blockSize)))
    (hidx : idx ∈ blockReduceTreeIdx tg blockSize warpSize tid) : idx < blockSize := by
  unfold blockReduceTreeIdx at hidx
  simp only [List.mem_append] at hidx
  rcases hidx with (((h | h) | h) | h) | h
  · split at h
    · split at h
      · rcases mem_stridedLoopIdx _ _ _ _ _ h with h1 | h1 <;> omega
      · simp at h
    · simp at h
  · obtain ⟨h1, h2, h3⟩ := mem_guardedLineIdx _ _ _ _ _ _ h
    omega
  · obtain ⟨h1, h2, h3⟩ := mem_guardedLineIdx _ _ _ _ _ _ h
    omega
  · split at h
    · rename_i hw
      split at h
      · rename_i ht
        unfold amdWarpReduceIdx at h
        split at h
        · simp only [List.mem_append] at h
          rcases h with (((((h | h) | h) | h) | h) | h) | h <;>
            obtain ⟨h1, h3⟩ := mem_lockstepLineIdx _ _ _ _ _ h <;> omega
        · simp at h
      · simp at h
    · rename_i hw
      simp only [List.mem_append] at h
      rcases h with h | h
      · obtain ⟨h1, h2, h3⟩ := mem_guardedLineIdx _ _ _ _ _ _ h
        omega
      · split at h
        · rename_i ht
          unfold cudaWarpReduceIdx cudaWarpReduce_ge7Idx cudaWarpReduce_lt7Idx at h
          by_cases harch : 700 ≤ tg.cudaArch
          · rw [if_pos harch, if_pos harch] at h
            simp only [List.mem_append] at h
            rcases h with ((((h | h) | h) | h) | h) | h <;>
              obtain ⟨h1, h2, h3⟩ := mem_guardedLineIdx _ _ _ _ _ _ h <;> omega
          · rw [if_neg harch, if_pos (by omega)] at h
            simp only [List.mem_append] at h
            rcases h with ((((h | h) | h) | h) | h) | h <;>
              obtain ⟨h1, h3⟩ := mem_lockstepLineIdx _ _ _ _ _ h <;> omega
        · simp at h
  · split at h
    · simp at h
      omega
    · simp at h

/-- C12 (amended) for `warpSize` 32, the lockstep warp step, `blockSize` 64 and the cell
`tid + 32` of thread 31. -/
theorem tree_indices_in_bounds_witness :
    (31 < 64)
    ∧ (((32 : Nat) = 32 ∧ 700 ≤ (⟨600, false⟩ : Target).cudaArch)
      ∨ ((32 : Nat) = 32 ∧ (⟨600, false⟩ : Target).cudaArch < 700 ∧ ((64 : Nat) = 1 ∨ 64 ≤ 64))
      ∨ ((32 : Nat) = 64 ∧ ((64 : Nat) = 1 ∨ 128 ≤ 64)))
    ∧ 63 ∈ blockReduceTreeIdx ⟨600, false⟩ 64 32 31
    ∧ 63 < 64 :=
  ⟨by decide, by decide, by decide,
    tree_indices_in_bounds ⟨600, false⟩ 64 32 31 63 (by decide) (by decide) (by decide)⟩

/-- C16: in `blockReduceSum`, `blockReduceMin`, `blockReduceMax`, `blockReduceAnd` and
`blockReduceOr`, thread 0 assigns to the out-parameter the final value of `data[0]`, and for
every thread with `tid ≠ 0` the out-parameter holds after the call the value it held
before. -/
theorem tree_output_frame {T : Type} [LinearOrder T] (tg : Target) (blockSize warpSize : Nat)
    (ds : Nat → Int) (dm : Nat → T) (s0 : Int) (m0 : T) (tid : Nat) (htid : tid ≠ 0) :
    (blockReduceSum tg blockSize warpSize ds s0 0
        = blockReduceTree (fun a b => a + b) tg blockSize warpSize ds 0
      ∧ blockReduceSum tg blockSize warpSize ds s0 tid = s0)
    ∧ (blockReduceMin tg blockSize warpSize dm m0 0
        = blockReduceTree min tg blockSize warpSize dm 0
      ∧ blockReduceMin tg blockSize warpSize dm m0 tid = m0)
    ∧ (blockReduceMax tg blockSize warpSize dm m0 0
        = blockReduceTree max tg blockSize warpSize dm 0
      ∧ blockReduceMax tg blockSize warpSize dm m0 tid = m0)
    ∧ (blockReduceAnd tg blockSize warpSize ds s0 0
        = blockReduceTree andInt tg blockSize warpSize ds 0
      ∧ blockReduceAnd tg blockSize warpSize ds s0 tid = s0)
    ∧ (blockReduceOr tg blockSize warpSize ds s0 0
        = blockReduceTree orInt tg blockSize warpSize ds 0
      ∧ blockReduceOr tg blockSize warpSize ds s0 tid = s0) := by
  refine ⟨⟨rfl, ?_⟩, ⟨rfl, ?_⟩, ⟨rfl, ?_⟩, ⟨rfl, ?_⟩, ⟨rfl, ?_⟩⟩
  · simp [blockReduceSum, htid]
  · simp [blockReduceMin, htid]
  · simp [blockReduceMax, htid]
  · simp [blockReduceAnd, htid]
  · simp [blockReduceOr, htid]

/-- C16 for thread 5 of a block of 8 threads whose out-parameters hold 77 before the call. -/
theorem tree_output_frame_witness :
    (5 ≠ 0)
    ∧ ((blockReduceSum ⟨700, false⟩ 8 32 (fun i => (i : Int)) 77 0
          = blockReduceTree (fun a b => a + b) ⟨700, false⟩ 8 32 (fun i => (i : Int)) 0
        ∧ blockReduceSum ⟨700, false⟩ 8 32 (fun i => (i : Int)) 77 5 = 77)
      ∧ (blockReduceMin ⟨700, false⟩ 8 32 (fun i => (i : Int)) 77 0
          = blockReduceTree min ⟨700, false⟩ 8 32 (fun i => (i : Int)) 0
        ∧ blockReduceMin ⟨700, false⟩ 8 32 (fun i => (i : Int)) 77 5 = 77)
      ∧ (blockReduceMax ⟨700, false⟩ 8 32 (fun i => (i : Int)) 77 0
          = blockReduceTree max ⟨700, false⟩ 8 32 (fun i => (i : Int)) 0
        ∧ blockReduceMax ⟨700, false⟩ 8 32 (fun i => (i : Int)) 77 5 = 77)
      ∧ (blockReduceAnd ⟨700, false⟩ 8 32 (fun i => (i : Int)) 77 0
          = blockReduceTree andInt ⟨700, false⟩ 8 32 (fun i => (i : Int)) 0
        ∧ blockReduceAnd ⟨700, false⟩ 8 32 (fun i => (i : Int)) 77 5 = 77)
      ∧ (blockReduceOr ⟨700, false⟩ 8 32 (fun i => (i : Int)) 77 0
          = blockReduceTree orInt ⟨700, false⟩ 8 32 (fun i => (i : Int)) 0
        ∧ blockReduceOr ⟨700, false⟩ 8 32 (fun i => (i : Int)) 77 5 = 77)) :=
  ⟨by decide,
    tree_output_frame ⟨700, false⟩ 8 32 (fun i => (i : Int)) (fun i => (i : Int)) 77 77 5
      (by decide)⟩

/-! ## CPU fallback -/

theorem Host_Sum_eq (h : Handler) : (fun d s => Host.deviceReduceSum d s h) = Plus := rfl

theorem Host_Min_eq {T : Type} [LinearOrder T] (h : Handler) :
    (fun (d s : T) => Host.deviceReduceMin d s h) = Less := by
  funext d s
  rw [Less_eq_min]
  show (if s < d then s else d) = min d s
  by_cases hlt : s < d
  · rw [if_pos hlt, min_eq_right hlt.le]
  · rw [if_neg hlt, min_eq_left (not_lt.mp hlt)]

theorem Host_Max_eq {T : Type} [LinearOrder T] (h : Handler) :
    (fun (d s : T) => Host.deviceReduceMax d s h) = Greater := by
  funext d s
  rw [Greater_eq_max]
  show (if d < s then s else d) = max d s
  by_cases hlt : d < s
  · rw [if_pos hlt, max_eq_right hlt.le]
  · rw [if_neg hlt, max_eq_left (not_lt.mp hlt)]

theorem Host_And_eq (h : Handler) :
    (fun d s => Host.deviceReduceLogicalAnd d s h) = LogicalAnd := rfl

theorem Host_Or_eq (h : Handler) :
    (fun d s => Host.deviceReduceLogicalOr d s h) = LogicalOr := rfl

/-- C13: under the geometry of the parallel claims (`W` a power of two, block size `D` a
multiple of `W` with `D / W ≤ W`, blocks full or partial), for Sum over integers, Min, Max,
And and Or: calling the CPU-fallback entry point serially once per value leaves the same
destination as the CUDA/HIP path on the same values and the same initial destination (in
particular the identity of the operator), in whatever order the atomic updates of the
parallel path are applied. -/
theorem cpu_fallback_agrees {T : Type} [LinearOrder T] (W k D : Nat) (hW : W = 2 ^ k)
    (hdvd : W ∣ D) (hDW : D / W ≤ W) (bs bl : List (Block Int)) (bm : List (Block T))
    (hbs : ∀ b ∈ bs, 0 < b.numActive ∧ b.numActive ≤ D)
    (hbm : ∀ b ∈ bm, 0 < b.numActive ∧ b.numActive ≤ D)
    (hbl : ∀ b ∈ bl, 0 < b.numActive ∧ b.numActive ≤ D)
    (h : Handler) (dSum dAnd dOr : Int) (dMin dMax : T) (oSum oAnd oOr : List Int)
    (oMin oMax : List T)
    (hSum : oSum.Perm (launchAtomics (deviceReduceSum W D) bs))
    (hMin : oMin.Perm (launchAtomics (deviceReduceMin W D) bm))
    (hMax : oMax.Perm (launchAtomics (deviceReduceMax W D) bm))
    (hAnd : oAnd.Perm (launchAtomics (deviceReduceLogicalAnd W D) bl))
    (hOr : oOr.Perm (launchAtomics (deviceReduceLogicalOr W D) bl)) :
    (launchValues bs).foldl (fun d s => Host.deviceReduceSum d s h) dSum
        = oSum.foldl AtomicAdd dSum
    ∧ (launchValues bm).foldl (fun d s => Host.deviceReduceMin d s h) dMin
        = oMin.foldl AtomicMin dMin
    ∧ (launchValues bm).foldl (fun d s => Host.deviceReduceMax d s h) dMax
        = oMax.foldl AtomicMax dMax
    ∧ (launchValues bl).foldl (fun d s => Host.deviceReduceLogicalAnd d s h) dAnd
        = oAnd.foldl AtomicLogicalAnd dAnd
    ∧ (launchValues bl).foldl (fun d s => Host.deviceReduceLogicalOr d s h) dOr
        = oOr.foldl AtomicLogicalOr dOr := by
  refine ⟨?_, ?_, ?_, ?_, ?_⟩
  · rw [Host_Sum_eq, AtomicAdd_eq, launch_foldl Plus Plus_assoc Plus_comm (deviceReduceSum W D) bs
      (fun b hb d => block_foldl W k D hW hdvd hDW Plus Plus_assoc Plus_comm
        (deviceReduceSum W D) (deviceReduceSum_full W D)
        (fun x s h => deviceReduceSum_dispatch W D x s h)
        (fun m hm hmW hDm x s => by
          subst hW; subst hDm; exact deviceReduceSum_full_eq k m hm hmW x s)
        b (hbs b hb) d)
      oSum hSum dSum]
  · rw [Host_Min_eq, AtomicMin_eq, launch_foldl Less Less_assoc Less_comm (deviceReduceMin W D) bm
      (fun b hb d => block_foldl W k D hW hdvd hDW Less Less_assoc Less_comm
        (deviceReduceMin W D) (deviceReduceMin_full W D)
        (fun x s h => deviceReduceMin_dispatch W D x s h)
        (fun m hm hmW hDm x s => by
          subst hW; subst hDm; exact deviceReduceMin_full_eq k m hm hmW x s)
        b (hbm b hb) d)
      oMin hMin dMin]
  · rw [Host_Max_eq, AtomicMax_eq, launch_foldl Greater Greater_assoc Greater_comm
      (deviceReduceMax W D) bm
      (fun b hb d => block_foldl W k D hW hdvd hDW Greater Greater_assoc Greater_comm
        (deviceReduceMax W D) (deviceReduceMax_full W D)
        (fun x s h => deviceReduceMax_dispatch W D x s h)
        (fun m hm hmW hDm x s => by
          subst hW; subst hDm; exact deviceReduceMax_full_eq k m hm hmW x s)
        b (hbm b hb) d)
      oMax hMax dMax]
  · rw [Host_And_eq, AtomicLogicalAnd_eq, launch_foldl LogicalAnd LogicalAnd_assoc LogicalAnd_comm
      (deviceReduceLogicalAnd W D) bl
      (fun b hb d => block_foldl W k D hW hdvd hDW LogicalAnd LogicalAnd_assoc LogicalAnd_comm
        (deviceReduceLogicalAnd W D) (deviceReduceLogicalAnd_full W D)
        (fun x s h => deviceReduceLogicalAnd_dispatch W D x s h)
        (fun m hm hmW hDm x s => by
          subst hW; subst hDm; exact deviceReduceLogicalAnd_full_eq k m hm hmW x s)
        b (hbl b hb) d)
      oAnd hAnd dAnd]
  · rw [Host_Or_eq, AtomicLogicalOr_eq, launch_foldl LogicalOr LogicalOr_assoc LogicalOr_comm
      (deviceReduceLogicalOr W D) bl
      (fun b hb d => block_foldl W k D hW hdvd hDW LogicalOr LogicalOr_assoc LogicalOr_comm
        (deviceReduceLogicalOr W D) (deviceReduceLogicalOr_full W D)
        (fun x s h => deviceReduceLogicalOr_dispatch W D x s h)
        (fun m hm hmW hDm x s => by
          subst hW; subst hDm; exact deviceReduceLogicalOr_full_eq k m hm hmW x s)
        b (hbl b hb) d)
      oOr hOr dOr]

/-- C13 on the sample launches, from the identity of each operator, with the atomic updates
applied in reverse thread order. -/
theorem cpu_fallback_agrees_witness :
    (2 = 2 ^ 1) ∧ (2 ∣ 4) ∧ (4 / 2 ≤ 2)
    ∧ (∀ b ∈ sampleLaunch, 0 < b.numActive ∧ b.numActive ≤ 4)
    ∧ (∀ b ∈ sampleLaunchFin, 0 < b.numActive ∧ b.numActive ≤ 4)
    ∧ (∀ b ∈ sampleLaunchBool, 0 < b.numActive ∧ b.numActive ≤ 4)
    ∧ List.Perm (launchAtomics (deviceReduceSum 2 4) sampleLaunch).reverse
        (launchAtomics (deviceReduceSum 2 4) sampleLaunch)
    ∧ List.Perm (launchAtomics (deviceReduceMin 2 4) sampleLaunchFin).reverse
        (launchAtomics (deviceReduceMin 2 4) sampleLaunchFin)
    ∧ List.Perm (launchAtomics (deviceReduceMax 2 4) sampleLaunchFin).reverse
        (launchAtomics (deviceReduceMax 2 4) sampleLaunchFin)
    ∧ List.Perm (launchAtomics (deviceReduceLogicalAnd 2 4) sampleLaunchBool).reverse
        (launchAtomics (deviceReduceLogicalAnd 2 4) sampleLaunchBool)
    ∧ List.Perm (launchAtomics (deviceReduceLogicalOr 2 4) sampleLaunchBool).reverse
        (launchAtomics (deviceReduceLogicalOr 2 4) sampleLaunchBool)
    ∧ ((launchValues sampleLaunch).foldl (fun d s => Host.deviceReduceSum d s ⟨0⟩) 0
          = (launchAtomics (deviceReduceSum 2 4) sampleLaunch).reverse.foldl AtomicAdd 0
      ∧ (launchValues sampleLaunchFin).foldl (fun d s => Host.deviceReduceMin d s ⟨0⟩) ⊤
          = (launchAtomics (deviceReduceMin 2 4) sampleLaunchFin).reverse.foldl AtomicMin ⊤
      ∧ (launchValues sampleLaunchFin).foldl (fun d s => Host.deviceReduceMax d s ⟨0⟩) ⊥
          = (launchAtomics (deviceReduceMax 2 4) sampleLaunchFin).reverse.foldl AtomicMax ⊥
      ∧ (launchValues sampleLaunchBool).foldl (fun d s => Host.deviceReduceLogicalAnd d s ⟨0⟩) 1
          = (launchAtomics (deviceReduceLogicalAnd 2 4) sampleLaunchBool).reverse.foldl
              AtomicLogicalAnd 1
      ∧ (launchValues sampleLaunchBool).foldl (fun d s => Host.deviceReduceLogicalOr d s ⟨0⟩) 0
          = (launchAtomics (deviceReduceLogicalOr 2 4) sampleLaunchBool).reverse.foldl
              AtomicLogicalOr 0) :=
  ⟨by decide, by decide, by decide, by decide, by decide, by decide, List.reverse_perm _,
    List.reverse_perm _, List.reverse_perm _, List.reverse_perm _, List.reverse_perm _,
    cpu_fallback_agrees 2 1 4 (by decide) (by decide) (by decide) sampleLaunch sampleLaunchBool
      sampleLaunchFin (by decide) (by decide) (by decide) ⟨0⟩ 0 1 0 ⊤ ⊥ _ _ _ _ _
      (List.reverse_perm _) (List.reverse_perm _) (List.reverse_perm _) (List.reverse_perm _)
      (List.reverse_perm _)⟩

/-- C14: each CPU-path entry point gives the same result for every handler and returns as
new destination `dest + source` (Sum), `min(dest, source)` (Min), `max(dest, source)` (Max),
`dest != 0 and source != 0` (And), `dest != 0 or source != 0` (Or), as 0 or 1 for the last
two.  Folding the calls over a list from the identity of the operator (0, the maximum of the
type, the minimum of the type, 1, 0) yields the sum, the minimum (a member of the list below
all members, or the initial value for the empty list), the maximum, the logical AND and the
logical OR of the list. -/
theorem cpu_fallback_contract {T : Type} [LinearOrder T] [BoundedOrder T] (h h2 : Handler)
    (d s : Int) (dm sm : T) (l : List Int) (lm : List T) :
    (Host.deviceReduceSum d s h = Host.deviceReduceSum d s h2
      ∧ Host.deviceReduceMin dm sm h = Host.deviceReduceMin dm sm h2
      ∧ Host.deviceReduceMax dm sm h = Host.deviceReduceMax dm sm h2
      ∧ Host.deviceReduceLogicalAnd d s h = Host.deviceReduceLogicalAnd d s h2
      ∧ Host.deviceReduceLogicalOr d s h = Host.deviceReduceLogicalOr d s h2)
    ∧ (Host.deviceReduceSum d s h = d + s
      ∧ Host.deviceReduceMin dm sm h = min dm sm
      ∧ Host.deviceReduceMax dm sm h = max dm sm
      ∧ Host.deviceReduceLogicalAnd d s h = (if d ≠ 0 ∧ s ≠ 0 then 1 else 0)
      ∧ Host.deviceReduceLogicalOr d s h = (if d ≠ 0 ∨ s ≠ 0 then 1 else 0))
    ∧ (l.foldl (fun d s => Host.deviceReduceSum d s h) 0 = l.sum
      ∧ ((∀ v ∈ lm, lm.foldl (fun d s => Host.deviceReduceMin d s h) ⊤ ≤ v)
        ∧ (lm.foldl (fun d s => Host.deviceReduceMin d s h) ⊤ ∈ lm
          ∨ (lm = [] ∧ lm.foldl (fun d s => Host.deviceReduceMin d s h) ⊤ = ⊤)))
      ∧ ((∀ v ∈ lm, v ≤ lm.foldl (fun d s => Host.deviceReduceMax d s h) ⊥)
        ∧ (lm.foldl (fun d s => Host.deviceReduceMax d s h) ⊥ ∈ lm
          ∨ (lm = [] ∧ lm.foldl (fun d s => Host.deviceReduceMax d s h) ⊥ = ⊥)))
      ∧ l.foldl (fun d s => Host.deviceReduceLogicalAnd d s h) 1
          = (if ∀ v ∈ l, v ≠ 0 then 1 else 0)
      ∧ l.foldl (fun d s => Host.deviceReduceLogicalOr d s h) 0
          = (if ∃ v ∈ l, v ≠ 0 then 1 else 0)) := by
  refine ⟨⟨rfl, rfl, rfl, rfl, rfl⟩, ⟨rfl, ?_, ?_, rfl, rfl⟩, ?_, ⟨?_, ?_⟩, ⟨?_, ?_⟩, ?_, ?_⟩
  · exact (congrFun (congrFun (Host_Min_eq h) dm) sm).trans (Less_eq_min dm sm)
  · exact (congrFun (congrFun (Host_Max_eq h) dm) sm).trans (Greater_eq_max dm sm)
  · rw [Host_Sum_eq, foldl_Plus_eq_sum]
    simp
  · rw [Host_Min_eq]
    exact (foldl_Less_le lm ⊤).2
  · rw [Host_Min_eq]
    cases lm with
    | nil => exact Or.inr ⟨rfl, rfl⟩
    | cons a t =>
      rcases foldl_Less_mem (a :: t) ⊤ with hm | hm
      · left
        have h1 := (foldl_Less_le (a :: t) ⊤).2 a (List.mem_cons_self a t)
        rw [hm] at h1
        rw [hm, ← top_le_iff.mp h1]
        exact List.mem_cons_self a t
      · exact Or.inl hm
  · rw [Host_Max_eq]
    exact (foldl_Greater_ge lm ⊥).2
  · rw [Host_Max_eq]
    cases lm with
    | nil => exact Or.inr ⟨rfl, rfl⟩
    | cons a t =>
      rcases foldl_Greater_mem (a :: t) ⊥ with hm | hm
      · left
        have h1 := (foldl_Greater_ge (a :: t) ⊥).2 a (List.mem_cons_self a t)
        rw [hm] at h1
        rw [hm, ← le_bot_iff.mp h1]
        exact List.mem_cons_self a t
      · exact Or.inl hm
  · rw [Host_And_eq, foldl_LogicalAnd l 1 (Or.inr rfl)]
    simp
  · rw [Host_Or_eq, foldl_LogicalOr l 0 (Or.inl rfl)]
    simp

/-! ## Rounds of the lane-group reduction -/

/-- The loop of `warpReduce` is the succession of the rounds at the offsets listed by
`warpReduceOffsets`. -/
theorem warpReduceLoop_eq_rounds {T : Type} (W : Nat) (F : T → T → T) :
    ∀ (fuel offset : Nat) (x : Nat → T),
      warpReduceLoop W F fuel offset x
        = (warpReduceOffsets fuel offset).foldl (warpReduceRound W F) x := by
  intro fuel
  induction fuel with
  | zero => intro offset x; rfl
  | succ f ih =>
    intro offset x
    simp only [warpReduceLoop, warpReduceOffsets]
    split
    · rw [List.foldl_cons, ih]
      rfl
    · rfl

theorem warpReduceOffsets_pow (j : Nat) : ∀ (fuel : Nat), j ≤ fuel →
    warpReduceOffsets fuel (2 ^ j / 2) = (List.range j).map (fun i => 2 ^ j / 2 ^ (i + 1)) := by
  induction j with
  | zero =>
    intro fuel _
    cases fuel <;> simp [warpReduceOffsets]
  | succ j ih =>
    intro fuel hf
    obtain ⟨f, rfl⟩ : ∃ f, fuel = f + 1 := ⟨fuel - 1, by omega⟩
    have hpos : 0 < 2 ^ j := Nat.pos_pow_of_pos j (by decide)
    have e1 : 2 ^ (j + 1) / 2 = 2 ^ j := by rw [pow_succ]; omega
    rw [e1]
    simp only [warpReduceOffsets, hpos, if_true]
    rw [ih f (by omega), List.range_succ_eq_map, List.map_cons, List.map_map]
    congr 1
    · simp [e1]
    · apply List.map_congr_left
      intro i _
      simp only [Function.comp, Nat.succ_eq_add_one]
      rw [pow_succ 2 j, pow_succ 2 (i + 1), Nat.mul_div_mul_right _ _ (by decide : 0 < 2)]

theorem warpReduceOffsets_fuel : ∀ (fuel fuel2 offset : Nat), offset < 2 ^ fuel →
    offset < 2 ^ fuel2 → warpReduceOffsets fuel offset = warpReduceOffsets fuel2 offset := by
  intro fuel
  induction fuel with
  | zero =>
    intro fuel2 offset h1 _
    have h0 : offset = 0 := by simpa using h1
    subst h0
    cases fuel2 <;> simp [warpReduceOffsets]
  | succ f ih =>
    intro fuel2 offset h1 h2
    cases fuel2 with
    | zero =>
      have h0 : offset = 0 := by simpa using h2
      subst h0
      simp [warpReduceOffsets]
    | succ g =>
      simp only [warpReduceOffsets]
      split
      · congr 1
        apply ih
        · rw [pow_succ] at h1; omega
        · rw [pow_succ] at h2; omega
      · rfl

/-- The loop runs fewer rounds than the fuel it is given when the fuel exceeds the
offset: it ends because its test `offset > 0` fails. -/
theorem warpReduceOffsets_length_lt : ∀ (fuel offset : Nat), offset < fuel →
    (warpReduceOffsets fuel offset).length < fuel := by
  intro fuel
  induction fuel with
  | zero => intro offset h; omega
  | succ f ih =>
    intro offset h
    simp only [warpReduceOffsets]
    split
    · rw [List.length_cons]
      have := ih (offset / 2) (by omega)
      omega
    · simp

/-- C15: for a lane-group size `W = 2^k`, `warpReduce` is the succession of exactly `k`
exchange-and-combine rounds, at the shuffle offsets `W/2, W/4, .., 1` in that order (16, 8,
4, 2, 1 for `W = 32`).  For every `W ≥ 1` the loop ends by its own test: it runs fewer rounds
than the fuel `W` of the model, and any larger fuel gives the same rounds and the same
result.  For `W = 1` it runs no round and returns its input. -/
theorem warpReduce_rounds {T : Type} (F : T → T → T) (x : Nat → T) (k W fuel : Nat)
    (hW : 1 ≤ W) (hfuel : W ≤ fuel) :
    (warpReduceOffsets (2 ^ k) (2 ^ k / 2) = (List.range k).map (fun i => 2 ^ k / 2 ^ (i + 1))
      ∧ (warpReduceOffsets (2 ^ k) (2 ^ k / 2)).length = k
      ∧ warpReduce (2 ^ k) F x
          = ((List.range k).map (fun i => 2 ^ k / 2 ^ (i + 1))).foldl
              (warpReduceRound (2 ^ k) F) x)
    ∧ warpReduceOffsets 32 (32 / 2) = [16, 8, 4, 2, 1]
    ∧ (warpReduce W F x = (warpReduceOffsets W (W / 2)).foldl (warpReduceRound W F) x
      ∧ (warpReduceOffsets W (W / 2)).length < W
      ∧ warpReduceOffsets fuel (W / 2) = warpReduceOffsets W (W / 2)
      ∧ warpReduceLoop W F fuel (W / 2) x = warpReduce W F x)
    ∧ (warpReduceOffsets 1 (1 / 2) = [] ∧ warpReduce 1 F x = x) := by
  have hk := warpReduceOffsets_pow k (2 ^ k) (Nat.lt_two_pow k).le
  refine ⟨⟨hk, ?_, ?_⟩, by decide, ⟨?_, ?_, ?_, ?_⟩, ⟨by decide, rfl⟩⟩
  · rw [hk]
    simp
  · rw [← hk]
    exact warpReduceLoop_eq_rounds (2 ^ k) F (2 ^ k) (2 ^ k / 2) x
  · exact warpReduceLoop_eq_rounds W F W (W / 2) x
  · exact warpReduceOffsets_length_lt W (W / 2) (by omega)
  · apply warpReduceOffsets_fuel
    · exact Nat.lt_of_le_of_lt (Nat.le_trans (Nat.div_le_self W 2) hfuel) (Nat.lt_two_pow fuel)
    · exact Nat.lt_of_le_of_lt (Nat.div_le_self W 2) (Nat.lt_two_pow W)
  · exact warpReduce_fuel W F x fuel hfuel

/-- C15 for the lane-group size 32 and `Plus`, compared with the fuel 40. -/
theorem warpReduce_rounds_witness :
    (1 ≤ 32) ∧ (32 ≤ 40)
    ∧ ((warpReduceOffsets (2 ^ 5) (2 ^ 5 / 2) = (List.range 5).map (fun i => 2 ^ 5 / 2 ^ (i + 1))
        ∧ (warpReduceOffsets (2 ^ 5) (2 ^ 5 / 2)).length = 5
        ∧ warpReduce (2 ^ 5) Plus (fun i : Nat => (i : Int))
            = ((List.range 5).map (fun i => 2 ^ 5 / 2 ^ (i + 1))).foldl
                (warpReduceRound (2 ^ 5) Plus) (fun i : Nat => (i : Int)))
      ∧ warpReduceOffsets 32 (32 / 2) = [16, 8, 4, 2, 1]
      ∧ (warpReduce 32 Plus (fun i : Nat => (i : Int))
            = (warpReduceOffsets 32 (32 / 2)).foldl (warpReduceRound 32 Plus) (fun i : Nat => (i : Int))
        ∧ (warpReduceOffsets 32 (32 / 2)).length < 32
        ∧ warpReduceOffsets 40 (32 / 2) = warpReduceOffsets 32 (32 / 2)
        ∧ warpReduceLoop 32 Plus 40 (32 / 2) (fun i : Nat => (i : Int))
            = warpReduce 32 Plus (fun i : Nat => (i : Int)))
      ∧ (warpReduceOffsets 1 (1 / 2) = [] ∧ warpReduce 1 Plus (fun i : Nat => (i : Int))
            = fun i : Nat => (i : Int))) :=
  ⟨by decide, by decide, warpReduce_rounds Plus (fun i : Nat => (i : Int)) 5 32 40 (by decide) (by decide)⟩

/-! ## Barrier phases of the staging array -/

theorem tagPhases_append (l1 l2 : List Event) : ∀ p,
    tagPhases p (l1 ++ l2) = tagPhases p l1 ++ tagPhases (p + countBarriers l1) l2 := by
  induction l1 with
  | nil => intro p; simp [tagPhases, countBarriers]
  | cons e es ih =>
    intro p
    have hc : countBarriers (e :: es) = (if e.isBarrier then 1 else 0) + countBarriers es := by
      unfold countBarriers
      rw [List.filter_cons]
      split <;> simp
      omega
    show (p, e) :: tagPhases (if e.isBarrier then p + 1 else p) (es ++ l2)
      = (p, e) :: tagPhases (if e.isBarrier then p + 1 else p) es
          ++ tagPhases (p + countBarriers (e :: es)) l2
    rw [ih, hc]
    have e2 : (if e.isBarrier then p + 1 else p) + countBarriers es
        = p + ((if e.isBarrier then 1 else 0) + countBarriers es) := by
      split <;> omega
    rw [e2]
    rfl

theorem countBarriers_blockReduceEvents (W D tid : Nat) :
    countBarriers (blockReduceEvents W D tid) = 2 := by
  unfold blockReduceEvents countBarriers
  simp only []
  split <;> split <;> split <;> rfl

theorem countBarriers_kernelEvents (W D tid calls : Nat) :
    countBarriers (kernelEvents W D tid calls) = 2 * calls := by
  induction calls with
  | zero => rfl
  | succ c ih =>
    have h := countBarriers_blockReduceEvents W D tid
    unfold countBarriers at h ih ⊢
    simp only [kernelEvents, List.filter_append, List.length_append, h, ih]
    omega

theorem mem_tagPhases_kernelEvents (W D tid : Nat) (pe : Nat × Event) : ∀ (calls p0 : Nat),
    pe ∈ tagPhases p0 (kernelEvents W D tid calls)
      ↔ ∃ c, c < calls ∧ pe ∈ tagPhases (p0 + 2 * c) (blockReduceEvents W D tid) := by
  intro calls
  induction calls with
  | zero => intro p0; simp [kernelEvents, tagPhases]
  | succ n ih =>
    intro p0
    simp only [kernelEvents]
    rw [tagPhases_append, List.mem_append, countBarriers_blockReduceEvents, ih]
    constructor
    · rintro (h | ⟨c, hc, h⟩)
      · exact ⟨0, by omega, by simpa using h⟩
      · refine ⟨c + 1, by omega, ?_⟩
        have e : p0 + 2 * (c + 1) = p0 + 2 + 2 * c := by ring
        rw [e]
        exact h
    · rintro ⟨c, hc, h⟩
      cases c with
      | zero => exact Or.inl (by simpa using h)
      | succ c =>
        refine Or.inr ⟨c, by omega, ?_⟩
        have e : p0 + 2 * (c + 1) = p0 + 2 + 2 * c := by ring
        rw [e] at h
        exact h

theorem mem_write_blockReduceEvents (W D tid p0 p s : Nat) :
    (p, Event.write s) ∈ tagPhases p0 (blockReduceEvents W D tid)
      ↔ p = p0 + 1 ∧ tid % W = 0 ∧ s = tid / W := by
  unfold blockReduceEvents
  simp only []
  split <;> split <;> split <;>
    simp [tagPhases, Event.isBarrier, *]

theorem mem_read_blockReduceEvents (W D tid p0 q t : Nat) :
    (q, Event.read t) ∈ tagPhases p0 (blockReduceEvents W D tid)
      ↔ q = p0 + 2 ∧ (tid = 0 ∨ tid < D / W) ∧ t = tid % W := by
  unfold blockReduceEvents
  simp only []
  split <;> split <;> split <;>
    simp [tagPhases, Event.isBarrier, *]

theorem read_slot_written (W D b t : Nat) (hW : 0 < W) (hdvd : W ∣ D) (hDW : D / W ≤ W)
    (hb : b < D) (hr : (b = 0 ∨ b < D / W) ∧ t = b % W) :
    (t < D / W ∨ t = 0) ∧ t < W ∧ t * W < D := by
  obtain ⟨hcase, ht⟩ := hr
  have htW : t < W := by rw [ht]; exact Nat.mod_lt b hW
  have hDe : D / W * W = D := Nat.div_mul_cancel hdvd
  rcases hcase with h0 | hlt
  · subst h0
    have : t = 0 := by rw [ht]; exact Nat.zero_mod W
    subst this
    exact ⟨Or.inr rfl, htW, by simpa using hb⟩
  · have hbt : t = b := by rw [ht]; exact Nat.mod_eq_of_lt (by omega)
    subst hbt
    refine ⟨Or.inl hlt, htW, ?_⟩
    calc t * W < D / W * W := Nat.mul_lt_mul_of_pos_right hlt hW
      _ = D := hDe

/-- C17: in a kernel that calls `blockReduce` any number of times in a full block (`W > 0`,
`D` a multiple of `W` with `D / W ≤ W`), every thread passes two block-wide barriers per
call: one before its write of a staging slot and one between that write and its read of the
staging array.  A write of a slot lies in the barrier phase `2c + 1` of its call `c` and a
read in the phase `2c' + 2` of its call `c'`: the write precedes the read when it belongs to
the same or an earlier call, and follows it when it belongs to a later call.  The slot that
is read was written by lane 0 of the lane-group of that index in the phase just before the
read. -/
theorem staging_barrier_order (W D calls a b p q s t : Nat) (hW : 0 < W) (hdvd : W ∣ D)
    (hDW : D / W ≤ W) (hb : b < D)
    (hwrite : (p, Event.write s) ∈ tagPhases 0 (kernelEvents W D a calls))
    (hread : (q, Event.read t) ∈ tagPhases 0 (kernelEvents W D b calls)) :
    tagPhases 0 (blockReduceEvents W D a)
        = [(0, Event.shuffles), (0, Event.barrier)]
          ++ (if a % W = 0 then [(1, Event.write (a / W))] else [])
          ++ [(1, Event.barrier)]
          ++ (if a = 0 ∨ a < D / W then [(2, Event.read (a % W))] else [])
          ++ (if a / W = 0 then [(2, Event.shuffles)] else [])
    ∧ countBarriers (kernelEvents W D a calls) = 2 * calls
    ∧ countBarriers (kernelEvents W D b calls) = 2 * calls
    ∧ (∃ c c2, c < calls ∧ c2 < calls ∧ p = 2 * c + 1 ∧ q = 2 * c2 + 2
        ∧ (c ≤ c2 → p < q) ∧ (c2 < c → q < p))
    ∧ (t * W < D ∧ (q - 1, Event.write t) ∈ tagPhases 0 (kernelEvents W D (t * W) calls)) := by
  rw [mem_tagPhases_kernelEvents] at hwrite hread
  obtain ⟨c, hc, hw⟩ := hwrite
  obtain ⟨c2, hc2, hr⟩ := hread
  rw [mem_write_blockReduceEvents] at hw
  rw [mem_read_blockReduceEvents] at hr
  obtain ⟨hp, _, _⟩ := hw
  obtain ⟨hq, hr2⟩ := hr
  obtain ⟨_, _, htD⟩ := read_slot_written W D b t hW hdvd hDW hb hr2
  refine ⟨?_, countBarriers_kernelEvents W D a calls, countBarriers_kernelEvents W D b calls,
    ⟨c, c2, hc, hc2, by omega, by omega, by omega, by omega⟩, htD, ?_⟩
  · unfold blockReduceEvents
    simp only []
    split <;> split <;> split <;> rfl
  · rw [mem_tagPhases_kernelEvents]
    refine ⟨c2, hc2, ?_⟩
    rw [mem_write_blockReduceEvents]
    refine ⟨by omega, Nat.mul_mod_left t W, ?_⟩
    rw [Nat.mul_div_cancel _ hW]

/-- C17 for two calls in a block of 4 threads with lane-groups of 2 lanes: the write of slot
1 by thread 2 in the second call and the read of slot 1 by thread 1 in the first call. -/
theorem staging_barrier_order_witness :
    (0 < 2) ∧ (2 ∣ 4) ∧ (4 / 2 ≤ 2) ∧ (1 < 4)
    ∧ (3, Event.write 1) ∈ tagPhases 0 (kernelEvents 2 4 2 2)
    ∧ (2, Event.read 1) ∈ tagPhases 0 (kernelEvents 2 4 1 2)
    ∧ (tagPhases 0 (blockReduceEvents 2 4 2)
          = [(0, Event.shuffles), (0, Event.barrier)]
            ++ (if 2 % 2 = 0 then [(1, Event.write (2 / 2))] else [])
            ++ [(1, Event.barrier)]
            ++ (if 2 = 0 ∨ 2 < 4 / 2 then [(2, Event.read (2 % 2))] else [])
            ++ (if 2 / 2 = 0 then [(2, Event.shuffles)] else [])
      ∧ countBarriers (kernelEvents 2 4 2 2) = 2 * 2
      ∧ countBarriers (kernelEvents 2 4 1 2) = 2 * 2
      ∧ (∃ c c2, c < 2 ∧ c2 < 2 ∧ 3 = 2 * c + 1 ∧ 2 = 2 * c2 + 2
          ∧ (c ≤ c2 → 3 < 2) ∧ (c2 < c → 2 < 3))
      ∧ (1 * 2 < 4 ∧ (2 - 1, Event.write 1) ∈ tagPhases 0 (kernelEvents 2 4 (1 * 2) 2))) :=
  ⟨by decide, by decide, by decide, by decide, by decide, by decide,
    staging_barrier_order 2 4 2 2 1 3 2 1 1 (by decide) (by decide) (by decide) (by decide)
      (by decide) (by decide)⟩

/-- C18: in `blockReduce` the staging array has `W` slots; in a block of `D` threads with
`D` a multiple of `W` and `D ≤ W * W`, a thread `tid < D` writes only the slot
`wid = tid / W`, which is below `W`; it reads only a slot that is below `D / W` or is 0,
and below `W`; the slot it reads is written in the same call by lane 0 of the lane-group of
that index, a thread of the block; and the value it reads is the value that thread wrote,
whatever the staging array and the pad held before. -/
theorem staging_slot_safety {T : Type} (W D tid s : Nat) (hW : 0 < W) (hdvd : W ∣ D)
    (hDW : D ≤ W * W) (htid : tid < D) (wr : (Nat → T) → Nat → T) (x x0 shared0 : Nat → T) :
    (Event.write s ∈ blockReduceEvents W D tid → s = tid / W ∧ s < W)
    ∧ (Event.read s ∈ blockReduceEvents W D tid →
        (s < D / W ∨ s = 0) ∧ s < W ∧ s * W < D ∧ (s * W) % W = 0 ∧ (s * W) / W = s
        ∧ Event.write s ∈ blockReduceEvents W D (s * W)
        ∧ blockReduceReread W D wr x x0 shared0 tid = wr (fun lane => x (s * W + lane)) 0) := by
  have hDq : D / W ≤ W := Nat.div_le_of_le_mul hDW
  constructor
  · intro h
    have h2 : (1, Event.write s) ∈ tagPhases 0 (blockReduceEvents W D tid) := by
      unfold blockReduceEvents at h ⊢
      simp only [] at h ⊢
      revert h
      split <;> split <;> split <;> simp [tagPhases, Event.isBarrier]
    rw [mem_write_blockReduceEvents] at h2
    obtain ⟨_, _, hs⟩ := h2
    refine ⟨hs, ?_⟩
    rw [hs]
    exact Nat.div_lt_of_lt_mul (Nat.lt_of_lt_of_le htid hDW)
  · intro h
    have h2 : (2, Event.read s) ∈ tagPhases 0 (blockReduceEvents W D tid) := by
      unfold blockReduceEvents at h ⊢
      simp only [] at h ⊢
      revert h
      split <;> split <;> split <;> simp [tagPhases, Event.isBarrier]
    rw [mem_read_blockReduceEvents] at h2
    obtain ⟨_, hr⟩ := h2
    obtain ⟨h1, h3, h4⟩ := read_slot_written W D tid s hW hdvd hDq htid hr
    refine ⟨h1, h3, h4, Nat.mul_mod_left s W, Nat.mul_div_cancel _ hW, ?_, ?_⟩
    · have hw : (1, Event.write s) ∈ tagPhases 0 (blockReduceEvents W D (s * W)) := by
        rw [mem_write_blockReduceEvents]
        exact ⟨rfl, Nat.mul_mod_left s W, (Nat.mul_div_cancel _ hW).symm⟩
      unfold blockReduceEvents at hw ⊢
      simp only [] at hw ⊢
      revert hw
      split <;> split <;> split <;> simp [tagPhases, Event.isBarrier]
    · obtain ⟨hb, hs⟩ := hr
      unfold blockReduceReread
      have hbb : (decide (tid = 0) || decide (tid < D / W)) = true := by
        rcases hb with h0 | h0 <;> simp [h0]
      simp only [hbb, if_true]
      rw [← hs, writeShared_apply W D hW, if_pos h4, warpLanes_mul W hW, Nat.mul_mod_left]

/-- C18 for thread 1 of a block of 4 threads with lane-groups of 2 lanes, which reads the
slot 1 written by thread 2. -/
theorem staging_slot_safety_witness :
    (0 < 2) ∧ (2 ∣ 4) ∧ (4 ≤ 2 * 2) ∧ (1 < 4)
    ∧ ((Event.write 1 ∈ blockReduceEvents 2 4 1 → 1 = 1 / 2 ∧ 1 < 2)
      ∧ (Event.read 1 ∈ blockReduceEvents 2 4 1 →
          (1 < 4 / 2 ∨ 1 = 0) ∧ 1 < 2 ∧ 1 * 2 < 4 ∧ (1 * 2) % 2 = 0 ∧ (1 * 2) / 2 = 1
          ∧ Event.write 1 ∈ blockReduceEvents 2 4 (1 * 2)
          ∧ blockReduceReread 2 4 (warpReduce 2 Plus) (fun i : Nat => (i : Int)) (fun _ => 0)
              (fun _ => 9) 1 = warpReduce 2 Plus (fun lane : Nat => ((1 * 2 + lane : Nat) : Int)) 0)) :=
  ⟨by decide, by decide, by decide, by decide,
    staging_slot_safety 2 4 1 1 (by decide) (by decide) (by decide) (by decide)
      (warpReduce 2 Plus) (fun i : Nat => (i : Int)) (fun _ => 0) (fun _ => 9)⟩

/-! ## The order of combination on lane 0 -/

theorem bitReverse_lt (k : Nat) : ∀ i, bitReverse k i < 2 ^ k := by
  induction k with
  | zero => intro i; simp [bitReverse]
  | succ k ih =>
    intro i
    have h := ih (i / 2)
    have hm : i % 2 < 2 := Nat.mod_lt i (by decide)
    have h2 : 2 ^ (k + 1) = 2 ^ k + 2 ^ k := by rw [pow_succ]; omega
    have hle : 2 ^ k * (i % 2) ≤ 2 ^ k * 1 := Nat.mul_le_mul_left _ (by omega)
    simp only [bitReverse]
    omega

theorem comb_pairs {T : Type} (F : T → T → T) (hassoc : ∀ a b c, F (F a b) c = F a (F b c))
    (u : Nat → T) (n : Nat) :
    comb F (fun m => F (u (2 * m)) (u (2 * m + 1))) n = comb F u (2 * n + 1) := by
  induction n with
  | zero => rfl
  | succ n ih =>
    show F (comb F (fun m => F (u (2 * m)) (u (2 * m + 1))) n)
        (F (u (2 * (n + 1))) (u (2 * (n + 1) + 1)))
      = F (F (comb F u (2 * n + 1)) (u (2 * n + 1 + 1))) (u (2 * n + 1 + 1 + 1))
    rw [ih, hassoc]
    rfl

/-- For an associative operator, lane `lane` of the loop started at offset `2^j / 2` holds
the combination of the values of the lanes `lane .. lane + 2^j - 1`, taken in bit-reversed
order. -/
theorem warpReduceLoop_bitReverse {T : Type} (W : Nat) (F : T → T → T)
    (hassoc : ∀ a b c, F (F a b) c = F a (F b c)) (j : Nat) :
    ∀ (fuel : Nat) (x : Nat → T) (lane : Nat), j ≤ fuel → lane + 2 ^ j ≤ W →
      warpReduceLoop W F fuel (2 ^ j / 2) x lane
        = comb F (fun i => x (lane + bitReverse j i)) (2 ^ j - 1) := by
  induction j with
  | zero =>
    intro fuel x lane _ _
    cases fuel <;> simp [warpReduceLoop, comb, bitReverse]
  | succ j ih =>
    intro fuel x lane hf hl
    obtain ⟨f, rfl⟩ : ∃ f, fuel = f + 1 := ⟨fuel - 1, by omega⟩
    have hpos : 0 < 2 ^ j := Nat.pos_pow_of_pos j (by decide)
    have h2 : 2 ^ (j + 1) = 2 ^ j + 2 ^ j := by rw [pow_succ]; omega
    have e1 : 2 ^ (j + 1) / 2 = 2 ^ j := by rw [h2]; omega
    rw [e1]
    simp only [warpReduceLoop, hpos, if_true]
    rw [ih f _ lane (by omega) (by omega)]
    have e2 : 2 ^ (j + 1) - 1 = 2 * (2 ^ j - 1) + 1 := by omega
    rw [e2, ← comb_pairs F hassoc]
    apply comb_congr
    intro i _
    have hb := bitReverse_lt j i
    have hlt : lane + bitReverse j i + 2 ^ j < W := by omega
    simp only [shfl_down, hlt, if_true, bitReverse]
    have m0 : 2 * i % 2 = 0 := by omega
    have m1 : (2 * i + 1) % 2 = 1 := by omega
    have d0 : 2 * i / 2 = i := by omega
    have d1 : (2 * i + 1) / 2 = i := by omega
    rw [m0, m1, d0, d1, Nat.mul_zero, Nat.zero_add, Nat.mul_one]
    congr 2
    omega

/-- C19: with shuffle-down modelled as in `shfl_down`, for every power-of-two `W` and every
associative and commutative `F`, the value `warpReduce` returns on lane 0 is the
`F`-combination of the `W` lane values, each counted once.  For an operator that is only
associative it is the combination of the lane values taken in bit-reversed order, which
differs from the combination in lane order: for the concatenation of lists and four lanes
holding 0, 1, 2, 3 lane 0 receives 0, 2, 1, 3. -/
theorem warpReduce_lane0_order {T : Type} (W k : Nat) (hW : W = 2 ^ k) (F : T → T → T)
    (hassoc : ∀ a b c, F (F a b) c = F a (F b c)) (x : Nat → T) :
    ((∀ a b, F a b = F b a) → warpReduce W F x 0 = comb F x (W - 1))
    ∧ warpReduce W F x 0 = comb F (fun i => x (bitReverse k i)) (W - 1)
    ∧ warpReduce 4 (fun a b : List Nat => a ++ b) (fun i => [i]) 0 = [0, 2, 1, 3]
    ∧ comb (fun a b : List Nat => a ++ b) (fun i => [i]) (4 - 1) = [0, 1, 2, 3] := by
  subst hW
  refine ⟨fun hcomm => warpReduce_lane0 k F hassoc hcomm x, ?_, by decide, by decide⟩
  unfold warpReduce
  rw [warpReduceLoop_bitReverse (2 ^ k) F hassoc k (2 ^ k) x 0 (Nat.lt_two_pow k).le (by omega)]
  apply comb_congr
  intro i _
  simp

/-- C19 for a lane-group of 8 lanes and the concatenation of lists. -/
theorem warpReduce_lane0_order_witness :
    (8 = 2 ^ 3)
    ∧ (∀ a b c : List Nat, (a ++ b) ++ c = a ++ (b ++ c))
    ∧ (((∀ a b : List Nat, a ++ b = b ++ a) →
          warpReduce 8 (fun a b : List Nat => a ++ b) (fun i => [i]) 0
            = comb (fun a b : List Nat => a ++ b) (fun i => [i]) (8 - 1))
      ∧ warpReduce 8 (fun a b : List Nat => a ++ b) (fun i => [i]) 0
          = comb (fun a b : List Nat => a ++ b) (fun i => [bitReverse 3 i]) (8 - 1)
      ∧ warpReduce 4 (fun a b : List Nat => a ++ b) (fun i => [i]) 0 = [0, 2, 1, 3]
      ∧ comb (fun a b : List Nat => a ++ b) (fun i => [i]) (4 - 1) = [0, 1, 2, 3]) :=
  ⟨by decide, List.append_assoc,
    warpReduce_lane0_order 8 3 (by decide) (fun a b : List Nat => a ++ b) List.append_assoc
      (fun i => [i])⟩

/-! ## The pad of Min and Max -/

theorem comb_const {T : Type} (F : T → T → T) (c : T) (hc : F c c = c) (n : Nat) :
    comb F (fun _ => c) n = c := by
  induction n with
  | zero => rfl
  | succ n ih =>
    show F (comb F (fun _ => c) n) c = c
    rw [ih, hc]

/-- C20: `deviceReduceMin_full` and `deviceReduceMax_full` call `blockReduce` with the
calling thread's own contribution as pad; for `W` a power of two and `D` a positive multiple
of `W` with `D / W ≤ W`, the value obtained on thread 0 is the one obtained with the maximum
of the type (for Min) or the minimum of the type (for Max) as pad. -/
theorem minmax_pad_harmless {T : Type} [LinearOrder T] [BoundedOrder T] (W k D : Nat)
    (hW : W = 2 ^ k) (hdvd : W ∣ D) (hD : 0 < D) (hDW : D / W ≤ W) (x shared0 : Nat → T) :
    (deviceReduceMin_full W D x shared0 0
        = some (blockReduce W D (warpReduce W Less) x x shared0 0)
      ∧ blockReduce W D (warpReduce W Less) x x shared0 0
        = blockReduce W D (warpReduce W Less) x (fun _ => ⊤) shared0 0)
    ∧ (deviceReduceMax_full W D x shared0 0
        = some (blockReduce W D (warpReduce W Greater) x x shared0 0)
      ∧ blockReduce W D (warpReduce W Greater) x x shared0 0
        = blockReduce W D (warpReduce W Greater) x (fun _ => ⊥) shared0 0) := by
  obtain ⟨m, hDm, hm, hmW⟩ := geometry hW hdvd hD hDW
  subst hW
  subst hDm
  refine ⟨⟨rfl, ?_⟩, ⟨rfl, ?_⟩⟩
  · rw [blockReduce_Less_thread0 k m hm hmW,
      blockReduce_thread0_split k m hm hmW Less Less_assoc Less_comm]
    split
    · rfl
    · rw [comb_const Less ⊤ (by simp [Less]), Less_eq_min, min_eq_left le_top]
  · rw [blockReduce_Greater_thread0 k m hm hmW,
      blockReduce_thread0_split k m hm hmW Greater Greater_assoc Greater_comm]
    split
    · rfl
    · rw [comb_const Greater ⊥ (by simp [Greater]), Greater_eq_max, max_eq_left bot_le]

/-- C20 for a full block of 4 threads over `Fin 8` with lane-groups of 4 lanes, where the
lanes 1, 2, 3 of the first lane-group are padded. -/
theorem minmax_pad_harmless_witness :
    (4 = 2 ^ 2) ∧ (4 ∣ 4) ∧ (0 < 4) ∧ (4 / 4 ≤ 4)
    ∧ ((deviceReduceMin_full 4 4 (fun i => if i = 1 then (2 : Fin 8) else 5) (fun _ => 0) 0
          = some (blockReduce 4 4 (warpReduce 4 Less) (fun i => if i = 1 then (2 : Fin 8) else 5)
              (fun i => if i = 1 then (2 : Fin 8) else 5) (fun _ => 0) 0)
        ∧ blockReduce 4 4 (warpReduce 4 Less) (fun i => if i = 1 then (2 : Fin 8) else 5)
            (fun i => if i = 1 then (2 : Fin 8) else 5) (fun _ => 0) 0
          = blockReduce 4 4 (warpReduce 4 Less) (fun i => if i = 1 then (2 : Fin 8) else 5)
              (fun _ => ⊤) (fun _ => 0) 0)
      ∧ (deviceReduceMax_full 4 4 (fun i => if i = 1 then (2 : Fin 8) else 5) (fun _ => 0) 0
          = some (blockReduce 4 4 (warpReduce 4 Greater)
              (fun i => if i = 1 then (2 : Fin 8) else 5)
              (fun i => if i = 1 then (2 : Fin 8) else 5) (fun _ => 0) 0)
        ∧ blockReduce 4 4 (warpReduce 4 Greater) (fun i => if i = 1 then (2 : Fin 8) else 5)
            (fun i => if i = 1 then (2 : Fin 8) else 5) (fun _ => 0) 0
          = blockReduce 4 4 (warpReduce 4 Greater) (fun i => if i = 1 then (2 : Fin 8) else 5)
              (fun _ => ⊥) (fun _ => 0) 0)) :=
  ⟨by decide, by decide, by decide, by decide,
    minmax_pad_harmless 4 2 4 (by decide) (by decide) (by decide) (by decide)
      (fun i => if i = 1 then (2 : Fin 8) else 5) (fun _ => 0)⟩

/-! ## Manual tree reduction: lockstep and fenced warp steps -/

/-- One line of the warp step, run unguarded on `d1` and guarded by `tid < off` on `d2`:
when the two memories agree below `threshold = 2 * off`, the results agree below `off`. -/
theorem line_agree {T : Type} (op : T → T → T) (blockSize callers threshold off : Nat)
    (hth : threshold = 2 * off) (hc : threshold ≤ blockSize → off ≤ callers)
    (d1 d2 : Nat → T) (h : ∀ i, i < threshold → d1 i = d2 i) (i : Nat) (hi : i < off) :
    lockstepLine op blockSize callers threshold off d1 i
      = guardedLine op blockSize callers threshold off off d2 i := by
  unfold lockstepLine guardedLine
  by_cases hb : threshold ≤ blockSize
  · have h1 : i < callers := by have := hc hb; omega
    have h2 : i < min callers off := by have := hc hb; omega
    rw [if_pos hb, if_pos hb]
    simp only [treeStep, h1, h2, if_true]
    rw [h i (by omega), h (i + off) (by omega)]
  · rw [if_neg hb, if_neg hb]
    exact h i (by omega)

/-- The lockstep warp step and the fenced warp step leave the same `data[0]`. -/
theorem warp_steps_agree {T : Type} (op : T → T → T) (t1 t2 : Target)
    (h1 : t1.cudaArch < 700) (h2 : 700 ≤ t2.cudaArch) (blockSize : Nat) (d : Nat → T) :
    cudaWarpReduce op t1 blockSize (min blockSize 32) d 0
      = cudaWarpReduce op t2 blockSize (min blockSize 32) d 0 := by
  unfold cudaWarpReduce
  rw [if_neg (by omega), if_pos h2]
  unfold cudaWarpReduce_lt7 cudaWarpReduce_ge7
  rw [if_pos h1, if_pos h2]
  have a64 := line_agree op blockSize (min blockSize 32) 64 32 rfl (by omega) d d
    (fun _ _ => rfl)
  have a32 := line_agree op blockSize (min blockSize 32) 32 16 rfl (by omega) _ _ a64
  have a16 := line_agree op blockSize (min blockSize 32) 16 8 rfl (by omega) _ _ a32
  have a8 := line_agree op blockSize (min blockSize 32) 8 4 rfl (by omega) _ _ a16
  have a4 := line_agree op blockSize (min blockSize 32) 4 2 rfl (by omega) _ _ a8
  exact line_agree op blockSize (min blockSize 32) 2 1 rfl (by omega) _ _ a4 0 (by omega)

/-- With `warpSize` below 64, the tree reduction leaves the same `data[0]` whether it is
compiled with the lockstep or with the fenced warp step. -/
theorem blockReduceTree_agree {T : Type} (op : T → T → T) (t1 t2 : Target)
    (h1 : t1.cudaArch < 700) (h2 : 700 ≤ t2.cudaArch) (blockSize warpSize : Nat)
    (hw : warpSize < 64) (d : Nat → T) :
    blockReduceTree op t1 blockSize warpSize d 0 = blockReduceTree op t2 blockSize warpSize d 0 := by
  have hw2 : ¬ 64 ≤ warpSize := by omega
  unfold blockReduceTree
  simp only []
  rw [if_neg hw2, if_neg hw2]
  exact warp_steps_agree op t1 t2 h1 h2 blockSize _

/-- C21: for `warpSize` 32, every `blockSize` (in particular every power of two from 64 on)
and every contents of `data`: the final `data[0]` of `blockReduceSum`, `blockReduceMin`,
`blockReduceMax`, `blockReduceAnd` and `blockReduceOr` is the same with the lockstep warp step
`cudaWarpReduce*_lt7` of a target with `__CUDA_ARCH__ < 700` and with the fenced warp step
`cudaWarpReduce*_ge7` of a target with `__CUDA_ARCH__ >= 700`, and so is the output of every
thread. -/
theorem lockstep_fenced_agree {T : Type} [LinearOrder T] (tLt tGe : Target)
    (hlt : tLt.cudaArch < 700) (hge : 700 ≤ tGe.cudaArch) (blockSize : Nat)
    (ds : Nat → Int) (dm : Nat → T) (s0 : Int) (m0 : T) (tid : Nat) :
    (blockReduceTree (fun a b => a + b) tLt blockSize 32 ds 0
        = blockReduceTree (fun a b => a + b) tGe blockSize 32 ds 0
      ∧ blockReduceTree min tLt blockSize 32 dm 0 = blockReduceTree min tGe blockSize 32 dm 0
      ∧ blockReduceTree max tLt blockSize 32 dm 0 = blockReduceTree max tGe blockSize 32 dm 0
      ∧ blockReduceTree andInt tLt blockSize 32 ds 0
        = blockReduceTree andInt tGe blockSize 32 ds 0
      ∧ blockReduceTree orInt tLt blockSize 32 ds 0
        = blockReduceTree orInt tGe blockSize 32 ds 0)
    ∧ (blockReduceSum tLt blockSize 32 ds s0 tid = blockReduceSum tGe blockSize 32 ds s0 tid
      ∧ blockReduceMin tLt blockSize 32 dm m0 tid = blockReduceMin tGe blockSize 32 dm m0 tid
      ∧ blockReduceMax tLt blockSize 32 dm m0 tid = blockReduceMax tGe blockSize 32 dm m0 tid
      ∧ blockReduceAnd tLt blockSize 32 ds s0 tid = blockReduceAnd tGe blockSize 32 ds s0 tid
      ∧ blockReduceOr tLt blockSize 32 ds s0 tid = blockReduceOr tGe blockSize 32 ds s0 tid) := by
  have key : ∀ (U : Type) (op : U → U → U) (d : Nat → U),
      blockReduceTree op tLt blockSize 32 d 0 = blockReduceTree op tGe blockSize 32 d 0 :=
    fun U op d => blockReduceTree_agree op tLt tGe hlt hge blockSize 32 (by decide) d
  refine ⟨⟨key _ _ _, key _ _ _, key _ _ _, key _ _ _, key _ _ _⟩, ?_, ?_, ?_, ?_, ?_⟩
  · unfold blockReduceSum
    rw [key]
  · unfold blockReduceMin
    rw [key]
  · unfold blockReduceMax
    rw [key]
  · unfold blockReduceAnd
    rw [key]
  · unfold blockReduceOr
    rw [key]

/-- C21 for `blockSize` 64, `__CUDA_ARCH__` 600 and 700, the cells `i + 1` and thread 0. -/
theorem lockstep_fenced_agree_witness :
    (⟨600, false⟩ : Target).cudaArch < 700
    ∧ 700 ≤ (⟨700, false⟩ : Target).cudaArch
    ∧ ((blockReduceTree (fun a b => a + b) ⟨600, false⟩ 64 32 (fun i => (i : Int) + 1) 0
          = blockReduceTree (fun a b => a + b) ⟨700, false⟩ 64 32 (fun i => (i : Int) + 1) 0
        ∧ blockReduceTree min ⟨600, false⟩ 64 32 (fun i => (i : Int) + 1) 0
          = blockReduceTree min ⟨700, false⟩ 64 32 (fun i => (i : Int) + 1) 0
        ∧ blockReduceTree max ⟨600, false⟩ 64 32 (fun i => (i : Int) + 1) 0
          = blockReduceTree max ⟨700, false⟩ 64 32 (fun i => (i : Int) + 1) 0
        ∧ blockReduceTree andInt ⟨600, false⟩ 64 32 (fun i => (i : Int) + 1) 0
          = blockReduceTree andInt ⟨700, false⟩ 64 32 (fun i => (i : Int) + 1) 0
        ∧ blockReduceTree orInt ⟨600, false⟩ 64 32 (fun i => (i : Int) + 1) 0
          = blockReduceTree orInt ⟨700, false⟩ 64 32 (fun i => (i : Int) + 1) 0)
      ∧ (blockReduceSum ⟨600, false⟩ 64 32 (fun i => (i : Int) + 1) 0 0
          = blockReduceSum ⟨700, false⟩ 64 32 (fun i => (i : Int) + 1) 0 0
        ∧ blockReduceMin ⟨600, false⟩ 64 32 (fun i => (i : Int) + 1) 0 0
          = blockReduceMin ⟨700, false⟩ 64 32 (fun i => (i : Int) + 1) 0 0
        ∧ blockReduceMax ⟨600, false⟩ 64 32 (fun i => (i : Int) + 1) 0 0
          = blockReduceMax ⟨700, false⟩ 64 32 (fun i => (i : Int) + 1) 0 0
        ∧ blockReduceAnd ⟨600, false⟩ 64 32 (fun i => (i : Int) + 1) 0 0
          = blockReduceAnd ⟨700, false⟩ 64 32 (fun i => (i : Int) + 1) 0 0
        ∧ blockReduceOr ⟨600, false⟩ 64 32 (fun i => (i : Int) + 1) 0 0
          = blockReduceOr ⟨700, false⟩ 64 32 (fun i => (i : Int) + 1) 0 0)) :=
  ⟨by decide, by decide,
    lockstep_fenced_agree ⟨600, false⟩ ⟨700, false⟩ (by decide) (by decide) 64
      (fun i => (i : Int) + 1) (fun i => (i : Int) + 1) 0 0 0⟩

/-! ## Manual tree reduction: block sizes that are not a power of two -/

theorem pow_two_le_iff (k j blockSize : Nat) (h1 : 2 ^ k ≤ blockSize)
    (h2 : blockSize < 2 ^ (k + 1)) : 2 ^ j ≤ blockSize ↔ 2 ^ j ≤ 2 ^ k := by
  constructor
  · intro h
    have hlt : 2 ^ j < 2 ^ (k + 1) := by omega
    have hj : j < k + 1 := (Nat.pow_lt_pow_iff_right (by decide : 1 < 2)).mp hlt
    exact Nat.pow_le_pow_right (by decide) (by omega)
  · intro h
    omega

/-- A guarded line of the tree on a block of any size keeps the combination of the live
cells, counted on the power of two `2 ^ k` that enables the same lines as `blockSize`. -/
theorem guardedLine_comb_any {T : Type} (F : T → T → T)
    (hassoc : ∀ a b c, F (F a b) c = F a (F b c)) (hcomm : ∀ a b, F a b = F b a)
    (blockSize k j callers threshold guard off : Nat) (hoff : off = 2 ^ j)
    (hth : threshold = 2 ^ (j + 1)) (hiff : threshold ≤ blockSize ↔ threshold ≤ 2 ^ k)
    (hc : threshold ≤ blockSize → off ≤ min callers guard) (data : Nat → T) :
    comb F (guardedLine F blockSize callers threshold guard off data) (min (2 ^ k) off - 1)
      = comb F data (min (2 ^ k) threshold - 1) := by
  have hpos : 0 < 2 ^ j := Nat.pos_pow_of_pos j (by decide)
  have h2 : 2 ^ (j + 1) = 2 ^ j + 2 ^ j := by rw [pow_succ]; omega
  subst hoff
  subst hth
  unfold guardedLine
  by_cases h : 2 ^ (j + 1) ≤ blockSize
  · have hk := hiff.mp h
    have hjk : 2 ^ j ≤ 2 ^ k := by omega
    rw [if_pos h, Nat.min_eq_right hjk, Nat.min_eq_right hk, h2]
    exact treeStep_comb F hassoc hcomm _ (2 ^ j) hpos (hc h) data
  · have hk : ¬ 2 ^ (j + 1) ≤ 2 ^ k := fun hk => h (hiff.mpr hk)
    rw [if_neg h]
    have hle := pow_two_le_of_lt k j (by omega)
    rw [Nat.min_eq_left hle, Nat.min_eq_left (by omega)]

/-- The fenced tree reduction on a block of any size: `data[0]` ends as the combination of
the first `min (2 ^ k) 512` cells left by the strided stage, where `2 ^ k` enables the same
lines as `blockSize`. -/
theorem fenced_tree_total {T : Type} (F : T → T → T)
    (hassoc : ∀ a b c, F (F a b) c = F a (F b c)) (hcomm : ∀ a b, F a b = F b a)
    (tg : Target) (harch : 700 ≤ tg.cudaArch) (blockSize warpSize k : Nat) (hw : warpSize < 64)
    (hiff : ∀ j, j ≤ 8 → (2 ^ (j + 1) ≤ blockSize ↔ 2 ^ (j + 1) ≤ 2 ^ k)) (data : Nat → T) :
    blockReduceTree F tg blockSize warpSize data 0
      = comb F (if 1024 ≤ blockSize then stridedStage F blockSize data else data)
          (min (2 ^ k) 512 - 1) := by
  have hpos : 0 < 2 ^ k := Nat.pos_pow_of_pos k (by decide)
  have key0 : ∀ X : Nat → T, X 0 = comb F X (min (2 ^ k) 1 - 1) := by
    intro X
    rw [Nat.min_eq_right hpos]
    rfl
  have hw2 : ¬ 64 ≤ warpSize := by omega
  have i0 := hiff 0 (by omega)
  have i1 := hiff 1 (by omega)
  have i2 := hiff 2 (by omega)
  have i3 := hiff 3 (by omega)
  have i4 := hiff 4 (by omega)
  have i5 := hiff 5 (by omega)
  have i6 := hiff 6 (by omega)
  have i7 := hiff 7 (by omega)
  have i8 := hiff 8 (by omega)
  norm_num at i0 i1 i2 i3 i4 i5 i6 i7 i8
  unfold blockReduceTree
  simp only []
  rw [if_neg hw2]
  unfold cudaWarpReduce cudaWarpReduce_ge7
  rw [if_pos harch, if_pos harch]
  refine (key0 _).trans ?_
  rw [guardedLine_comb_any F hassoc hcomm blockSize k 0 _ 2 1 1 (by norm_num) (by norm_num) i0
      (by omega),
    guardedLine_comb_any F hassoc hcomm blockSize k 1 _ 4 2 2 (by norm_num) (by norm_num) i1
      (by omega),
    guardedLine_comb_any F hassoc hcomm blockSize k 2 _ 8 4 4 (by norm_num) (by norm_num) i2
      (by omega),
    guardedLine_comb_any F hassoc hcomm blockSize k 3 _ 16 8 8 (by norm_num) (by norm_num) i3
      (by omega),
    guardedLine_comb_any F hassoc hcomm blockSize k 4 _ 32 16 16 (by norm_num) (by norm_num) i4
      (by omega),
    guardedLine_comb_any F hassoc hcomm blockSize k 5 _ 64 32 32 (by norm_num) (by norm_num) i5
      (by omega),
    guardedLine_comb_any F hassoc hcomm blockSize k 6 _ 128 64 64 (by norm_num) (by norm_num) i6
      (by omega),
    guardedLine_comb_any F hassoc hcomm blockSize k 7 _ 256 128 128 (by norm_num) (by norm_num)
      i7 (by omega),
    guardedLine_comb_any F hassoc hcomm blockSize k 8 _ 512 256 256 (by norm_num) (by norm_num)
      i8 (by omega)]

theorem sum_map_eq_zero (l : List Nat) (f : Nat → Int) (h : ∀ m ∈ l, f m = 0) :
    (l.map f).sum = 0 := by
  induction l with
  | nil => rfl
  | cons a l ih =>
    rw [List.map_cons, List.sum_cons, h a (List.mem_cons_self a l),
      ih (fun m hm => h m (List.mem_cons_of_mem a hm))]
    rfl

theorem sum_map_add_fun (l : List Nat) (f g : Nat → Int) :
    (l.map (fun m => f m + g m)).sum = (l.map f).sum + (l.map g).sum := by
  induction l with
  | nil => rfl
  | cons a l ih =>
    simp only [List.map_cons, List.sum_cons, ih]
    ring

theorem sum_range_single (N n : Nat) (c : Int) :
    ((List.range N).map (fun m => if m = n then c else 0)).sum = if n < N then c else 0 := by
  induction N with
  | zero => simp
  | succ N ih =>
    rw [List.range_succ, List.map_append, List.sum_append, ih]
    simp only [List.map_cons, List.map_nil, List.sum_cons, List.sum_nil]
    by_cases h1 : n < N
    · rw [if_pos h1, if_neg (by omega), if_pos (by omega)]
      ring
    · by_cases h2 : N = n
      · rw [if_neg h1, if_pos h2, if_pos (by omega)]
        ring
      · rw [if_neg h1, if_neg h2, if_neg (by omega)]
        ring

/-- The strided loop of thread `i`, entered at `n` with `n mod 512 = i`, adds to `data[i]`
every `data[m]` with `n ≤ m < blockSize` and `m mod 512 = i`. -/
theorem stridedLoop_sum (blockSize i : Nat) (data : Nat → Int) : ∀ (fuel n : Nat) (acc : Int),
    n % 512 = i → blockSize ≤ n + 512 * fuel →
    stridedLoop (fun a b => a + b) blockSize data fuel n acc
      = acc + ((List.range blockSize).map
          (fun m => if n ≤ m ∧ m % 512 = i then data m else 0)).sum := by
  intro fuel
  induction fuel with
  | zero =>
    intro n acc _ hf
    rw [sum_map_eq_zero]
    · simp [stridedLoop]
    · intro m hm
      have := List.mem_range.mp hm
      rw [if_neg (by omega)]
  | succ f ih =>
    intro n acc hn hf
    by_cases hlt : n < blockSize
    · simp only [stridedLoop, hlt, if_true]
      rw [ih (n + 512) (acc + data n) (by omega) (by omega)]
      have hsplit : (fun m => if n ≤ m ∧ m % 512 = i then data m else 0)
          = (fun m => (if m = n then data n else 0)
              + (if n + 512 ≤ m ∧ m % 512 = i then data m else 0)) := by
        funext m
        by_cases h1 : m = n
        · subst h1
          rw [if_pos ⟨le_refl _, hn⟩, if_pos rfl, if_neg (by omega)]
          ring
        · by_cases h2 : n + 512 ≤ m ∧ m % 512 = i
          · rw [if_pos ⟨by omega, h2.2⟩, if_neg h1, if_pos h2]
            ring
          · rw [if_neg h1, if_neg h2, if_neg]
            · ring
            · intro h3
              apply h2
              refine ⟨?_, h3.2⟩
              have := h3.1
              have := h3.2
              omega
      rw [hsplit, sum_map_add_fun, sum_range_single, if_pos hlt]
      ring
    · simp only [stridedLoop, hlt, if_false]
      rw [sum_map_eq_zero]
      · ring
      · intro m hm
        have := List.mem_range.mp hm
        rw [if_neg (by omega)]

/-- The strided first stage on a block of at least 512 threads: the cell `i < 512` receives
every `data[n]` with `512 ≤ n < blockSize` and `n mod 512 = i`. -/
theorem stridedStage_cell (blockSize : Nat) (hb : 512 ≤ blockSize) (data : Nat → Int) (i : Nat)
    (hi : i < 512) :
    stridedStage (fun a b => a + b) blockSize data i
      = data i + ((List.range blockSize).map
          (fun n => if 512 ≤ n ∧ n % 512 = i then data n else 0)).sum := by
  have hmin : i < min blockSize 512 := by omega
  simp only [stridedStage, hmin, if_true]
  rw [stridedLoop_sum blockSize i data blockSize (i + 512) (data i) (by omega) (by omega)]
  congr 3
  funext m
  by_cases h : 512 ≤ m ∧ m % 512 = i
  · rw [if_pos h, if_pos ⟨by omega, h.2⟩]
  · rw [if_neg h, if_neg]
    intro h3
    apply h
    refine ⟨?_, h3.2⟩
    have := h3.1
    omega

theorem sum_columns (w : Nat) (hw : 0 < w) (data : Nat → Int) (N : Nat) :
    ((List.range w).map (fun i => ((List.range N).map
        (fun n => if w ≤ n ∧ n % w = i then data n else 0)).sum)).sum
      = ((List.range N).map (fun n => if w ≤ n then data n else 0)).sum := by
  induction N with
  | zero =>
    rw [sum_map_eq_zero]
    · rfl
    · intro i _
      rfl
  | succ N ih =>
    have e : (fun i => ((List.range (N + 1)).map
          (fun n => if w ≤ n ∧ n % w = i then data n else 0)).sum)
        = (fun i => ((List.range N).map
              (fun n => if w ≤ n ∧ n % w = i then data n else 0)).sum
            + (if i = N % w then (if w ≤ N then data N else 0) else 0)) := by
      funext i
      rw [List.range_succ, List.map_append, List.sum_append]
      simp only [List.map_cons, List.map_nil, List.sum_cons, List.sum_nil, add_zero]
      congr 1
      by_cases h1 : w ≤ N <;> by_cases h2 : i = N % w
      · rw [if_pos ⟨h1, h2.symm⟩, if_pos h2, if_pos h1]
      · rw [if_neg (fun h => h2 h.2.symm), if_neg h2]
      · rw [if_neg (fun h => h1 h.1), if_pos h2, if_neg h1]
      · rw [if_neg (fun h => h1 h.1), if_neg h2]
    rw [e, sum_map_add_fun, ih, sum_range_single, if_pos (Nat.mod_lt N hw),
      List.range_succ, List.map_append, List.sum_append]
    simp only [List.map_cons, List.map_nil, List.sum_cons, List.sum_nil, add_zero]

theorem sum_from (w : Nat) (data : Nat → Int) (m : Nat) :
    ((List.range w).map data).sum
        + ((List.range (w + m)).map (fun n => if w ≤ n then data n else 0)).sum
      = ((List.range (w + m)).map data).sum := by
  induction m with
  | zero =>
    show _ + ((List.range w).map (fun n => if w ≤ n then data n else 0)).sum
      = ((List.range w).map data).sum
    rw [sum_map_eq_zero (List.range w) (fun n => if w ≤ n then data n else 0)]
    · ring
    · intro n hn
      have := List.mem_range.mp hn
      show (if w ≤ n then data n else 0) = 0
      rw [if_neg (by omega)]
  | succ m ih =>
    show _ + ((List.range ((w + m) + 1)).map (fun n => if w ≤ n then data n else 0)).sum
      = ((List.range ((w + m) + 1)).map data).sum
    rw [List.range_succ (w + m), List.map_append, List.map_append, List.sum_append,
      List.sum_append, ← ih]
    simp only [List.map_cons, List.map_nil, List.sum_cons, List.sum_nil]
    rw [if_pos (by omega)]
    ring

/-- The strided first stage on a block of at least 512 threads leaves in the first 512
cells the sum of all the cells of the block. -/
theorem stridedStage_sum (blockSize : Nat) (hb : 512 ≤ blockSize) (data : Nat → Int) :
    comb (fun a b => a + b) (stridedStage (fun a b => a + b) blockSize data) 511
      = ((List.range blockSize).map data).sum := by
  rw [comb_add_eq_sum]
  have e : (List.range (511 + 1)).map (stridedStage (fun a b => a + b) blockSize data)
      = (List.range 512).map (fun i => data i + ((List.range blockSize).map
          (fun n => if 512 ≤ n ∧ n % 512 = i then data n else 0)).sum) := by
    apply List.map_congr_left
    intro i hi
    exact stridedStage_cell blockSize hb data i (List.mem_range.mp hi)
  rw [e, sum_map_add_fun, sum_columns 512 (by decide)]
  obtain ⟨m, rfl⟩ : ∃ m, blockSize = 512 + m := ⟨blockSize - 512, by omega⟩
  exact sum_from 512 data m

/-- With the fenced warp step and a block of fewer than 1024 threads, every cell that a
thread accesses lies below the largest power of two that is at most `blockSize`. -/
theorem fenced_indices_live (tg : Target) (harch : 700 ≤ tg.cudaArch) (blockSize k : Nat)
    (h1 : 2 ^ k ≤ blockSize) (h2 : blockSize < 2 ^ (k + 1)) (h3 : blockSize < 1024)
    (tid idx : Nat) (hidx : idx ∈ blockReduceTreeIdx tg blockSize 32 tid) : idx < 2 ^ k := by
  have hpos : 0 < 2 ^ k := Nat.pos_pow_of_pos k (by decide)
  have i1 := (pow_two_le_iff k 1 blockSize h1 h2).mp
  have i2 := (pow_two_le_iff k 2 blockSize h1 h2).mp
  have i3 := (pow_two_le_iff k 3 blockSize h1 h2).mp
  have i4 := (pow_two_le_iff k 4 blockSize h1 h2).mp
  have i5 := (pow_two_le_iff k 5 blockSize h1 h2).mp
  have i6 := (pow_two_le_iff k 6 blockSize h1 h2).mp
  have i7 := (pow_two_le_iff k 7 blockSize h1 h2).mp
  have i8 := (pow_two_le_iff k 8 blockSize h1 h2).mp
  have i9 := (pow_two_le_iff k 9 blockSize h1 h2).mp
  norm_num at i1 i2 i3 i4 i5 i6 i7 i8 i9
  clear h2
  generalize 2 ^ k = P at *
  unfold blockReduceTreeIdx at hidx
  rw [if_neg (by omega : ¬ 1024 ≤ blockSize), if_neg (by decide : ¬ 64 ≤ 32)] at hidx
  simp only [List.mem_append] at hidx
  rcases hidx with (((h | h) | h) | h) | h
  · simp at h
  · obtain ⟨h1, h2, h3⟩ := mem_guardedLineIdx _ _ _ _ _ _ h
    omega
  · obtain ⟨h1, h2, h3⟩ := mem_guardedLineIdx _ _ _ _ _ _ h
    omega
  · rcases h with h | h
    · obtain ⟨h1, h2, h3⟩ := mem_guardedLineIdx _ _ _ _ _ _ h
      omega
    · split at h
      · unfold cudaWarpReduceIdx cudaWarpReduce_ge7Idx at h
        rw [if_pos harch, if_pos harch] at h
        simp only [List.mem_append] at h
        rcases h with ((((h | h) | h) | h) | h) | h <;>
          obtain ⟨h1, h2, h3⟩ := mem_guardedLineIdx _ _ _ _ _ _ h <;> omega
      · simp at h
  · split at h
    · simp at h
      omega
    · simp at h

/-- C22: with `warpSize` 32 and the fenced warp step (`__CUDA_ARCH__ >= 700`), for every
contents of `data`: for every `blockSize < 1024`, with `2 ^ k` the largest power of two that
is at most `blockSize`, the output of `blockReduceSum` on thread 0 is the sum of the first
`2 ^ k` cells and no thread accesses a cell from `2 ^ k` on (for `blockSize` 96: the sum of
`data[0..63]`, no access to `data[64..95]`); for every `blockSize ≥ 1024`, the strided first
stage adds to each cell `i < 512` every `data[n]` with `512 ≤ n < blockSize` and
`n mod 512 = i`, and the output is the sum of all `blockSize` cells. -/
theorem tree_any_block_size (tg : Target) (harch : 700 ≤ tg.cudaArch) (blockSize k : Nat)
    (data : Nat → Int) (s0 : Int) :
    (2 ^ k ≤ blockSize → blockSize < 2 ^ (k + 1) → blockSize < 1024 →
      blockReduceSum tg blockSize 32 data s0 0 = ((List.range (2 ^ k)).map data).sum
      ∧ ∀ tid idx, tid < blockSize → idx ∈ blockReduceTreeIdx tg blockSize 32 tid →
          idx < 2 ^ k)
    ∧ (1024 ≤ blockSize →
      (∀ i, i < 512 → stridedStage (fun a b => a + b) blockSize data i
        = data i + ((List.range blockSize).map
            (fun n => if 512 ≤ n ∧ n % 512 = i then data n else 0)).sum)
      ∧ blockReduceSum tg blockSize 32 data s0 0 = ((List.range blockSize).map data).sum)
    ∧ (blockReduceSum tg 96 32 data s0 0 = ((List.range 64).map data).sum
      ∧ ∀ tid idx, tid < 96 → idx ∈ blockReduceTreeIdx tg 96 32 tid → idx < 64) := by
  have hadd_assoc : ∀ a b c : Int, a + b + c = a + (b + c) := fun a b c => add_assoc a b c
  have hadd_comm : ∀ a b : Int, a + b = b + a := fun a b => add_comm a b
  have hsmall : ∀ (bs j : Nat), 2 ^ j ≤ bs → bs < 2 ^ (j + 1) → bs < 1024 →
      blockReduceSum tg bs 32 data s0 0 = ((List.range (2 ^ j)).map data).sum
      ∧ ∀ tid idx, tid < bs → idx ∈ blockReduceTreeIdx tg bs 32 tid → idx < 2 ^ j := by
    intro bs j h1 h2 h3
    refine ⟨?_, fun tid idx _ hidx => fenced_indices_live tg harch bs j h1 h2 h3 tid idx hidx⟩
    have hpos : 0 < 2 ^ j := Nat.pos_pow_of_pos j (by decide)
    have hj : 2 ^ j ≤ 2 ^ 9 := pow_two_le_of_lt j 9 (by norm_num; omega)
    have h := fenced_tree_total (fun a b : Int => a + b) hadd_assoc hadd_comm tg harch bs 32 j
      (by decide) (fun i _ => pow_two_le_iff j (i + 1) bs h1 h2) data
    rw [if_neg (by omega : ¬ 1024 ≤ bs), Nat.min_eq_left (by norm_num at hj; omega),
      comb_add_eq_sum, show 2 ^ j - 1 + 1 = 2 ^ j from by omega] at h
    exact h
  refine ⟨hsmall blockSize k, ?_, ?_⟩
  · intro hb
    refine ⟨fun i hi => stridedStage_cell blockSize (by omega) data i hi, ?_⟩
    have hiff : ∀ j, j ≤ 8 → (2 ^ (j + 1) ≤ blockSize ↔ 2 ^ (j + 1) ≤ 2 ^ 10) := by
      intro j hj
      have hle : 2 ^ (j + 1) ≤ 2 ^ 10 := Nat.pow_le_pow_right (by decide) (by omega)
      constructor
      · intro _
        exact hle
      · intro _
        norm_num at hle
        omega
    have h := fenced_tree_total (fun a b : Int => a + b) hadd_assoc hadd_comm tg harch
      blockSize 32 10 (by decide) hiff data
    rw [if_pos hb, show min (2 ^ 10) 512 - 1 = 511 from by norm_num,
      stridedStage_sum blockSize (by omega)] at h
    exact h
  · have h := hsmall 96 6 (by norm_num) (by norm_num) (by norm_num)
    rw [show (2 : Nat) ^ 6 = 64 from by norm_num] at h
    exact h

/-- C22 for `__CUDA_ARCH__` 700 and the cells `i + 1`: `blockSize` 96 (largest power of two
64) and `blockSize` 1500. -/
theorem tree_any_block_size_witness :
    700 ≤ (⟨700, false⟩ : Target).cudaArch
    ∧ (2 ^ 6 ≤ 96 ∧ 96 < 2 ^ (6 + 1) ∧ 96 < 1024)
    ∧ (blockReduceSum ⟨700, false⟩ 96 32 (fun i => (i : Int) + 1) 0 0
          = ((List.range (2 ^ 6)).map (fun i : Nat => (i : Int) + 1)).sum
      ∧ ∀ tid idx, tid < 96 → idx ∈ blockReduceTreeIdx ⟨700, false⟩ 96 32 tid → idx < 2 ^ 6)
    ∧ 1024 ≤ 1500
    ∧ ((∀ i, i < 512 → stridedStage (fun a b => a + b) 1500 (fun i => (i : Int) + 1) i
          = (fun i : Nat => (i : Int) + 1) i + ((List.range 1500).map
              (fun n => if 512 ≤ n ∧ n % 512 = i then (fun i : Nat => (i : Int) + 1) n
                else 0)).sum)
      ∧ blockReduceSum ⟨700, false⟩ 1500 32 (fun i => (i : Int) + 1) 0 0
          = ((List.range 1500).map (fun i : Nat => (i : Int) + 1)).sum) :=
  ⟨by decide, ⟨by decide, by decide, by decide⟩,
    (tree_any_block_size ⟨700, false⟩ (by decide) 96 6 (fun i => (i : Int) + 1) 0).1
      (by decide) (by decide) (by decide),
    by decide,
    (tree_any_block_size ⟨700, false⟩ (by decide) 1500 10 (fun i => (i : Int) + 1) 0).2.1
      (by decide)⟩

/-! ## Manual tree reduction: logical operators -/

theorem LogicalAnd_bit (a b : Int) : LogicalAnd a b = 0 ∨ LogicalAnd a b = 1 := by
  unfold LogicalAnd
  by_cases h : a ≠ 0 ∧ b ≠ 0
  · exact Or.inr (if_pos h)
  · exact Or.inl (if_neg h)

theorem LogicalOr_bit (a b : Int) : LogicalOr a b = 0 ∨ LogicalOr a b = 1 := by
  unfold LogicalOr
  by_cases h : a ≠ 0 ∨ b ≠ 0
  · exact Or.inr (if_pos h)
  · exact Or.inl (if_neg h)

/-- A block of one thread runs no line of the tree: `data` is left as it was. -/
theorem blockReduceTree_one {T : Type} (op : T → T → T) (tg : Target) (warpSize : Nat)
    (data : Nat → T) : blockReduceTree op tg 1 warpSize data = data := by
  have hn : ∀ (c t g o : Nat) (d : Nat → T), 2 ≤ t → guardedLine op 1 c t g o d = d := by
    intro c t g o d ht
    unfold guardedLine
    rw [if_neg (by omega)]
  have hl : ∀ (c t o : Nat) (d : Nat → T), 2 ≤ t → lockstepLine op 1 c t o d = d := by
    intro c t o d ht
    unfold lockstepLine
    rw [if_neg (by omega)]
  unfold blockReduceTree amdWarpReduce cudaWarpReduce cudaWarpReduce_ge7 cudaWarpReduce_lt7
  simp only [hn _ _ _ _ _ (by decide : 2 ≤ 512), hn _ _ _ _ _ (by decide : 2 ≤ 256),
    hn _ _ _ _ _ (by decide : 2 ≤ 128), hn _ _ _ _ _ (by decide : 2 ≤ 64),
    hn _ _ _ _ _ (by decide : 2 ≤ 32), hn _ _ _ _ _ (by decide : 2 ≤ 16),
    hn _ _ _ _ _ (by decide : 2 ≤ 8), hn _ _ _ _ _ (by decide : 2 ≤ 4),
    hn _ _ _ _ _ (le_refl 2), hl _ _ _ _ (by decide : 2 ≤ 128), hl _ _ _ _ (by decide : 2 ≤ 64),
    hl _ _ _ _ (by decide : 2 ≤ 32), hl _ _ _ _ (by decide : 2 ≤ 16),
    hl _ _ _ _ (by decide : 2 ≤ 8), hl _ _ _ _ (by decide : 2 ≤ 4), hl _ _ _ _ (le_refl 2),
    if_neg (by decide : ¬ 1024 ≤ 1), ite_self]

/-- C23: for `warpSize` 32 (lockstep or fenced warp step) and for `warpSize` 64 compiled for
HIP, every power-of-two `blockSize = 2 ^ (k + 1) ≥ 2` and every contents of the `int` array
`data`: on thread 0, `blockReduceAnd` outputs 1 if every one of the `blockSize` cells is
non-zero and 0 otherwise, and `blockReduceOr` outputs 1 if some cell is non-zero and 0
otherwise.  For `blockSize = 1` no line of the tree runs: `data` is left as it was, thread 0
accesses the cell 0 only, and the output is `data[0]` itself, for instance 5 when
`data[0] = 5`. -/
theorem tree_logical_operators (k : Nat) (tg : Target) (warpSize : Nat)
    (hcfg : warpSize = 32 ∨ (warpSize = 64 ∧ tg.hipDeviceCompile = true))
    (data : Nat → Int) (r0 : Int) :
    blockReduceAnd tg (2 ^ (k + 1)) warpSize data r0 0
        = (if ∀ i, i < 2 ^ (k + 1) → data i ≠ 0 then 1 else 0)
    ∧ blockReduceOr tg (2 ^ (k + 1)) warpSize data r0 0
        = (if ∃ i, i < 2 ^ (k + 1) ∧ data i ≠ 0 then 1 else 0)
    ∧ (blockReduceTree andInt tg 1 warpSize data = data
      ∧ blockReduceTree orInt tg 1 warpSize data = data
      ∧ blockReduceTreeIdx tg 1 warpSize 0 = [0]
      ∧ blockReduceAnd tg 1 warpSize data r0 0 = data 0
      ∧ blockReduceOr tg 1 warpSize data r0 0 = data 0
      ∧ blockReduceAnd tg 1 warpSize (fun _ => 5) r0 0 = 5
      ∧ blockReduceOr tg 1 warpSize (fun _ => 5) r0 0 = 5) := by
  have hc : warpSize < 64 ∨ tg.hipDeviceCompile = true := by
    rcases hcfg with h | ⟨_, h⟩
    · exact Or.inl (by omega)
    · exact Or.inr h
  have hpos : 2 ≤ 2 ^ (k + 1) := by
    have := Nat.pos_pow_of_pos k (by decide : 0 < 2)
    rw [pow_succ]
    omega
  obtain ⟨n, hn⟩ : ∃ n, 2 ^ (k + 1) - 1 = n + 1 := ⟨2 ^ (k + 1) - 2, by omega⟩
  have hle : ∀ i, i < 2 ^ (k + 1) ↔ i ≤ 2 ^ (k + 1) - 1 := by
    intro i
    omega
  have hand : blockReduceAnd tg (2 ^ (k + 1)) warpSize data r0 0
      = comb LogicalAnd data (2 ^ (k + 1) - 1) :=
    blockReduceTree_total LogicalAnd LogicalAnd_assoc LogicalAnd_comm tg (k + 1) warpSize hc data
  have hor : blockReduceOr tg (2 ^ (k + 1)) warpSize data r0 0
      = comb LogicalOr data (2 ^ (k + 1) - 1) :=
    blockReduceTree_total LogicalOr LogicalOr_assoc LogicalOr_comm tg (k + 1) warpSize hc data
  have hone : ∀ (op : Int → Int → Int) (d : Nat → Int), blockReduceTree op tg 1 warpSize d 0 = d 0 :=
    fun op d => congrFun (blockReduceTree_one op tg warpSize d) 0
  refine ⟨?_, ?_, blockReduceTree_one _ _ _ _, blockReduceTree_one _ _ _ _, ?_,
    hone _ _, hone _ _, hone _ _, hone _ _⟩
  · rw [hand]
    have hiff := comb_LogicalAnd_ne_zero data (2 ^ (k + 1) - 1)
    have hbit : comb LogicalAnd data (2 ^ (k + 1) - 1) = 0
        ∨ comb LogicalAnd data (2 ^ (k + 1) - 1) = 1 := by
      rw [hn]
      exact LogicalAnd_bit _ _
    by_cases hall : ∀ i, i < 2 ^ (k + 1) → data i ≠ 0
    · rw [if_pos hall]
      have hne := hiff.mpr (fun i hi => hall i ((hle i).mpr hi))
      rcases hbit with h | h
      · exact absurd h hne
      · exact h
    · rw [if_neg hall]
      by_contra hne
      exact hall (fun i hi => hiff.mp hne i ((hle i).mp hi))
  · rw [hor]
    have hiff := comb_LogicalOr_ne_zero data (2 ^ (k + 1) - 1)
    have hbit : comb LogicalOr data (2 ^ (k + 1) - 1) = 0
        ∨ comb LogicalOr data (2 ^ (k + 1) - 1) = 1 := by
      rw [hn]
      exact LogicalOr_bit _ _
    by_cases hex : ∃ i, i < 2 ^ (k + 1) ∧ data i ≠ 0
    · rw [if_pos hex]
      obtain ⟨i, hi, hd⟩ := hex
      have hne := hiff.mpr ⟨i, (hle i).mp hi, hd⟩
      rcases hbit with h | h
      · exact absurd h hne
      · exact h
    · rw [if_neg hex]
      by_contra hne
      obtain ⟨i, hi, hd⟩ := hiff.mp hne
      exact hex ⟨i, (hle i).mpr hi, hd⟩
  · unfold blockReduceTreeIdx amdWarpReduceIdx cudaWarpReduceIdx cudaWarpReduce_ge7Idx
      cudaWarpReduce_lt7Idx guardedLineIdx lockstepLineIdx
    simp

/-- C23 for `blockSize` 4, `warpSize` 32 and the fenced warp step, on the cells 3, -1, 7, 2. -/
theorem tree_logical_operators_witness :
    ((32 : Nat) = 32 ∨ ((32 : Nat) = 64 ∧ (⟨700, false⟩ : Target).hipDeviceCompile = true))
    ∧ (blockReduceAnd ⟨700, false⟩ (2 ^ (1 + 1)) 32
          (fun i => if i = 0 then 3 else if i = 1 then -1 else if i = 2 then 7 else 2) 0 0
        = (if ∀ i, i < 2 ^ (1 + 1) →
            (fun i => if i = 0 then 3 else if i = 1 then -1 else if i = 2 then 7 else 2 : Nat → Int) i ≠ 0
          then 1 else 0)
      ∧ blockReduceOr ⟨700, false⟩ (2 ^ (1 + 1)) 32
          (fun i => if i = 0 then 3 else if i = 1 then -1 else if i = 2 then 7 else 2) 0 0
        = (if ∃ i, i < 2 ^ (1 + 1) ∧
            (fun i => if i = 0 then 3 else if i = 1 then -1 else if i = 2 then 7 else 2 : Nat → Int) i ≠ 0
          then 1 else 0)
      ∧ (blockReduceTree andInt ⟨700, false⟩ 1 32
            (fun i => if i = 0 then 3 else if i = 1 then -1 else if i = 2 then 7 else 2)
          = (fun i => if i = 0 then 3 else if i = 1 then -1 else if i = 2 then 7 else 2)
        ∧ blockReduceTree orInt ⟨700, false⟩ 1 32
            (fun i => if i = 0 then 3 else if i = 1 then -1 else if i = 2 then 7 else 2)
          = (fun i => if i = 0 then 3 else if i = 1 then -1 else if i = 2 then 7 else 2)
        ∧ blockReduceTreeIdx ⟨700, false⟩ 1 32 0 = [0]
        ∧ blockReduceAnd ⟨700, false⟩ 1 32
            (fun i => if i = 0 then 3 else if i = 1 then -1 else if i = 2 then 7 else 2) 0 0
          = (fun i => if i = 0 then 3 else if i = 1 then -1 else if i = 2 then 7 else 2 : Nat → Int) 0
        ∧ blockReduceOr ⟨700, false⟩ 1 32
            (fun i => if i = 0 then 3 else if i = 1 then -1 else if i = 2 then 7 else 2) 0 0
          = (fun i => if i = 0 then 3 else if i = 1 then -1 else if i = 2 then 7 else 2 : Nat → Int) 0
        ∧ blockReduceAnd ⟨700, false⟩ 1 32 (fun _ => 5) 0 0 = 5
        ∧ blockReduceOr ⟨700, false⟩ 1 32 (fun _ => 5) 0 0 = 5)) :=
  ⟨Or.inl rfl,
    tree_logical_operators 1 ⟨700, false⟩ 32 (Or.inl rfl)
      (fun i => if i = 0 then 3 else if i = 1 then -1 else if i = 2 then 7 else 2) 0⟩

/-! ## CPU fallback: algebra of the updates -/

theorem foldl_bit (F : Int → Int → Int) (hF : ∀ a b, F a b = 0 ∨ F a b = 1) (l : List Int)
    (d s : Int) : (s :: l).foldl F d = 0 ∨ (s :: l).foldl F d = 1 := by
  rw [List.foldl_cons]
  have h := hF d s
  generalize F d s = e at h
  induction l generalizing e with
  | nil => exact h
  | cons a l ih => exact ih (F e a) (hF e a)

/-- C24: for every initial destination and every list of sources, the destination left by
the CPU-path `deviceReduceSum` (over integers), `deviceReduceMin`, `deviceReduceMax`,
`deviceReduceLogicalAnd` and `deviceReduceLogicalOr`, called once per source, is the same for
every permutation of the list; a second call of Min, Max, And or Or with the same source
leaves the destination of the first call; and the destination after a call of
`deviceReduceLogicalAnd` or `deviceReduceLogicalOr`, alone or followed by further calls of
the same function, is 0 or 1 for all `int` values of the destination and the sources. -/
theorem cpu_fallback_algebra {T : Type} [LinearOrder T] (h : Handler) (d s : Int) (dm sm : T)
    (l l2 : List Int) (lm lm2 : List T) (hl : l.Perm l2) (hlm : lm.Perm lm2) :
    (l.foldl (fun d s => Host.deviceReduceSum d s h) d
        = l2.foldl (fun d s => Host.deviceReduceSum d s h) d
      ∧ lm.foldl (fun d s => Host.deviceReduceMin d s h) dm
        = lm2.foldl (fun d s => Host.deviceReduceMin d s h) dm
      ∧ lm.foldl (fun d s => Host.deviceReduceMax d s h) dm
        = lm2.foldl (fun d s => Host.deviceReduceMax d s h) dm
      ∧ l.foldl (fun d s => Host.deviceReduceLogicalAnd d s h) d
        = l2.foldl (fun d s => Host.deviceReduceLogicalAnd d s h) d
      ∧ l.foldl (fun d s => Host.deviceReduceLogicalOr d s h) d
        = l2.foldl (fun d s => Host.deviceReduceLogicalOr d s h) d)
    ∧ (Host.deviceReduceMin (Host.deviceReduceMin dm sm h) sm h = Host.deviceReduceMin dm sm h
      ∧ Host.deviceReduceMax (Host.deviceReduceMax dm sm h) sm h = Host.deviceReduceMax dm sm h
      ∧ Host.deviceReduceLogicalAnd (Host.deviceReduceLogicalAnd d s h) s h
          = Host.deviceReduceLogicalAnd d s h
      ∧ Host.deviceReduceLogicalOr (Host.deviceReduceLogicalOr d s h) s h
          = Host.deviceReduceLogicalOr d s h)
    ∧ ((Host.deviceReduceLogicalAnd d s h = 0 ∨ Host.deviceReduceLogicalAnd d s h = 1)
      ∧ (Host.deviceReduceLogicalOr d s h = 0 ∨ Host.deviceReduceLogicalOr d s h = 1)
      ∧ ((s :: l).foldl (fun d s => Host.deviceReduceLogicalAnd d s h) d = 0
        ∨ (s :: l).foldl (fun d s => Host.deviceReduceLogicalAnd d s h) d = 1)
      ∧ ((s :: l).foldl (fun d s => Host.deviceReduceLogicalOr d s h) d = 0
        ∨ (s :: l).foldl (fun d s => Host.deviceReduceLogicalOr d s h) d = 1)) := by
  have hperm : ∀ (U : Type) (F : U → U → U) (_ : ∀ a b c, F (F a b) c = F a (F b c))
      (_ : ∀ a b, F a b = F b a) (a b : List U) (_ : a.Perm b) (e : U),
      a.foldl F e = b.foldl F e := by
    intro U F hassoc hcomm a b hab e
    exact hab.foldl_eq' (fun x _ y _ z => right_comm_of_assoc_comm F hassoc hcomm z x y) e
  have hminE : ∀ a b : T, Host.deviceReduceMin a b h = min a b := fun a b =>
    (congrFun (congrFun (Host_Min_eq h) a) b).trans (Less_eq_min a b)
  have hmaxE : ∀ a b : T, Host.deviceReduceMax a b h = max a b := fun a b =>
    (congrFun (congrFun (Host_Max_eq h) a) b).trans (Greater_eq_max a b)
  refine ⟨⟨?_, ?_, ?_, ?_, ?_⟩, ⟨?_, ?_, ?_, ?_⟩, ?_, ?_, ?_, ?_⟩
  · rw [Host_Sum_eq]
    exact hperm Int Plus Plus_assoc Plus_comm l l2 hl d
  · rw [Host_Min_eq]
    exact hperm T Less Less_assoc Less_comm lm lm2 hlm dm
  · rw [Host_Max_eq]
    exact hperm T Greater Greater_assoc Greater_comm lm lm2 hlm dm
  · rw [Host_And_eq]
    exact hperm Int LogicalAnd LogicalAnd_assoc LogicalAnd_comm l l2 hl d
  · rw [Host_Or_eq]
    exact hperm Int LogicalOr LogicalOr_assoc LogicalOr_comm l l2 hl d
  · rw [hminE, hminE, min_assoc, min_self]
  · rw [hmaxE, hmaxE, max_assoc, max_self]
  · show LogicalAnd (LogicalAnd d s) s = LogicalAnd d s
    unfold LogicalAnd
    by_cases hd : d = 0 <;> by_cases hs : s = 0 <;> simp [hd, hs]
  · show LogicalOr (LogicalOr d s) s = LogicalOr d s
    unfold LogicalOr
    by_cases hd : d = 0 <;> by_cases hs : s = 0 <;> simp [hd, hs]
  · exact LogicalAnd_bit d s
  · exact LogicalOr_bit d s
  · rw [Host_And_eq]
    exact foldl_bit LogicalAnd LogicalAnd_bit l d s
  · rw [Host_Or_eq]
    exact foldl_bit LogicalOr LogicalOr_bit l d s

/-- C24 for the sources 5, 0, -3, 7 and their reversal, from the destinations 2 (integers)
and 3 (in `Fin 8`, sources 6, 1, 4). -/
theorem cpu_fallback_algebra_witness :
    ([5, 0, -3, 7] : List Int).Perm [7, -3, 0, 5]
    ∧ ([6, 1, 4] : List (Fin 8)).Perm [4, 1, 6]
    ∧ ((([5, 0, -3, 7] : List Int).foldl (fun d s => Host.deviceReduceSum d s ⟨4⟩) 2
          = ([7, -3, 0, 5] : List Int).foldl (fun d s => Host.deviceReduceSum d s ⟨4⟩) 2
        ∧ ([6, 1, 4] : List (Fin 8)).foldl (fun d s => Host.deviceReduceMin d s ⟨4⟩) 3
          = ([4, 1, 6] : List (Fin 8)).foldl (fun d s => Host.deviceReduceMin d s ⟨4⟩) 3
        ∧ ([6, 1, 4] : List (Fin 8)).foldl (fun d s => Host.deviceReduceMax d s ⟨4⟩) 3
          = ([4, 1, 6] : List (Fin 8)).foldl (fun d s => Host.deviceReduceMax d s ⟨4⟩) 3
        ∧ ([5, 0, -3, 7] : List Int).foldl (fun d s => Host.deviceReduceLogicalAnd d s ⟨4⟩) 2
          = ([7, -3, 0, 5] : List Int).foldl (fun d s => Host.deviceReduceLogicalAnd d s ⟨4⟩) 2
        ∧ ([5, 0, -3, 7] : List Int).foldl (fun d s => Host.deviceReduceLogicalOr d s ⟨4⟩) 2
          = ([7, -3, 0, 5] : List Int).foldl (fun d s => Host.deviceReduceLogicalOr d s ⟨4⟩) 2)
      ∧ (Host.deviceReduceMin (Host.deviceReduceMin (3 : Fin 8) 5 ⟨4⟩) 5 ⟨4⟩
            = Host.deviceReduceMin (3 : Fin 8) 5 ⟨4⟩
        ∧ Host.deviceReduceMax (Host.deviceReduceMax (3 : Fin 8) 5 ⟨4⟩) 5 ⟨4⟩
            = Host.deviceReduceMax (3 : Fin 8) 5 ⟨4⟩
        ∧ Host.deviceReduceLogicalAnd (Host.deviceReduceLogicalAnd 2 9 ⟨4⟩) 9 ⟨4⟩
            = Host.deviceReduceLogicalAnd 2 9 ⟨4⟩
        ∧ Host.deviceReduceLogicalOr (Host.deviceReduceLogicalOr 2 9 ⟨4⟩) 9 ⟨4⟩
            = Host.deviceReduceLogicalOr 2 9 ⟨4⟩)
      ∧ ((Host.deviceReduceLogicalAnd 2 9 ⟨4⟩ = 0 ∨ Host.deviceReduceLogicalAnd 2 9 ⟨4⟩ = 1)
        ∧ (Host.deviceReduceLogicalOr 2 9 ⟨4⟩ = 0 ∨ Host.deviceReduceLogicalOr 2 9 ⟨4⟩ = 1)
        ∧ ((9 :: ([5, 0, -3, 7] : List Int)).foldl
              (fun d s => Host.deviceReduceLogicalAnd d s ⟨4⟩) 2 = 0
          ∨ (9 :: ([5, 0, -3, 7] : List Int)).foldl
              (fun d s => Host.deviceReduceLogicalAnd d s ⟨4⟩) 2 = 1)
        ∧ ((9 :: ([5, 0, -3, 7] : List Int)).foldl
              (fun d s => Host.deviceReduceLogicalOr d s ⟨4⟩) 2 = 0
          ∨ (9 :: ([5, 0, -3, 7] : List Int)).foldl
              (fun d s => Host.deviceReduceLogicalOr d s ⟨4⟩) 2 = 1))) :=
  ⟨by decide, by decide,
    cpu_fallback_algebra ⟨4⟩ 2 9 (3 : Fin 8) 5 [5, 0, -3, 7] [7, -3, 0, 5] [6, 1, 4] [4, 1, 6]
      (by decide) (by decide)⟩

/-! ## SYCL path and CUDA/HIP path -/

theorem div_mul_add_lane (W t l : Nat) (hl : l < W) :
    (t / W * W + l) / W = t / W ∧ (t / W * W + l) % W = l := by
  have hW : 0 < W := by omega
  constructor
  · rw [Nat.add_comm, Nat.add_mul_div_right _ _ hW, Nat.div_eq_of_lt hl, Nat.zero_add]
  · rw [Nat.add_comm, Nat.add_mul_mod_self_right, Nat.mod_eq_of_lt hl]

/-- The lanes of a sub-group, when the sub-groups are the runs of `W` consecutive
work-items. -/
theorem laneValue_eq {T : Type} (W : Nat) (hW : 0 < W) (sg : Sycl.SubGroups)
    (hgid : ∀ t, sg.groupId t = t / W) (hlid : ∀ t, sg.localId t = t % W) (x : Nat → T)
    (tid l D : Nat) :
    Sycl.laneValue sg D x tid l
      = if l < W ∧ tid / W * W + l < D then x (tid / W * W + l) else x tid := by
  unfold Sycl.laneValue
  induction D with
  | zero => simp
  | succ D ih =>
    rw [List.range_succ, List.foldl_append, ih]
    simp only [List.foldl_cons, List.foldl_nil, hgid, hlid]
    by_cases hc : D / W = tid / W ∧ D % W = l
    · obtain ⟨h1, h2⟩ := hc
      have hl : l < W := by rw [← h2]; exact Nat.mod_lt D hW
      have hD : tid / W * W + l = D := by
        rw [← h1, ← h2]
        exact Nat.div_add_mod' D W
      rw [if_pos ⟨h1, h2⟩, if_pos ⟨hl, by omega⟩, hD]
    · rw [if_neg hc]
      by_cases hl : l < W
      · have hne : tid / W * W + l ≠ D := by
          intro he
          apply hc
          have := div_mul_add_lane W tid l hl
          rw [he] at this
          exact this
        by_cases hlt : tid / W * W + l < D
        · rw [if_pos ⟨hl, hlt⟩, if_pos ⟨hl, by omega⟩]
        · rw [if_neg (fun h => hlt h.2), if_neg (fun h => hlt (by have := h.2; omega))]
      · rw [if_neg (fun h => hl h.1), if_neg (fun h => hl h.1)]

theorem warp_lanes_exist (W D t l : Nat) (hdvd : W ∣ D) (ht : t < D) (hl : l < W) :
    t / W * W + l < D := by
  obtain ⟨m, rfl⟩ := hdvd
  have hW : 0 < W := by omega
  have h1 : t / W < m := (Nat.div_lt_iff_lt_mul hW).mpr (by rw [Nat.mul_comm]; exact ht)
  calc t / W * W + l < t / W * W + W := by omega
    _ = (t / W + 1) * W := by ring
    _ ≤ m * W := Nat.mul_le_mul_right W h1
    _ = W * m := Nat.mul_comm m W

/-- The SYCL shuffle in a work-group made of whole runs of `W` work-items. -/
theorem shuffle_down_eq {T : Type} (W D : Nat) (hdvd : W ∣ D) (sg : Sycl.SubGroups)
    (hgid : ∀ t, sg.groupId t = t / W) (hlid : ∀ t, sg.localId t = t % W) (x : Nat → T)
    (offset t : Nat) (ht : t < D) :
    Sycl.shuffle_down sg D x offset t = if t % W + offset < W then x (t + offset) else x t := by
  have hW : 0 < W := by
    rcases Nat.eq_zero_or_pos W with h | h
    · subst h
      have := Nat.eq_zero_of_zero_dvd hdvd
      omega
    · exact h
  unfold Sycl.shuffle_down
  rw [laneValue_eq W hW sg hgid hlid, hlid]
  have e : t / W * W + (t % W + offset) = t + offset := by
    have := Nat.div_add_mod' t W
    omega
  by_cases h : t % W + offset < W
  · rw [if_pos ⟨h, warp_lanes_exist W D t _ hdvd ht h⟩, if_pos h, e]
  · rw [if_neg (fun h2 => h h2.1), if_neg h]

theorem warpReduceLoop_congr_lanes {T : Type} (W : Nat) (F : T → T → T) :
    ∀ (fuel offset : Nat) (x y : Nat → T), (∀ l, l < W → x l = y l) →
      ∀ l, l < W → warpReduceLoop W F fuel offset x l = warpReduceLoop W F fuel offset y l := by
  intro fuel
  induction fuel with
  | zero => intro offset x y h l hl; exact h l hl
  | succ f ih =>
    intro offset x y h l hl
    simp only [warpReduceLoop]
    by_cases ho : 0 < offset
    · rw [if_pos ho, if_pos ho]
      apply ih _ _ _ _ _ hl
      intro l2 hl2
      unfold shfl_down
      by_cases h2 : l2 + offset < W
      · rw [if_pos h2, if_pos h2, h l2 hl2, h _ h2]
      · rw [if_neg h2, if_neg h2, h l2 hl2]
    · rw [if_neg ho, if_neg ho]
      exact h l hl

/-- The SYCL `warpReduce` returns to every work-item what the CUDA/HIP `warpReduce` returns
to the thread of the same index. -/
theorem sycl_warpReduceLoop_eq {T : Type} (W D : Nat) (hdvd : W ∣ D) (sg : Sycl.SubGroups)
    (hgid : ∀ t, sg.groupId t = t / W) (hlid : ∀ t, sg.localId t = t % W) (F : T → T → T) :
    ∀ (fuel offset : Nat) (x : Nat → T) (t : Nat), t < D →
      Sycl.warpReduceLoop sg D F fuel offset x t
        = warpReduceLoop W F fuel offset (warpLanes W x t) (t % W) := by
  have hlane : ∀ (x : Nat → T) (t : Nat), warpLanes W x t (t % W) = x t := by
    intro x t
    unfold warpLanes
    rw [Nat.div_add_mod' t W]
  intro fuel
  induction fuel with
  | zero =>
    intro offset x t _
    exact (hlane x t).symm
  | succ f ih =>
    intro offset x t ht
    have hW : 0 < W := by
      rcases Nat.eq_zero_or_pos W with h | h
      · subst h
        have := Nat.eq_zero_of_zero_dvd hdvd
        omega
      · exact h
    simp only [Sycl.warpReduceLoop, warpReduceLoop]
    by_cases ho : 0 < offset
    · rw [if_pos ho, if_pos ho, ih _ _ t ht]
      apply warpReduceLoop_congr_lanes W F _ _ _ _ _ _ (Nat.mod_lt t hW)
      intro l hl
      have hex := warp_lanes_exist W D t l hdvd ht hl
      obtain ⟨hd, hm⟩ := div_mul_add_lane W t l hl
      show F (x (t / W * W + l)) (Sycl.shuffle_down sg D x offset (t / W * W + l))
        = F (x (t / W * W + l))
            (if l + offset < W then x (t / W * W + (l + offset)) else x (t / W * W + l))
      rw [shuffle_down_eq W D hdvd sg hgid hlid x offset _ hex, hm]
      by_cases h2 : l + offset < W
      · rw [if_pos h2, if_pos h2, Nat.add_assoc]
      · rw [if_neg h2, if_neg h2]
    · rw [if_neg ho, if_neg ho]
      exact (hlane x t).symm

theorem sycl_writeShared_eq {T : Type} (W D : Nat) (sg : Sycl.SubGroups)
    (hgid : ∀ t, sg.groupId t = t / W) (hlid : ∀ t, sg.localId t = t % W)
    (x y sh : Nat → T) (hxy : ∀ t, t < D → x t = y t) :
    Sycl.writeShared sg D x sh = writeShared W D y sh := by
  unfold Sycl.writeShared writeShared
  apply List.foldl_ext
  intro a t ht
  rw [hgid, hlid, hxy t (List.mem_range.mp ht)]

/-- C25: let the sub-group of the work-item with local id `t` have group id `t / W` and lane
id `t mod W`.  When the block size `D` is a multiple of `W` and the group range is `D / W`,
the SYCL `blockReduce` returns on every work-item `tid < D`, and the SYCL
`blockReduce_partial` applies to the destination from it, the value of the CUDA/HIP
function for the same values, pad, staging array, operator and number of active threads.
When `D ≥ W` is not a multiple of `W` (with at most `W` sub-groups) the group range is
`D / W + 1`: work-item `D / W` re-reads the value staged by the last sub-group where the
CUDA/HIP thread takes the pad, since `blockDim.x / warpSize = D / W` slots are re-read there;
for `W = 2`, `D = 3`, the values 1, 2, 3 and the sum, work-item 0 returns 9 and CUDA/HIP
thread 0 returns 3. -/
theorem sycl_matches_cuda {T : Type} (W D : Nat) (sg : Sycl.SubGroups)
    (hgid : ∀ t, sg.groupId t = t / W) (hlid : ∀ t, sg.localId t = t % W) (F : T → T → T)
    (x x0 shared0 : Nat → T) (handler : Handler) (tid : Nat) (htid : tid < D) :
    (W ∣ D → sg.groupRange = D / W →
      Sycl.blockReduce sg D (Sycl.warpReduce W F sg D) x x0 shared0 tid
          = blockReduce W D (warpReduce W F) x x0 shared0 tid
      ∧ Sycl.blockReduce_partial W sg (Sycl.warpReduce W F sg D) x handler tid
          = blockReduce_partial W (warpReduce W F) x handler tid)
    ∧ (¬ W ∣ D → W ≤ D → D / W < W → sg.groupRange = D / W + 1 →
      Sycl.blockReduceReread sg D (Sycl.warpReduce W F sg D) x x0 shared0 (D / W)
          = Sycl.warpReduce W F sg D x (D / W * W)
      ∧ blockReduceReread W D (warpReduce W F) x x0 shared0 (D / W) = x0 (D / W))
    ∧ (Sycl.blockReduce ⟨fun t => t / 2, fun t => t % 2, 2⟩ 3
          (Sycl.warpReduce 2 Plus ⟨fun t => t / 2, fun t => t % 2, 2⟩ 3)
          (fun i => (i : Int) + 1) (fun _ => 0) (fun _ => 0) 0 = 9
      ∧ blockReduce 2 3 (warpReduce 2 Plus) (fun i => (i : Int) + 1) (fun _ => 0)
          (fun _ => 0) 0 = 3) := by
  refine ⟨?_, ?_, by decide, by decide⟩
  · intro hdvd hrange
    have hrel : ∀ (y : Nat → T) (t : Nat), t < D →
        Sycl.warpReduce W F sg D y t = warpReduce W F (warpLanes W y t) (t % W) :=
      fun y t ht => sycl_warpReduceLoop_eq W D hdvd sg hgid hlid F W (W / 2) y t ht
    have hre : Sycl.blockReduceReread sg D (Sycl.warpReduce W F sg D) x x0 shared0
        = blockReduceReread W D (warpReduce W F) x x0 shared0 := by
      funext t
      unfold Sycl.blockReduceReread blockReduceReread
      simp only []
      rw [sycl_writeShared_eq W D sg hgid hlid _
          (fun t => warpReduce W F (warpLanes W x t) (t % W)) shared0 (hrel x),
        hrange, hlid]
    constructor
    · unfold Sycl.blockReduce blockReduce
      simp only []
      rw [hre, hgid, hrel _ tid htid]
    · unfold Sycl.blockReduce_partial blockReduce_partial
      simp only []
      rw [hgid, hlid, hrel x tid htid]
  · intro hndvd hWD hDW hrange
    have hW : 0 < W := by
      rcases Nat.eq_zero_or_pos W with h | h
      · subst h
        omega
      · exact h
    have hq : 0 < D / W := Nat.div_pos hWD hW
    have hlt : D / W * W < D := by
      have h1 : D / W * W ≤ D := Nat.div_mul_le_self D W
      rcases Nat.lt_or_ge (D / W * W) D with h | h
      · exact h
      · exact absurd (Dvd.intro_left (D / W) (Nat.le_antisymm h1 h)) hndvd
    constructor
    · unfold Sycl.blockReduceReread
      simp only []
      rw [sycl_writeShared_eq W D sg hgid hlid _ (Sycl.warpReduce W F sg D x) shared0
          (fun _ _ => rfl), hrange, hlid, Nat.mod_eq_of_lt hDW,
        writeShared_apply W D hW, if_pos hlt]
      simp
    · unfold blockReduceReread
      simp only []
      have hb : (decide (D / W = 0) || decide (D / W < D / W)) = false := by
        simp
        omega
      rw [hb]
      rfl

/-- C25 for `W = 2`: the work-group of 4 work-items with the values 1 .. 4 and the sum
(work-item 0), then the work-group of 3 work-items in 2 sub-groups. -/
theorem sycl_matches_cuda_witness :
    (∀ t, (⟨fun t => t / 2, fun t => t % 2, 2⟩ : Sycl.SubGroups).groupId t = t / 2)
    ∧ (∀ t, (⟨fun t => t / 2, fun t => t % 2, 2⟩ : Sycl.SubGroups).localId t = t % 2)
    ∧ 0 < 4 ∧ 2 ∣ 4 ∧ (⟨fun t => t / 2, fun t => t % 2, 2⟩ : Sycl.SubGroups).groupRange = 4 / 2
    ∧ (Sycl.blockReduce ⟨fun t => t / 2, fun t => t % 2, 2⟩ 4
          (Sycl.warpReduce 2 Plus ⟨fun t => t / 2, fun t => t % 2, 2⟩ 4)
          (fun i => (i : Int) + 1) (fun _ => 0) (fun _ => 0) 0
        = blockReduce 2 4 (warpReduce 2 Plus) (fun i => (i : Int) + 1) (fun _ => 0)
            (fun _ => 0) 0
      ∧ Sycl.blockReduce_partial 2 ⟨fun t => t / 2, fun t => t % 2, 2⟩
          (Sycl.warpReduce 2 Plus ⟨fun t => t / 2, fun t => t % 2, 2⟩ 4)
          (fun i => (i : Int) + 1) ⟨3⟩ 0
        = blockReduce_partial 2 (warpReduce 2 Plus) (fun i => (i : Int) + 1) ⟨3⟩ 0)
    ∧ 0 < 3 ∧ ¬ 2 ∣ 3 ∧ 2 ≤ 3 ∧ 3 / 2 < 2
    ∧ (⟨fun t => t / 2, fun t => t % 2, 2⟩ : Sycl.SubGroups).groupRange = 3 / 2 + 1
    ∧ (Sycl.blockReduceReread ⟨fun t => t / 2, fun t => t % 2, 2⟩ 3
          (Sycl.warpReduce 2 Plus ⟨fun t => t / 2, fun t => t % 2, 2⟩ 3)
          (fun i => (i : Int) + 1) (fun _ => 0) (fun _ => 0) (3 / 2)
        = Sycl.warpReduce 2 Plus ⟨fun t => t / 2, fun t => t % 2, 2⟩ 3
            (fun i => (i : Int) + 1) (3 / 2 * 2)
      ∧ blockReduceReread 2 3 (warpReduce 2 Plus) (fun i => (i : Int) + 1) (fun _ => 0)
          (fun _ => 0) (3 / 2) = (fun _ => (0 : Int)) (3 / 2)) :=
  ⟨fun _ => rfl, fun _ => rfl, by decide, by decide, rfl,
    (sycl_matches_cuda 2 4 ⟨fun t => t / 2, fun t => t % 2, 2⟩ (fun _ => rfl) (fun _ => rfl)
      Plus (fun i => (i : Int) + 1) (fun _ => 0) (fun _ => 0) ⟨3⟩ 0 (by decide)).1
      (by decide) rfl,
    by decide, by decide, by decide, by decide, rfl,
    (sycl_matches_cuda 2 3 ⟨fun t => t / 2, fun t => t % 2, 2⟩ (fun _ => rfl) (fun _ => rfl)
      Plus (fun i => (i : Int) + 1) (fun _ => 0) (fun _ => 0) ⟨3⟩ 0 (by decide)).2.1
      (by decide) (by decide) (by decide) rfl⟩

end Gpu
end amrex
